import Mathlib

/-!
# go-fusion: keystore, accounts and version — a shallow embedding

The development follows the layout of the repository:

* `Fusion.hex`      — `encoding/hex` (Go standard library) as used by the keystore;
* `Fusion.types`    — `protocol/types/common.go` (`Hash`, `Address`, `SetBytes`);
* `Fusion.version`  — `version/version.go`;
* `Fusion.crypto`   — `protocol/crypto/crypto.go`;
* `Fusion.keystore` — `accounts/keystore/keystore.go`, `keystore_passphrase.go`;
* `Fusion.accounts` — `accounts/account.go`, `accounts/manager.go`.

Go values are modelled as follows.  A `byte` is `Fin 256`; a `[]byte` whose
capacity does not matter and a `string` are `List Byte`; a Go call that can
abort is given the result type `Outcome`, whose constructor `panic` stands for a
run-time panic.  The third-party primitives (scrypt, BLAKE2b, the AES block
function, secp256k1 arithmetic, `encoding/json`, the operating system) are not
part of the repository: they are the fields of the structure `Env`, and every
theorem is stated for an arbitrary `Env`, with the facts it needs about the
primitives as explicit hypotheses.
-/

namespace Fusion

/-- A Go `byte`. -/
abbrev Byte := Fin 256

/-- A Go `string`: an immutable sequence of bytes. -/
abbrev GoString := List Byte

deriving instance DecidableEq for Except

/-! ## encoding/hex -/

namespace hex

/-- The table `hextable = "0123456789abcdef"` of `encoding/hex`. -/
def hextable : List Byte :=
  [48, 49, 50, 51, 52, 53, 54, 55, 56, 57, 97, 98, 99, 100, 101, 102]

/-- The two characters `hextable[v>>4]`, `hextable[v&0x0f]` written for one byte. -/
def encodeByte (v : Byte) : List Byte :=
  [hextable.getD (v.val >>> 4) 0, hextable.getD (v.val &&& 0x0f) 0]

/-- `hex.EncodeToString`. -/
def EncodeToString : List Byte → GoString
  | [] => []
  | v :: rest => encodeByte v ++ EncodeToString rest

/-- The table `reverseHexTable` of `encoding/hex`: the value of a hex digit
(either case), and `0xff` for every other byte. -/
def reverseHexTable (c : Byte) : Nat :=
  if 48 ≤ c.val ∧ c.val ≤ 57 then c.val - 48
  else if 97 ≤ c.val ∧ c.val ≤ 102 then c.val - 87
  else if 65 ≤ c.val ∧ c.val ≤ 70 then c.val - 55
  else 0xff

/-- The two failures of `hex.DecodeString`. -/
inductive DecodeError where
  | invalidByte (b : Byte)
  | errLength
  deriving DecidableEq, Repr

/-- `hex.DecodeString`: pairs are consumed left to right, the first character that
is not a hex digit is reported as `InvalidByteError`; a trailing single character
is reported as `InvalidByteError` when it is not a digit and as `ErrLength`
otherwise. -/
def DecodeString : GoString → Except DecodeError (List Byte)
  | [] => .ok []
  | [p] => if reverseHexTable p > 0x0f then .error (.invalidByte p) else .error .errLength
  | p :: q :: rest =>
    if reverseHexTable p > 0x0f then .error (.invalidByte p)
    else if reverseHexTable q > 0x0f then .error (.invalidByte q)
    else
      match DecodeString rest with
      | .error e => .error e
      | .ok out => .ok (Fin.ofNat ((reverseHexTable p <<< 4) ||| reverseHexTable q) :: out)

end hex

/-! ## protocol/types/common.go -/

namespace types

/-- The constant `HashBytesNumber`. -/
def HashBytesNumber : Nat := 32

/-- The constant `AddressBytesNumber`. -/
def AddressBytesNumber : Nat := 20

/-- The type `Hash`, `[HashBytesNumber]byte`. -/
abbrev Hash := { l : List Byte // l.length = HashBytesNumber }

/-- The type `Address`, `[AddressBytesNumber]byte`. -/
abbrev Address := { l : List Byte // l.length = AddressBytesNumber }

/-- The body shared by `Hash.SetBytes` and `Address.SetBytes`, on a zero array of
`n` bytes: `b` is cropped from the left when it is longer than `n`, then copied to
the right end of the array. -/
def setBytes (n : Nat) (b : List Byte) : List Byte :=
  let b := if b.length > n then b.drop (b.length - n) else b
  List.replicate (n - b.length) 0 ++ b

/-- `BytesToHash`: `SetBytes` on a fresh (zero) `Hash`. -/
def BytesToHash (b : List Byte) : Hash :=
  ⟨setBytes HashBytesNumber b, by
    unfold setBytes
    split <;> simp only [List.length_append, List.length_replicate, List.length_drop] <;> omega⟩

/-- `BytesToAddress`: `SetBytes` on a fresh (zero) `Address`. -/
def BytesToAddress (b : List Byte) : Address :=
  ⟨setBytes AddressBytesNumber b, by
    unfold setBytes
    split <;> simp only [List.length_append, List.length_replicate, List.length_drop] <;> omega⟩

end types

/-! ## Errors and outcomes -/

/-- The `error` values the modelled code can return.  Errors created by the
repository carry the data their message is formatted from; errors created by a
library are tagged by the library. -/
inductive Err where
  /-- An error of `encoding/json`. -/
  | json (code : Nat)
  /-- An error of `hex.DecodeString`. -/
  | hex (e : hex.DecodeError)
  /-- The error of `version.FromString`, "Invalid version format". -/
  | versionFormat (s : GoString)
  /-- The error of `Compatible`, "Different spec version. Expected %v, got %v". -/
  | versionSpec (expected got : Nat)
  /-- The error of `Compatible`, "Different major version. Expected %v, got %v". -/
  | versionMajor (expected got : Nat)
  /-- The error of `Compatible`, "Different minor version. Expected %v, got %v". -/
  | versionMinor (expected got : Nat)
  /-- An error of `scrypt.Key`. -/
  | scrypt (code : Nat)
  /-- The error of `DecryptKey`, `errors.New("Mac mismactch")`. -/
  | macMismatch
  /-- The `aes.KeySizeError` of `aes.NewCipher`. -/
  | aesKeySize (n : Nat)
  /-- The error of `toECDSA`, "invalid length, need %d bits". -/
  | invalidLength (bits : Nat)
  /-- The error of `toECDSA`, "invalid private key, >=N". -/
  | invalidKeyGeN
  /-- The error of `toECDSA`, "invalid private key, zero or negative". -/
  | invalidKeyZero
  /-- The error of `toECDSA`, "invalid private key". -/
  | invalidKey
  /-- An error of `btcec` (signing or public-key recovery). -/
  | btcec (code : Nat)
  /-- An error of `ecdsa.GenerateKey`. -/
  | keygen (code : Nat)
  /-- An error of the operating system (open, read, write). -/
  | os (code : Nat)
  /-- The error of `GetKey`, "key content mismatch: have address %x, want %x". -/
  | contentMismatch (have_ want : types.Address)
  /-- The error of `Sign`, `errors.New("Account Locked,Plaese Unlock First")`. -/
  | accountLocked
  deriving DecidableEq

/-- The result of a Go call: a value, a returned `error`, or a run-time panic. -/
inductive Outcome (α : Type) where
  | ok (a : α)
  | error (e : Err)
  | panic
  deriving DecidableEq

/-! ## version/version.go -/

namespace version

/-- The struct `Info`. -/
structure Info where
  Value : Nat
  Spec : Nat
  Major : Nat
  Minor : Nat
  Revision : Nat
  StringValue : GoString
  deriving DecidableEq

/-- `strings.Split(s, ".")`: the pieces of `s` between the separator bytes; a
string without separator is returned as its only piece. -/
def split (sep : Byte) : GoString → List GoString
  | [] => [[]]
  | c :: rest =>
    if c = sep then [] :: split sep rest
    else
      match split sep rest with
      | [] => [[c]]
      | piece :: pieces => (c :: piece) :: pieces

/-- The value of a non-empty string of decimal digits, `none` when a byte is not
a digit or the string is empty. -/
def parseDigits : GoString → Option Nat
  | [] => none
  | s => s.foldl (fun acc ch =>
      match acc with
      | none => none
      | some n => if 48 ≤ ch.val ∧ ch.val ≤ 57 then some (n * 10 + (ch.val - 48)) else none)
      (some 0)

/-- The value `strconv.Atoi` returns, its error being dropped as `FromString`
does: `0` on a syntax error, the nearest `int64` on a range error. -/
def Atoi (s : GoString) : Int :=
  match s with
  | [] => 0
  | c :: rest =>
    let neg := decide (c = 45)
    let body := if c = 45 ∨ c = 43 then rest else s
    match parseDigits body with
    | none => 0
    | some n =>
      if neg then (if n > 2 ^ 63 then -(2 ^ 63 : Int) else -(n : Int))
      else (if n ≥ 2 ^ 63 then (2 ^ 63 - 1 : Int) else (n : Int))

/-- The conversion `uint64(tmp)` of an `int`. -/
def toUint64 (i : Int) : Nat := (i % (2 ^ 64 : Int)).toNat

/-- The decimal rendering of `%d` for an unsigned value. -/
def decString (n : Nat) : GoString :=
  (Nat.toDigits 10 n).map (fun c => Fin.ofNat c.toNat)

/-- `FromString`. -/
def FromString (versionString : GoString) : Except Err Info :=
  let data := split 46 versionString
  if data.length ≠ 4 then .error (.versionFormat versionString)
  else
    let spec := toUint64 (Atoi (data.getD 0 []))
    let major := toUint64 (Atoi (data.getD 1 []))
    let minor := toUint64 (Atoi (data.getD 2 []))
    let revision := toUint64 (Atoi (data.getD 3 []))
    let value : Nat := 0
    let value := value ||| ((spec <<< 48) % 2 ^ 64)
    let value := value ||| ((major <<< 32) % 2 ^ 64)
    let value := value ||| ((minor <<< 16) % 2 ^ 64)
    let value := value ||| revision
    .ok { Value := value, Spec := spec, Major := major, Minor := minor,
          Revision := revision, StringValue := versionString }

/-- `FromUint64`. -/
def FromUint64 (value : Nat) : Info :=
  let spec := (value >>> 48) &&& 0xffff
  let major := (value >>> 32) &&& 0xffff
  let minor := (value >>> 16) &&& 0xffff
  let revision := value &&& 0xffff
  { Value := value, Spec := spec, Major := major, Minor := minor, Revision := revision,
    StringValue := decString spec ++ [46] ++ decString major ++ [46] ++ decString minor
      ++ [46] ++ decString revision }

/-- `Info.Compatible`: `none` is the `nil` error. -/
def Compatible (m o : Info) : Option Err :=
  if m.Spec ≠ o.Spec then some (.versionSpec m.Spec o.Spec)
  else if m.Major ≠ o.Major then some (.versionMajor m.Major o.Major)
  else if m.Minor ≠ o.Minor then some (.versionMinor m.Minor o.Minor)
  else none

/-- The string `"0.0.0.1"`. -/
def keyStoreVersionString : GoString := [48, 46, 48, 46, 48, 46, 49]

/-- `KeyStoreVersion, _ = FromString("0.0.0.1")`.  The call succeeds; the zero
record of the other branch is never taken. -/
def KeyStoreVersion : Info :=
  match FromString keyStoreVersionString with
  | .ok info => info
  | .error _ => { Value := 0, Spec := 0, Major := 0, Minor := 0, Revision := 0, StringValue := [] }

end version

/-! ## Go slices and big integers -/

/-- A Go `[]byte` whose capacity matters: `store` holds the cells from the first
element of the slice up to its capacity, `len` is its length. -/
structure Slice where
  store : List Byte
  len : Nat
  le : len ≤ store.length
  deriving DecidableEq

/-- The `nil` slice. -/
def Slice.nil : Slice := ⟨[], 0, Nat.le_refl 0⟩

/-- The slice expression `s[lo:hi]`: it panics (`none`) unless
`lo ≤ hi ≤ cap(s)`, and otherwise gives the cells `lo .. hi-1` of the store. -/
def Slice.reslice (s : Slice) (lo hi : Nat) : Option (List Byte) :=
  if lo ≤ hi ∧ hi ≤ s.store.length then some ((s.store.take hi).drop lo) else none

/-- `new(big.Int).SetBytes(d)`: `d` read as a big-endian unsigned integer. -/
def bytesToNat (d : List Byte) : Nat :=
  d.foldl (fun acc b => acc * 256 + b.val) 0

/-- The big-endian encoding of `n % 256 ^ width` on exactly `width` bytes. -/
def toBigEndian : Nat → Nat → List Byte
  | 0, _ => []
  | width + 1, n => toBigEndian width (n / 256) ++ [Fin.ofNat (n % 256)]

/-- The bytes of `big.Int.Bytes` for the absolute value `a`: big-endian, without
leading zero bytes; `fuel` bounds the number of bytes. -/
def bigBytes : Nat → Nat → List Byte → List Byte
  | 0, _, acc => acc
  | fuel + 1, a, acc =>
    if a = 0 then acc else bigBytes fuel (a / 256) (Fin.ofNat (a % 256) :: acc)

/-- Modelled from the spec: `math.PaddedBigBytes` of `github.com/go-fusion/common/math`
is not among the sources.  The spec has `EncryptKey` encrypt "the 32-byte big-endian
zero-padded private scalar": the absolute value of the integer in big-endian order,
padded on the left with zero bytes to `n` bytes (and never truncated: a value that
needs more than `n` bytes keeps all of them). -/
def PaddedBigBytes (bigint : Int) (n : Nat) : List Byte :=
  let a := bigint.natAbs
  if a < 256 ^ n then toBigEndian n a else bigBytes a a []

/-- Modelled from the spec: `randentropy.GetEntropyCSPRNG` of
`github.com/go-fusion/protocol/crypto/randentropy` is not among the sources.  The spec
has `EncryptKey` "draw a fresh random 32-byte salt" and "a fresh random 16-byte
initialization vector"; the two draws of one call are its input here. -/
structure Entropy where
  salt : List Byte
  iv : List Byte
  salt_len : salt.length = 32
  iv_len : iv.length = 16

/-! ## The records of the keystore and of the curve library -/

/-- `ecdsa.PublicKey` on the curve `btcec.S256()`; a `nil` coordinate is `none`. -/
structure PublicKey where
  X : Option Int
  Y : Option Int
  deriving DecidableEq

/-- `ecdsa.PrivateKey` on the curve `btcec.S256()`. -/
structure PrivateKey where
  PublicKey : PublicKey
  D : Int
  deriving DecidableEq

/-- The struct `keystore.Key`; a `nil` `PrivateKey` pointer is `none`. -/
structure Key where
  Address : types.Address
  PrivateKey : Option PrivateKey
  deriving DecidableEq

/-- The struct `encryptedKeyJSON`. -/
structure EncryptedKeyJSON where
  Address : GoString
  N : Int
  R : Int
  P : Int
  DKlen : Int
  Salt : GoString
  IV : GoString
  Mac : GoString
  CipherText : GoString
  Version : Nat
  deriving DecidableEq

/-- What a call of `scrypt.Key` does: it panics, or returns a slice and an error. -/
inductive ScryptResult where
  | panic
  | ret (derivedKey : Slice) (err : Option Err)
  deriving DecidableEq

/-- The primitives the repository imports from outside. -/
structure Env where
  /-- `json.Marshal` of an `encryptedKeyJSON`. -/
  jsonMarshal : EncryptedKeyJSON → List Byte
  /-- `json.Unmarshal` into an `encryptedKeyJSON`. -/
  jsonUnmarshal : List Byte → Except Err EncryptedKeyJSON
  /-- `json.Marshal` of a `Key` (the plain keystore). -/
  jsonMarshalKey : Key → Except Err (List Byte)
  /-- `json.Unmarshal` into a `Key` (the plain keystore). -/
  jsonUnmarshalKey : List Byte → Except Err Key
  /-- `json.NewDecoder(r).Decode` into `struct { Address string }`, whose `Address`
  was reset to `""`: the value of `Address` afterwards. -/
  jsonDecodeAddress : List Byte → Except Err GoString
  /-- `scrypt.Key(password, salt, N, r, p, keyLen)`. -/
  scryptKey : List Byte → List Byte → Int → Int → Int → Int → ScryptResult
  /-- The BLAKE2b-256 digest of everything written to a `blake2b.New256(nil)` hash. -/
  blake2b256 : List Byte → List Byte
  /-- Byte `i` of the key stream of `cipher.NewCTR(aes.NewCipher(key), iv)`. -/
  ctrKeyStream : List Byte → List Byte → Nat → Byte
  /-- `btcec.S256().ScalarBaseMult(d)`. -/
  scalarBaseMult : List Byte → Option Int × Option Int
  /-- `elliptic.Marshal(btcec.S256(), x, y)`; `none` when it panics. -/
  ellipticMarshal : Int → Int → Option (List Byte)
  /-- `btcec.SignCompact(btcec.S256(), key, hash, false)` for a non-nil key. -/
  signCompact : PrivateKey → List Byte → Except Err (List Byte)
  /-- `btcec.RecoverCompact(btcec.S256(), sig, hash)`: the public key, or the error. -/
  recoverCompact : List Byte → List Byte → Except Err PublicKey
  /-- `filepath.Join(dir, name)`. -/
  filepathJoin : GoString → GoString → GoString

/-! ## protocol/crypto/crypto.go -/

namespace crypto

/-- The order `btcec.S256().N` of the group of secp256k1. -/
def S256N : Nat := 0xFFFFFFFFFFFFFFFFFFFFFFFFFFFFFFFEBAAEDCE6AF48A03BBFD25E8CD0364141

/-- `btcec.S256().Params().BitSize`. -/
def S256BitSize : Nat := 256

/-- `Hash256`: every part is written to one BLAKE2b-256 hash, whose digest is
turned into a `Hash`.  (`blake2b.New256(nil)` does not fail.) -/
def Hash256 (E : Env) (data : List (List Byte)) : types.Hash :=
  let written := data.foldl (fun d b => d ++ b) []
  types.BytesToHash (E.blake2b256 written)

/-- `toECDSA`. -/
def toECDSA (E : Env) (d : List Byte) (strict : Bool) : Except Err PrivateKey :=
  if strict ∧ 8 * d.length ≠ S256BitSize then .error (.invalidLength S256BitSize)
  else
    let D : Int := (bytesToNat d : Int)
    if D ≥ (S256N : Int) then .error .invalidKeyGeN
    else if D ≤ 0 then .error .invalidKeyZero
    else
      let XY := E.scalarBaseMult d
      if XY.1 = none then .error .invalidKey
      else .ok { PublicKey := { X := XY.1, Y := XY.2 }, D := D }

/-- `ToECDSA`. -/
def ToECDSA (E : Env) (d : List Byte) : Except Err PrivateKey :=
  toECDSA E d true

/-- `ToECDSAUnsafe`: the error of `toECDSA` is dropped, the pointer returned is
`nil` (`none`) when there was one. -/
def ToECDSAUnsafe (E : Env) (d : List Byte) : Option PrivateKey :=
  match toECDSA E d false with
  | .ok priv => some priv
  | .error _ => none

/-- `FromECDSAPub`: the `nil` slice is `[]`; the call panics when
`elliptic.Marshal` does. -/
def FromECDSAPub (E : Env) (pub : Option PublicKey) : Outcome (List Byte) :=
  match pub with
  | none => .ok []
  | some p =>
    match p.X, p.Y with
    | some x, some y =>
      match E.ellipticMarshal x y with
      | some b => .ok b
      | none => .panic
    | _, _ => .ok []

/-- `PubkeyToAddress`: `pubBytes[1:]` panics on an empty slice; `data[12:]` is the
last 20 bytes of the digest. -/
def PubkeyToAddress (E : Env) (p : Option PublicKey) : Outcome types.Address :=
  match FromECDSAPub E p with
  | .ok pubBytes =>
    match pubBytes with
    | [] => .panic
    | _ :: rest =>
      let data := Hash256 E [rest]
      .ok (types.BytesToAddress (data.val.drop 12))
  | .error e => .error e
  | .panic => .panic

/-- `SigToPub`: the recovered key (`nil` with an error). -/
def SigToPub (E : Env) (hash : types.Hash) (sig : List Byte) : Except Err PublicKey :=
  E.recoverCompact sig hash.val

/-- `Sender`. -/
def Sender (E : Env) (hash : types.Hash) (sig : List Byte) : Outcome types.Address :=
  match SigToPub E hash sig with
  | .error e => .error e
  | .ok pub => PubkeyToAddress E (some pub)

end crypto

/-! ## protocol/types/common.go: the checksum encoding of an address -/

namespace blake2b

/-- `blake2b.Sum256(data)`: the BLAKE2b-256 digest of `data`, a `[32]byte`. -/
def Sum256 (E : Env) (data : List Byte) : types.Hash :=
  types.BytesToHash (E.blake2b256 data)

end blake2b

namespace types

/-- The value of the variable `hashByte` of `Address.Hex` when position `i` is
compared: `hash[i/2] >> 4` for an even `i`, `hash[i/2] & 0xf` for an odd one. -/
def Address.Hex.hashByte (hash : Hash) (i : Nat) : Nat :=
  let hashByte := hash.val.getD (i / 2) 0
  if i % 2 = 0 then hashByte.val >>> 4 else hashByte.val &&& 0xf

/-- The loop of `Address.Hex` from position `i` on, over the characters of
`result` that are left: `result[i] -= 32` when `result[i] > '9'` and
`hashByte > 7` (the subtraction is the one of `byte`). -/
def Address.Hex.loop (hash : Hash) : Nat → List Byte → List Byte
  | _, [] => []
  | i, c :: rest =>
    (if c.val > 57 ∧ Address.Hex.hashByte hash i > 7 then c - 32 else c)
      :: Address.Hex.loop hash (i + 1) rest

/-- `Address.Hex`. -/
def Address.Hex (E : Env) (a : Address) : GoString :=
  let unchecksummed := hex.EncodeToString a.val
  let hash := blake2b.Sum256 E unchecksummed
  Address.Hex.loop hash 0 unchecksummed

/-- `Address.String`: `"0x" + a.Hex()`. -/
def Address.String (E : Env) (a : Address) : GoString :=
  [48, 120] ++ Address.Hex E a

end types

/-! ## The file system -/

/-- One call of the function `filepath.Walk` is given: the path, whether the
`os.FileInfo` is non-nil and then whether it is a directory, and the error. -/
structure Visit where
  path : GoString
  info : Option Bool
  err : Option Err
  deriving DecidableEq

/-- The state of the file system, as far as the repository observes it. -/
structure FileSys where
  /-- The bytes `ioutil.ReadFile` (or `os.Open` and reading to the end) gives. -/
  read : GoString → Except Err (List Byte)
  /-- The error `ioutil.WriteFile` returns at a path, `none` when it succeeds. -/
  writeErr : GoString → Option Err
  /-- The calls `filepath.Walk(root, fn)` makes, in order, as long as `fn`
  returns `nil`. -/
  walk : GoString → List Visit

/-- The file system after a successful `ioutil.WriteFile(filename, data, 0600)`. -/
def FileSys.write (fs : FileSys) (filename : GoString) (data : List Byte) : FileSys :=
  { fs with read := fun path => if path = filename then .ok data else fs.read path }

/-! ## accounts/keystore -/

namespace keystore

/-- The constant `StandardScryptN`. -/
def StandardScryptN : Int := 2 ^ 18

/-- The constant `StandardScryptP`. -/
def StandardScryptP : Int := 1

/-- The constant `LightScryptN`. -/
def LightScryptN : Int := 2 ^ 12

/-- The constant `LightScryptP`. -/
def LightScryptP : Int := 6

/-- The constant `scryptR`. -/
def scryptR : Int := 8

/-- The constant `scryptDKLen`. -/
def scryptDKLen : Int := 32

/-- The fields `scryptN`, `scryptP` of the struct `passphraseKeyStore`. -/
structure passphraseKeyStore where
  scryptN : Int
  scryptP : Int
  deriving DecidableEq

/-- The struct `keyStore`: `impl` is `nil` for the plain keystore. -/
structure keyStore where
  impl : Option passphraseKeyStore
  deriving DecidableEq

/-- `aes.NewCipher(key)`: the `KeySizeError` unless the key has 16, 24 or 32 bytes. -/
def aesNewCipher (key : List Byte) : Option Err :=
  if key.length = 16 ∨ key.length = 24 ∨ key.length = 32 then none
  else some (.aesKeySize key.length)

/-- `stream.XORKeyStream(dst, src)` with `len(dst) = len(src)`, for a stream whose
next key-stream byte has index `i`. -/
def xorKeyStream (stream : Nat → Byte) : Nat → List Byte → List Byte
  | _, [] => []
  | i, b :: rest => (b ^^^ stream i) :: xorKeyStream stream (i + 1) rest

/-- The struct `EncryptKey` marshals: everything `EncryptKey` does before
`json.Marshal`. -/
def EncryptKey.envelope (E : Env) (m : passphraseKeyStore) (k : Key) (auth : GoString)
    (ent : Entropy) : Outcome EncryptedKeyJSON :=
  let authArray := auth
  let salt := ent.salt
  match E.scryptKey authArray salt m.scryptN scryptR m.scryptP scryptDKLen with
  | .panic => .panic
  | .ret _ (some err) => .error err
  | .ret derivedKey none =>
    match derivedKey.reslice 0 16 with
    | none => .panic
    | some encryptKey =>
      match k.PrivateKey with
      | none => .panic
      | some priv =>
        let keyBytes := PaddedBigBytes priv.D 32
        let iv := ent.iv
        match aesNewCipher encryptKey with
        | some err => .error err
        | none =>
          if iv.length ≠ 16 then .panic
          else
            let cipherText := xorKeyStream (E.ctrKeyStream encryptKey iv) 0 keyBytes
            match derivedKey.reslice 16 32 with
            | none => .panic
            | some macKey =>
              let mac := crypto.Hash256 E [macKey, cipherText]
              .ok { Address := hex.EncodeToString k.Address.val
                    N := m.scryptN
                    R := scryptR
                    P := m.scryptP
                    DKlen := scryptDKLen
                    Salt := hex.EncodeToString salt
                    IV := hex.EncodeToString iv
                    Mac := hex.EncodeToString mac.val
                    CipherText := hex.EncodeToString cipherText
                    Version := version.KeyStoreVersion.Value }

/-- `passphraseKeyStore.EncryptKey`. -/
def EncryptKey (E : Env) (m : passphraseKeyStore) (k : Key) (auth : GoString)
    (ent : Entropy) : Outcome (List Byte) :=
  match EncryptKey.envelope E m k auth ent with
  | .ok j => .ok (E.jsonMarshal j)
  | .error e => .error e
  | .panic => .panic

/-- The part of `DecryptKey` that follows the decoding of the hex fields: the key
derivation, whose error is not looked at, the MAC check and the decryption. -/
def DecryptKey.open (E : Env) (j : EncryptedKeyJSON) (auth : GoString)
    (salt cipherText : List Byte) (mac : types.Hash) (iv : List Byte)
    (address : types.Address) : Outcome Key :=
  match E.scryptKey auth salt j.N j.R j.P j.DKlen with
  | .panic => .panic
  | .ret derivedKey _ =>
    match derivedKey.reslice 16 32 with
    | none => .panic
    | some macKey =>
      if crypto.Hash256 E [macKey, cipherText] ≠ mac then .error .macMismatch
      else
        match derivedKey.reslice 0 16 with
        | none => .panic
        | some encryptKey =>
          match aesNewCipher encryptKey with
          | some err => .error err
          | none =>
            if iv.length ≠ 16 then .panic
            else
              let plainText := xorKeyStream (E.ctrKeyStream encryptKey iv) 0 cipherText
              .ok { Address := address, PrivateKey := crypto.ToECDSAUnsafe E plainText }

/-- `passphraseKeyStore.DecryptKey`. -/
def DecryptKey (E : Env) (data : List Byte) (auth : GoString) : Outcome Key :=
  match E.jsonUnmarshal data with
  | .error e => .error e
  | .ok j =>
    match version.Compatible (version.FromUint64 j.Version) version.KeyStoreVersion with
    | some e => .error e
    | none =>
      match hex.DecodeString j.Salt with
      | .error e => .error (.hex e)
      | .ok salt =>
        match hex.DecodeString j.CipherText with
        | .error e => .error (.hex e)
        | .ok cipherText =>
          match hex.DecodeString j.Mac with
          | .error e => .error (.hex e)
          | .ok macBytes =>
            let mac := types.BytesToHash macBytes
            match hex.DecodeString j.IV with
            | .error e => .error (.hex e)
            | .ok iv =>
              match hex.DecodeString j.Address with
              | .error e => .error (.hex e)
              | .ok addressBytes =>
                let address := types.BytesToAddress addressBytes
                DecryptKey.open E j auth salt cipherText mac iv address

/-- The bytes of `derivedKey[:16]`, for a derived key of capacity at least 16. -/
def encryptionKey (dk : Slice) : List Byte := (dk.store.take 16).drop 0

/-- The bytes of `derivedKey[16:32]`, for a derived key of capacity at least 32. -/
def macKey (dk : Slice) : List Byte := (dk.store.take 32).drop 16

/-- The cipher text `EncryptKey` computes for the scalar `D` from the derived key
`dk` and the IV. -/
def cipherTextOf (E : Env) (dk : Slice) (iv : List Byte) (D : Int) : List Byte :=
  xorKeyStream (E.ctrKeyStream (encryptionKey dk) iv) 0 (PaddedBigBytes D 32)

/-- `NewPassphraseKeyStore`. -/
def NewPassphraseKeyStore (n p : Int) : keyStore :=
  { impl := some { scryptN := n, scryptP := p } }

/-- The plain `keyStore.EncryptKey`. -/
def plainEncryptKey (E : Env) (k : Key) : Outcome (List Byte) :=
  match E.jsonMarshalKey k with
  | .ok data => .ok data
  | .error e => .error e

/-- The plain `keyStore.DecryptKey`. -/
def plainDecryptKey (E : Env) (data : List Byte) : Outcome Key :=
  match E.jsonUnmarshalKey data with
  | .ok key => .ok key
  | .error e => .error e

/-- `keyStore.GetKey`. -/
def GetKey (E : Env) (fs : FileSys) (m : keyStore) (filename : GoString)
    (addr : types.Address) (auth : GoString) : Outcome Key :=
  match fs.read filename with
  | .error e => .error e
  | .ok data =>
    let r := match m.impl with
      | some _ => DecryptKey E data auth
      | none => plainDecryptKey E data
    match r with
    | .error e => .error e
    | .panic => .panic
    | .ok key =>
      if key.Address ≠ addr then .error (.contentMismatch key.Address addr)
      else .ok key

/-- `keyStore.StoreKey`: the file system afterwards and the error returned;
`none` when the call panics. -/
def StoreKey (E : Env) (fs : FileSys) (m : keyStore) (filename : GoString) (k : Key)
    (auth : GoString) (ent : Entropy) : Option (FileSys × Option Err) :=
  let r := match m.impl with
    | some impl => EncryptKey E impl k auth ent
    | none => plainEncryptKey E k
  match r with
  | .panic => none
  | .error e => some (fs, some e)
  | .ok data =>
    match fs.writeErr filename with
    | some e => some (fs, some e)
    | none => some (fs.write filename data, none)

/-- The fields of a `time.Time` that `toISO8601` reads. -/
structure Time where
  Year : Int
  Month : Nat
  Day : Nat
  Hour : Nat
  Minute : Nat
  Second : Nat
  Nanosecond : Nat
  zoneName : GoString
  zoneOffset : Int

/-- The verb `%0<width>d`: decimal digits, padded with zeros to `width`
characters, the sign of a negative number counted among them. -/
def fmtD (width : Nat) (n : Int) : GoString :=
  let digits := version.decString n.natAbs
  if n < 0 then
    45 :: (List.replicate (width - 1 - digits.length) 48 ++ digits)
  else List.replicate (width - digits.length) 48 ++ digits

/-- `toISO8601`. -/
def toISO8601 (t : Time) : GoString :=
  let tz : GoString :=
    if t.zoneName = [85, 84, 67] then [90]
    else fmtD 3 (Int.tdiv t.zoneOffset 3600) ++ [48, 48]
  fmtD 4 t.Year ++ [45] ++ fmtD 2 t.Month ++ [45] ++ fmtD 2 t.Day ++ [84]
    ++ fmtD 2 t.Hour ++ [45] ++ fmtD 2 t.Minute ++ [45] ++ fmtD 2 t.Second ++ [46]
    ++ fmtD 9 t.Nanosecond ++ tz

/-- `keyFileName`, for the reading `now` of `time.Now()`; `UTC()` keeps the instant
and sets the zone to UTC. -/
def keyFileName (now : Time) (keyAddr : types.Address) : GoString :=
  let ts : Time := { now with zoneName := [85, 84, 67], zoneOffset := 0 }
  [85, 84, 67, 45, 45] ++ toISO8601 ts ++ [45, 45] ++ hex.EncodeToString keyAddr.val
    ++ [46, 106, 115, 111, 110]

/-- `newKeyFromECDSA`. -/
def newKeyFromECDSA (E : Env) (privateKeyECDSA : PrivateKey) : Outcome Key :=
  match crypto.PubkeyToAddress E (some privateKeyECDSA.PublicKey) with
  | .ok address => .ok { Address := address, PrivateKey := some privateKeyECDSA }
  | .error e => .error e
  | .panic => .panic

/-- `newKey`, for the result `generated` of `ecdsa.GenerateKey(btcec.S256(), rand)`. -/
def newKey (E : Env) (generated : Except Err PrivateKey) : Outcome Key :=
  match generated with
  | .error e => .error e
  | .ok privateKeyECDSA => newKeyFromECDSA E privateKeyECDSA

/-- What one call of `NewKey` reads from outside: the generated key, the clock and
the random bytes of `EncryptKey`. -/
structure Draw where
  generated : Except Err PrivateKey
  now : Time
  entropy : Entropy

/-- What `NewKey` returns without error: address, key and file name. -/
structure NewKeyResult where
  address : types.Address
  key : Key
  filename : GoString

/-- `keyStore.NewKey`: the file system afterwards and the values returned; `none`
when the call panics. -/
def NewKey (E : Env) (fs : FileSys) (m : keyStore) (dir : GoString) (auth : GoString)
    (draw : Draw) : Option (FileSys × Except Err NewKeyResult) :=
  match newKey E draw.generated with
  | .panic => none
  | .error e => some (fs, .error e)
  | .ok key =>
    match key.PrivateKey with
    | none => none
    | some priv =>
      match crypto.PubkeyToAddress E (some priv.PublicKey) with
      | .panic => none
      | .error e => some (fs, .error e)
      | .ok address =>
        let filename := E.filepathJoin dir (keyFileName draw.now address)
        match StoreKey E fs m filename key auth draw.entropy with
        | none => none
        | some (fs1, some e) => some (fs1, .error e)
        | some (fs1, none) =>
          some (fs1, .ok { address := address, key := key, filename := filename })

end keystore

/-! ## accounts/account.go and accounts/manager.go -/

namespace accounts

/-- The struct `account` without its mutex; `key` is `none` when the pointer is
`nil`, which is the state the spec calls Locked. -/
structure account where
  address : types.Address
  key : Option Key
  filename : GoString
  ks : keystore.keyStore
  deriving DecidableEq

/-- `account.Address`. -/
def Address (m : account) : types.Address := m.address

/-- `account.Lock`: the account afterwards and the error returned (always `nil`).
`clearKey` overwrites the words of the scalar of the key object that is about to be
dropped; the account no longer refers to that object afterwards. -/
def Lock (m : account) : account × Option Err :=
  ({ m with key := none }, none)

/-- What `Unlock` leaves behind: the account, the error returned, and the timeout
of the relock goroutine it started, if it started one. -/
structure UnlockResult where
  acct : account
  err : Option Err
  timer : Option Int
  deriving DecidableEq

/-- `account.Unlock`; `none` when the call panics. -/
def Unlock (E : Env) (fs : FileSys) (m : account) (passphrase : GoString)
    (timeout : Int) : Option UnlockResult :=
  match keystore.GetKey E fs m.ks m.filename m.address passphrase with
  | .panic => none
  | .error err => some { acct := m, err := some err, timer := none }
  | .ok key =>
    some { acct := { m with key := some key }, err := none,
           timer := if timeout > 0 then some timeout else none }

/-- `account.Sign`: `btcec.SignCompact` dereferences the private key, so a `nil`
`PrivateKey` panics. -/
def Sign (E : Env) (m : account) (hash : types.Hash) : Outcome (List Byte) :=
  match m.key with
  | none => .error .accountLocked
  | some key =>
    match key.PrivateKey with
    | none => .panic
    | some prv =>
      match E.signCompact prv hash.val with
      | .ok sig => .ok sig
      | .error e => .error e

/-- `newAccount`: the file system afterwards and the values returned; `none` when
the call panics. -/
def newAccount (E : Env) (fs : FileSys) (dir : GoString) (ks : keystore.keyStore)
    (auth : GoString) (draw : keystore.Draw) : Option (FileSys × Except Err account) :=
  match keystore.NewKey E fs ks dir auth draw with
  | none => none
  | some (fs1, .error err) => some (fs1, .error err)
  | some (fs1, .ok r) =>
    let ret : account :=
      { address := r.address, key := some r.key, filename := r.filename, ks := ks }
    some (fs1, .ok (Lock ret).1)

/-- A Go `map[types.Address]Account`, as the list of its entries; no two entries
have the same key. -/
abbrev Registry := List (types.Address × account)

/-- The assignment `accounts[addr] = a`. -/
def Registry.set (reg : Registry) (addr : types.Address) (a : account) : Registry :=
  (addr, a) :: reg.filter (fun e => e.1 ≠ addr)

/-- The struct `manager`. -/
structure manager where
  dir : GoString
  accounts : Registry
  ks : keystore.keyStore
  deriving DecidableEq

/-- The closure `readAccount` of `scanAccounts`; `none` is the `nil` account. -/
def readAccount (E : Env) (fs : FileSys) (ks : keystore.keyStore) (path : GoString) :
    Option account :=
  match fs.read path with
  | .error _ => none
  | .ok content =>
    match E.jsonDecodeAddress content with
    | .error _ => none
    | .ok keyAddress =>
      match hex.DecodeString keyAddress with
      | .error _ => none
      | .ok addr =>
        if addr.length ≠ types.AddressBytesNumber then none
        else some { address := types.BytesToAddress addr, key := none,
                    filename := path, ks := ks }

/-- The function `scanAccounts` passes to `filepath.Walk`, run over the calls the
walk makes: a `nil` file info returns the error of the walk, which ends the walk
when it is not `nil`; a directory is passed over; any other file is read and, when
it gives an account, registered. -/
def scanVisits (E : Env) (fs : FileSys) (ks : keystore.keyStore) :
    List Visit → Registry → Registry
  | [], reg => reg
  | v :: rest, reg =>
    match v.info with
    | none =>
      match v.err with
      | some _ => reg
      | none => scanVisits E fs ks rest reg
    | some true => scanVisits E fs ks rest reg
    | some false =>
      match readAccount E fs ks v.path with
      | none => scanVisits E fs ks rest reg
      | some a => scanVisits E fs ks rest (reg.set (Address a) a)

/-- `manager.scanAccounts`. -/
def scanAccounts (E : Env) (fs : FileSys) (m : manager) : manager :=
  { m with accounts := scanVisits E fs m.ks (fs.walk m.dir) m.accounts }

/-- `NewManager`. -/
def NewManager (E : Env) (fs : FileSys) (dir : GoString) : manager :=
  scanAccounts E fs
    { dir := dir
      accounts := []
      ks := keystore.NewPassphraseKeyStore keystore.StandardScryptN keystore.StandardScryptP }

/-- `manager.Accounts`; the order of the result is not specified by Go. -/
def Accounts (m : manager) : List account :=
  m.accounts.map (fun e => e.2)

/-- `manager.NewAccount`: the file system and the manager afterwards and the values
returned; `none` when the call panics. -/
def NewAccount (E : Env) (fs : FileSys) (m : manager) (passphrase : GoString)
    (draw : keystore.Draw) : Option (FileSys × manager × Except Err account) :=
  match newAccount E fs m.dir m.ks passphrase draw with
  | none => none
  | some (fs1, .error err) => some (fs1, m, .error err)
  | some (fs1, .ok a) =>
    some (fs1, { m with accounts := m.accounts.set (Address a) a }, .ok a)

/-- The value of `accounts[addr]`, `none` when the map has no such key. -/
def Registry.get (reg : Registry) (addr : types.Address) : Option account :=
  (reg.find? (fun e => e.1 = addr)).map (fun e => e.2)

/-- The accounts `readAccount` returns for the regular files among the calls of a
walk, in the order of the walk, up to the call that ends it. -/
def accepted (E : Env) (fs : FileSys) (ks : keystore.keyStore) : List Visit → List account
  | [] => []
  | v :: rest =>
    match v.info with
    | none =>
      match v.err with
      | some _ => []
      | none => accepted E fs ks rest
    | some true => accepted E fs ks rest
    | some false =>
      match readAccount E fs ks v.path with
      | none => accepted E fs ks rest
      | some a => a :: accepted E fs ks rest

/-- A sequence of calls of `NewAccount`, each with its passphrase and what it reads
from outside; `none` when one of them panics. -/
def NewAccounts (E : Env) : FileSys → manager → List (GoString × keystore.Draw) →
    Option (FileSys × manager)
  | fs, m, [] => some (fs, m)
  | fs, m, (passphrase, draw) :: rest =>
    match NewAccount E fs m passphrase draw with
    | none => none
    | some (fs1, m1, _) => NewAccounts E fs1 m1 rest

/-- What can happen to an account: the three methods that take its lock, and the
firing of a timer started by `Unlock`, which calls `Lock`. -/
inductive Op where
  | lock
  | unlock (fs : FileSys) (passphrase : GoString) (timeout : Int)
  | sign (hash : types.Hash)
  | timerFires

/-- The account after one operation.  `Sign` only reads the account; an `Unlock` that
panics does so inside `GetKey`, before the key is assigned. -/
def step (E : Env) (m : account) : Op → account
  | .lock => (Lock m).1
  | .unlock fs passphrase timeout =>
    match Unlock E fs m passphrase timeout with
    | some r => r.acct
    | none => m
  | .sign _ => m
  | .timerFires => (Lock m).1

/-- The account after a sequence of operations. -/
def run (E : Env) (m : account) (ops : List Op) : account :=
  ops.foldl (step E) m

/-- An account together with the timers that were started for it and have not fired
yet, each with the timeout it was started with, oldest first. -/
structure Timed where
  acct : account
  timers : List Int

/-- An event of the step model of the relock timers: a call of `Lock`, `Unlock` or
`Sign`, or the firing of the pending timer number `i`. -/
inductive Event where
  | lock
  | unlock (fs : FileSys) (passphrase : GoString) (timeout : Int)
  | sign (hash : types.Hash)
  | fire (i : Nat)

/-- One step of the model: `Unlock` appends the timer it started, if any; a timer
that fires calls `Lock` and is no longer pending; nothing else touches the timers. -/
def Timed.step (E : Env) (s : Timed) : Event → Timed
  | .lock => { s with acct := (Lock s.acct).1 }
  | .unlock fs passphrase timeout =>
    match Unlock E fs s.acct passphrase timeout with
    | some r => { acct := r.acct, timers := s.timers ++ r.timer.toList }
    | none => s
  | .sign _ => s
  | .fire i =>
    if i < s.timers.length then
      { acct := (Lock s.acct).1, timers := s.timers.eraseIdx i }
    else s

end accounts

/-! ## A small instance of the primitives

`Sample.env` gives every field of `Env` a small computable value, so that the
definitions above can be evaluated on concrete inputs.  Its JSON functions write
and read the text `encoding/json` writes for an `encryptedKeyJSON` whose strings
need no escaping; its other fields stand in for the cryptographic functions and
keep only their shape (lengths, argument checks, sign/recover agreement). -/

namespace Sample

/-- The bytes of an ASCII string. -/
def bytes (s : String) : List Byte :=
  s.toList.map (fun c => Fin.ofNat c.toNat)

/-- A number computed from all the bytes of a string, in order. -/
def fold (data : List Byte) : Nat :=
  data.foldl (fun acc b => (acc * 257 + b.val + 1) % 1000003) 7

/-- `n` bytes spread from a seed. -/
def spread (seed n : Nat) : List Byte :=
  (List.range n).map (fun i => Fin.ofNat ((seed + 1) * (2 * i + 3) + i * i))

/-- The decimal text of an integer. -/
def intText (i : Int) : List Byte :=
  if i < 0 then 45 :: version.decString i.natAbs else version.decString i.natAbs

/-- The text of an envelope, fields in the order of the struct. -/
def jsonMarshal (j : EncryptedKeyJSON) : List Byte :=
  bytes "\x7b\"Address\":\"" ++ j.Address
    ++ bytes "\",\"N\":" ++ intText j.N
    ++ bytes ",\"R\":" ++ intText j.R
    ++ bytes ",\"P\":" ++ intText j.P
    ++ bytes ",\"DKlen\":" ++ intText j.DKlen
    ++ bytes ",\"Salt\":\"" ++ j.Salt
    ++ bytes "\",\"IV\":\"" ++ j.IV
    ++ bytes "\",\"Mac\":\"" ++ j.Mac
    ++ bytes "\",\"CipherText\":\"" ++ j.CipherText
    ++ bytes "\",\"Version\":" ++ version.decString j.Version
    ++ bytes "\x7d"

/-- The rest of `s` after the literal `lit`. -/
def expect : List Byte → List Byte → Option (List Byte)
  | [], s => some s
  | _ :: _, [] => none
  | c :: lit, d :: s => if c = d then expect lit s else none

/-- The bytes before the next `"` and the text after it. -/
def readString : List Byte → Option (GoString × List Byte)
  | [] => none
  | c :: s =>
    if c = 34 then some ([], s)
    else
      match readString s with
      | none => none
      | some (str, rest) => some (c :: str, rest)

/-- The decimal digits `s` starts with, and the text after them. -/
def readDigits : List Byte → List Byte × List Byte
  | [] => ([], [])
  | c :: s =>
    if 48 ≤ c.val ∧ c.val ≤ 57 then
      let r := readDigits s
      (c :: r.1, r.2)
    else ([], c :: s)

/-- A decimal integer with an optional minus sign, and the text after it. -/
def readInt (s : List Byte) : Option (Int × List Byte) :=
  match s with
  | [] => none
  | c :: rest =>
    let neg := decide (c = 45)
    let r := readDigits (if neg then rest else s)
    match version.parseDigits r.1 with
    | none => none
    | some n => some (if neg then -(n : Int) else (n : Int), r.2)

/-- A string field: the literal `key`, then the bytes up to the next `"`. -/
def strField (key : String) (s : List Byte) : Option (GoString × List Byte) :=
  (expect (bytes key) s).bind readString

/-- An integer field: the literal `key`, then a decimal integer. -/
def intField (key : String) (s : List Byte) : Option (Int × List Byte) :=
  (expect (bytes key) s).bind readInt

/-- The envelope a text written by `jsonMarshal` stands for; an error on any
other text. -/
def jsonUnmarshal (data : List Byte) : Except Err EncryptedKeyJSON :=
  let parsed : Option EncryptedKeyJSON :=
    (strField "\x7b\"Address\":\"" data).bind fun address =>
    (intField ",\"N\":" address.2).bind fun n =>
    (intField ",\"R\":" n.2).bind fun r =>
    (intField ",\"P\":" r.2).bind fun p =>
    (intField ",\"DKlen\":" p.2).bind fun dklen =>
    (strField ",\"Salt\":\"" dklen.2).bind fun salt =>
    (strField ",\"IV\":\"" salt.2).bind fun iv =>
    (strField ",\"Mac\":\"" iv.2).bind fun mac =>
    (strField ",\"CipherText\":\"" mac.2).bind fun cipherText =>
    (intField ",\"Version\":" cipherText.2).bind fun v =>
    if v.1 < 0 ∨ v.2 ≠ bytes "\x7d" then none
    else some { Address := address.1, N := n.1, R := r.1, P := p.1, DKlen := dklen.1,
                Salt := salt.1, IV := iv.1, Mac := mac.1, CipherText := cipherText.1,
                Version := v.1.toNat }
  match parsed with
  | some j => .ok j
  | none => .error (.json 1)

/-- The `Address` string of a text that starts as the text of an envelope does. -/
def jsonDecodeAddress (data : List Byte) : Except Err GoString :=
  match expect (bytes "\x7b\"Address\":\"") data with
  | none => .error (.json 1)
  | some s =>
    match readString s with
    | none => .error (.json 1)
    | some (address, _) => .ok address

/-- Whether an integer is a power of two. -/
def isPow2 (n : Int) : Bool :=
  decide (0 < n) && decide (n.toNat &&& (n.toNat - 1) = 0)

/-- The argument checks of `scrypt.Key` (an error and the `nil` slice when `N` is
not a power of two greater than 1, a division by zero when `r` or `p` is 0), and
`keyLen` bytes cut from a store of whole 32-byte blocks. -/
def scryptKey (password salt : List Byte) (N r p keyLen : Int) : ScryptResult :=
  if N ≤ 1 ∨ isPow2 N = false then .ret Slice.nil (some (.scrypt 1))
  else if r = 0 ∨ p = 0 ∨ keyLen < 0 then .panic
  else if r < 0 ∨ p < 0 ∨ r * p ≥ 2 ^ 30 then .ret Slice.nil (some (.scrypt 2))
  else
    let seed := fold password * 31 + fold salt * 17 + N.toNat + r.toNat * 3 + p.toNat * 5
    let store := spread seed (32 * ((keyLen.toNat + 31) / 32))
    .ret ⟨store, min keyLen.toNat store.length, Nat.min_le_right _ _⟩ none

/-- A 32-byte digest. -/
def blake2b256 (data : List Byte) : List Byte :=
  spread (fold data) 32

/-- A key stream. -/
def ctrKeyStream (key iv : List Byte) (i : Nat) : Byte :=
  Fin.ofNat (fold key + 3 * fold iv + 7 * i)

/-- A point for every scalar. -/
def scalarBaseMult (d : List Byte) : Option Int × Option Int :=
  (some ((bytesToNat d * 3 + 1) % 2 ^ 256 : Nat), some ((bytesToNat d * 5 + 2) % 2 ^ 256 : Nat))

/-- The uncompressed form `04 ‖ X ‖ Y` of a point whose coordinates fit 32 bytes. -/
def ellipticMarshal (x y : Int) : Option (List Byte) :=
  if 0 ≤ x ∧ x < 2 ^ 256 ∧ 0 ≤ y ∧ y < 2 ^ 256 then
    some (4 :: (toBigEndian 32 x.toNat ++ toBigEndian 32 y.toNat))
  else none

/-- A 65-byte signature from which the public key of the signer can be read. -/
def signCompact (priv : PrivateKey) (_hash : List Byte) : Except Err (List Byte) :=
  match priv.PublicKey.X, priv.PublicKey.Y with
  | some x, some y => .ok (27 :: (toBigEndian 32 x.toNat ++ toBigEndian 32 y.toNat))
  | _, _ => .error (.btcec 1)

/-- The public key read from a 65-byte signature. -/
def recoverCompact (sig _hash : List Byte) : Except Err PublicKey :=
  if sig.length ≠ 65 then .error (.btcec 2)
  else .ok { X := some (bytesToNat ((sig.drop 1).take 32) : Nat),
             Y := some (bytesToNat (sig.drop 33) : Nat) }

/-- The instance. -/
def env : Env where
  jsonMarshal := jsonMarshal
  jsonUnmarshal := jsonUnmarshal
  jsonMarshalKey := fun _ => .error (.json 2)
  jsonUnmarshalKey := fun _ => .error (.json 2)
  jsonDecodeAddress := jsonDecodeAddress
  scryptKey := scryptKey
  blake2b256 := blake2b256
  ctrKeyStream := ctrKeyStream
  scalarBaseMult := scalarBaseMult
  ellipticMarshal := ellipticMarshal
  signCompact := signCompact
  recoverCompact := recoverCompact
  filepathJoin := fun dir name => dir ++ [47] ++ name

/-! ### Concrete inputs -/

/-- A keystore configuration with a small `N`. -/
def store : keystore.passphraseKeyStore := { scryptN := 4, scryptP := 1 }

/-- The passphrase `"ab"`. -/
def passphrase : GoString := [97, 98]

/-- The passphrase `"ac"`. -/
def otherPassphrase : GoString := [97, 99]

/-- A salt and an IV. -/
def entropy : Entropy :=
  { salt := List.replicate 32 5, iv := List.replicate 16 9, salt_len := rfl, iv_len := rfl }

/-- A private key with scalar 12345 and the point `scalarBaseMult` gives for it. -/
def privateKey : PrivateKey :=
  { PublicKey := { X := (scalarBaseMult (PaddedBigBytes 12345 32)).1
                   Y := (scalarBaseMult (PaddedBigBytes 12345 32)).2 }
    D := 12345 }

/-- The address `PubkeyToAddress` derives from `privateKey`. -/
def address : types.Address :=
  match crypto.PubkeyToAddress env (some privateKey.PublicKey) with
  | .ok a => a
  | _ => types.BytesToAddress []

/-- The key `newKeyFromECDSA` builds from `privateKey`. -/
def key : Key := { Address := address, PrivateKey := some privateKey }

/-- The slice `scryptKey` derives for `passphrase`. -/
def derivedKey : Slice :=
  match scryptKey passphrase entropy.salt store.scryptN keystore.scryptR store.scryptP
    keystore.scryptDKLen with
  | .ret dk _ => dk
  | .panic => Slice.nil

/-- The envelope `EncryptKey` builds for `key` under `passphrase`. -/
def envelope : EncryptedKeyJSON :=
  match keystore.EncryptKey.envelope env store key passphrase entropy with
  | .ok j => j
  | _ => { Address := [], N := 0, R := 0, P := 0, DKlen := 0, Salt := [], IV := [], Mac := [],
           CipherText := [], Version := 0 }

/-- The file `EncryptKey` writes for `key` under `passphrase`. -/
def file : List Byte := jsonMarshal envelope

/-- The slice `scryptKey` derives for `otherPassphrase`. -/
def otherDerivedKey : Slice :=
  match scryptKey otherPassphrase entropy.salt store.scryptN keystore.scryptR store.scryptP
    keystore.scryptDKLen with
  | .ret dk _ => dk
  | .panic => Slice.nil

/-- The envelope of `file` with one zero byte written in front of its `Mac`. -/
def longMacEnvelope : EncryptedKeyJSON :=
  { envelope with Mac := [48, 48] ++ envelope.Mac }

/-- The text of `longMacEnvelope`. -/
def longMacFile : List Byte := jsonMarshal longMacEnvelope

/-- An envelope with an empty cipher text and the MAC that goes with it under
`passphrase`. -/
def emptyCipherEnvelope : EncryptedKeyJSON :=
  { envelope with
    CipherText := []
    Mac := hex.EncodeToString (crypto.Hash256 env [keystore.macKey derivedKey, []]).val }

/-- The text of `emptyCipherEnvelope`. -/
def emptyCipherFile : List Byte := jsonMarshal emptyCipherEnvelope

/-- The envelope of `file` with `N` set to 0. -/
def zeroNEnvelope : EncryptedKeyJSON := { envelope with N := 0 }

/-- The text of `zeroNEnvelope`. -/
def zeroNFile : List Byte := jsonMarshal zeroNEnvelope

/-- The key of `privateKey` under an address that is not the one derived from it. -/
def strayKey : Key := { Address := types.BytesToAddress [1, 2, 3], PrivateKey := some privateKey }

/-- The envelope `EncryptKey` builds for `strayKey` under `passphrase`. -/
def strayEnvelope : EncryptedKeyJSON :=
  { envelope with Address := hex.EncodeToString strayKey.Address.val }

/-- The text of `strayEnvelope`. -/
def strayFile : List Byte := jsonMarshal strayEnvelope

/-- The directory `"d"`. -/
def dir : GoString := [100]

/-- The path `"d/k"`. -/
def path : GoString := [100, 47, 107]

/-- A file system whose directory `dir` holds the one file `path` with the given
content; every write succeeds. -/
def fileSys (content : List Byte) : FileSys :=
  { read := fun p => if p = path then .ok content else .error (.os 2)
    writeErr := fun _ => none
    walk := fun _ => [{ path := dir, info := some true, err := none },
                      { path := path, info := some false, err := none }] }

/-- The locked account a scan registers for the file `path` when its `Address`
field is `addr`. -/
def account (addr : types.Address) : accounts.account :=
  { address := addr, key := none, filename := path
    ks := keystore.NewPassphraseKeyStore keystore.StandardScryptN keystore.StandardScryptP }

/-- A hash to sign. -/
def hash : types.Hash := types.BytesToHash [1]

/-- The signature `signCompact` gives for `privateKey`. -/
def signature : List Byte :=
  match signCompact privateKey hash.val with
  | .ok sig => sig
  | .error _ => []

/-- What `Unlock` returns for the account of `file` under `passphrase`. -/
def unlockResult : accounts.UnlockResult :=
  { acct := { account address with key := some key }, err := none, timer := none }

/-- The path `"d/l"`. -/
def path2 : GoString := [100, 47, 108]

/-- A file system whose directory `dir` holds the two files `path` and `path2`,
both with the given content. -/
def twoFiles (content : List Byte) : FileSys :=
  { read := fun p => if p = path ∨ p = path2 then .ok content else .error (.os 2)
    writeErr := fun _ => none
    walk := fun _ => [{ path := dir, info := some true, err := none },
                      { path := path, info := some false, err := none },
                      { path := path2, info := some false, err := none }] }

/-- What a call of `NewKey` reads from outside. -/
def draw : keystore.Draw :=
  { generated := .ok privateKey
    now := { Year := 2018, Month := 3, Day := 9, Hour := 7, Minute := 5, Second := 1,
             Nanosecond := 42, zoneName := [85, 84, 67], zoneOffset := 0 }
    entropy := entropy }

/-- An empty directory in which every write succeeds. -/
def emptyDir : FileSys :=
  { read := fun _ => .error (.os 2)
    writeErr := fun _ => none
    walk := fun _ => [{ path := dir, info := some true, err := none }] }

/-- The manager and the result of `NewAccount` on the manager of `emptyDir`. -/
def created : Option (accounts.manager × Except Err accounts.account) :=
  (accounts.NewAccount env emptyDir (accounts.NewManager env emptyDir dir) passphrase draw).map
    (fun x => x.2)

/-- The account `created` returns. -/
def createdAccount : accounts.account :=
  match created with
  | some (_, .ok a) => a
  | _ => account address

/-- The manager `created` leaves. -/
def createdManager : accounts.manager :=
  match created with
  | some (m, _) => m
  | none => accounts.NewManager env emptyDir dir

end Sample

end Fusion
namespace Fusion

/-! ## Lemmas on bytes, hex and big-endian integers -/

theorem hex.decode_encodeByte (v : Byte) :
    ¬ reverseHexTable (hextable.getD (v.val >>> 4) 0) > 0x0f ∧
    ¬ reverseHexTable (hextable.getD (v.val &&& 0x0f) 0) > 0x0f ∧
    (Fin.ofNat ((reverseHexTable (hextable.getD (v.val >>> 4) 0) <<< 4) |||
      reverseHexTable (hextable.getD (v.val &&& 0x0f) 0)) : Byte) = v := by
  revert v
  set_option maxRecDepth 100000 in decide

theorem hex.DecodeString_EncodeToString (b : List Byte) :
    hex.DecodeString (hex.EncodeToString b) = .ok b := by
  induction b with
  | nil => rfl
  | cons v rest ih =>
    obtain ⟨h1, h2, h3⟩ := hex.decode_encodeByte v
    have e : hex.EncodeToString (v :: rest) =
        hex.hextable.getD (v.val >>> 4) 0 :: hex.hextable.getD (v.val &&& 0x0f) 0
          :: hex.EncodeToString rest := rfl
    rw [e, hex.DecodeString, if_neg h1, if_neg h2, ih, h3]

theorem types.setBytes_of_length (n : Nat) (b : List Byte) (h : b.length = n) :
    types.setBytes n b = b := by
  simp [types.setBytes, h]

theorem types.BytesToHash_val (h : types.Hash) : types.BytesToHash h.val = h :=
  Subtype.ext (types.setBytes_of_length _ _ h.property)

theorem types.BytesToAddress_val (a : types.Address) : types.BytesToAddress a.val = a :=
  Subtype.ext (types.setBytes_of_length _ _ a.property)

theorem Byte.xor_xor_cancel (a k : Byte) : (a ^^^ k) ^^^ k = a := by
  apply Fin.ext
  have ha := a.isLt
  have hk := k.isLt
  have h1 : (a ^^^ k).val = a.val ^^^ k.val := by
    show (a.val ^^^ k.val) % 256 = _
    exact Nat.mod_eq_of_lt (Nat.xor_lt_two_pow (n := 8) ha hk)
  have h2 : ((a ^^^ k) ^^^ k).val = (a ^^^ k).val ^^^ k.val := by
    show ((a ^^^ k).val ^^^ k.val) % 256 = _
    exact Nat.mod_eq_of_lt (Nat.xor_lt_two_pow (n := 8) (a ^^^ k).isLt hk)
  rw [h2, h1, Nat.xor_cancel_right]

theorem keystore.xorKeyStream_involutive (stream : Nat → Byte) (i : Nat) (l : List Byte) :
    keystore.xorKeyStream stream i (keystore.xorKeyStream stream i l) = l := by
  induction l generalizing i with
  | nil => rfl
  | cons b rest ih => simp [keystore.xorKeyStream, Byte.xor_xor_cancel, ih]

theorem keystore.xorKeyStream_length (stream : Nat → Byte) (i : Nat) (l : List Byte) :
    (keystore.xorKeyStream stream i l).length = l.length := by
  induction l generalizing i with
  | nil => rfl
  | cons b rest ih => simp [keystore.xorKeyStream, ih]

theorem bytesToNat_append_singleton (l : List Byte) (b : Byte) :
    bytesToNat (l ++ [b]) = bytesToNat l * 256 + b.val := by
  simp [bytesToNat, List.foldl_append]

theorem bytesToNat_toBigEndian (w n : Nat) : bytesToNat (toBigEndian w n) = n % 256 ^ w := by
  induction w generalizing n with
  | zero => simp [toBigEndian, bytesToNat, Nat.mod_one]
  | succ w ih =>
    rw [toBigEndian, bytesToNat_append_singleton, ih, pow_succ, Nat.mul_comm (256 ^ w) 256,
      Nat.mod_mul]
    have : ((Fin.ofNat (n % 256) : Byte)).val = n % 256 := by
      show (n % 256) % 256 = n % 256
      exact Nat.mod_mod _ _
    rw [this]; ring

theorem toBigEndian_length (w n : Nat) : (toBigEndian w n).length = w := by
  induction w generalizing n with
  | zero => rfl
  | succ w ih => simp [toBigEndian, ih]

end Fusion
namespace Fusion

/-! ## Lemmas on the keystore -/

open keystore in
theorem Slice.reslice_of_le (s : Slice) (lo hi : Nat) (h1 : lo ≤ hi) (h2 : hi ≤ s.store.length) :
    s.reslice lo hi = some ((s.store.take hi).drop lo) := by
  simp [Slice.reslice, h1, h2]

theorem Slice.reslice_none (s : Slice) (lo hi : Nat) (h : s.store.length < hi) :
    s.reslice lo hi = none := by
  have : ¬ (lo ≤ hi ∧ hi ≤ s.store.length) := fun hh => absurd hh.2 (by omega)
  simp [Slice.reslice, this]

theorem keystore.aesNewCipher_of_length (key : List Byte) (h : key.length = 16) :
    keystore.aesNewCipher key = none := by
  simp [keystore.aesNewCipher, h]

/-- `DecryptKey` on data that parses, has a compatible version and hex fields that
decode is its second half. -/
theorem keystore.DecryptKey_eq_open (E : Env) (data : List Byte) (auth : GoString)
    (j : EncryptedKeyJSON) (salt cipherText macBytes iv addressBytes : List Byte)
    (hj : E.jsonUnmarshal data = .ok j)
    (hv : version.Compatible (version.FromUint64 j.Version) version.KeyStoreVersion = none)
    (hs : hex.DecodeString j.Salt = .ok salt)
    (hc : hex.DecodeString j.CipherText = .ok cipherText)
    (hm : hex.DecodeString j.Mac = .ok macBytes)
    (hi : hex.DecodeString j.IV = .ok iv)
    (ha : hex.DecodeString j.Address = .ok addressBytes) :
    keystore.DecryptKey E data auth =
      keystore.DecryptKey.open E j auth salt cipherText (types.BytesToHash macBytes) iv
        (types.BytesToAddress addressBytes) := by
  simp only [keystore.DecryptKey, hj, hv, hs, hc, hm, hi, ha]

/-- The second half of `DecryptKey` when the key derivation returned a slice of
capacity at least 32 (whatever error came with it). -/
theorem keystore.DecryptKey_open_eq (E : Env) (j : EncryptedKeyJSON) (auth : GoString)
    (salt cipherText : List Byte) (mac : types.Hash) (iv : List Byte) (address : types.Address)
    (dk : Slice) (err : Option Err)
    (hkdf : E.scryptKey auth salt j.N j.R j.P j.DKlen = .ret dk err)
    (hcap : 32 ≤ dk.store.length) :
    keystore.DecryptKey.open E j auth salt cipherText mac iv address =
      if crypto.Hash256 E [(dk.store.take 32).drop 16, cipherText] ≠ mac then
        .error .macMismatch
      else if iv.length ≠ 16 then .panic
      else .ok { Address := address
                 PrivateKey := crypto.ToECDSAUnsafe E
                   (keystore.xorKeyStream (E.ctrKeyStream ((dk.store.take 16).drop 0) iv) 0
                     cipherText) } := by
  have h16 : ((dk.store.take 16).drop 0).length = 16 := by
    simp only [List.drop_zero, List.length_take]; omega
  simp only [keystore.DecryptKey.open, hkdf,
    Slice.reslice_of_le dk 16 32 (by omega) hcap,
    Slice.reslice_of_le dk 0 16 (by omega) (by omega),
    keystore.aesNewCipher_of_length _ h16]

/-- What `EncryptKey` marshals when the key derivation succeeded with a slice of
capacity at least 32. -/
theorem keystore.EncryptKey_envelope_eq (E : Env) (m : keystore.passphraseKeyStore) (k : Key)
    (priv : PrivateKey) (auth : GoString) (ent : Entropy) (dk : Slice)
    (hk : k.PrivateKey = some priv)
    (hkdf : E.scryptKey auth ent.salt m.scryptN keystore.scryptR m.scryptP keystore.scryptDKLen
      = .ret dk none)
    (hcap : 32 ≤ dk.store.length) :
    keystore.EncryptKey.envelope E m k auth ent =
      .ok { Address := hex.EncodeToString k.Address.val
            N := m.scryptN
            R := keystore.scryptR
            P := m.scryptP
            DKlen := keystore.scryptDKLen
            Salt := hex.EncodeToString ent.salt
            IV := hex.EncodeToString ent.iv
            Mac := hex.EncodeToString (crypto.Hash256 E [(dk.store.take 32).drop 16,
              keystore.xorKeyStream (E.ctrKeyStream ((dk.store.take 16).drop 0) ent.iv) 0
                (PaddedBigBytes priv.D 32)]).val
            CipherText := hex.EncodeToString
              (keystore.xorKeyStream (E.ctrKeyStream ((dk.store.take 16).drop 0) ent.iv) 0
                (PaddedBigBytes priv.D 32))
            Version := version.KeyStoreVersion.Value } := by
  have h16 : ((dk.store.take 16).drop 0).length = 16 := by
    simp only [List.drop_zero, List.length_take]; omega
  have hiv : ¬ ent.iv.length ≠ 16 := by simp [ent.iv_len]
  simp only [keystore.EncryptKey.envelope, hkdf, hk,
    Slice.reslice_of_le dk 16 32 (by omega) hcap,
    Slice.reslice_of_le dk 0 16 (by omega) (by omega),
    keystore.aesNewCipher_of_length _ h16, if_neg hiv]

theorem version.KeyStoreVersion_compatible :
    version.Compatible (version.FromUint64 version.KeyStoreVersion.Value)
      version.KeyStoreVersion = none := by
  decide

theorem PaddedBigBytes_of_lt (D : Int) (n : Nat) (h : D.natAbs < 256 ^ n) :
    PaddedBigBytes D n = toBigEndian n D.natAbs := by
  simp [PaddedBigBytes, h]

theorem crypto.S256N_lt : crypto.S256N < 256 ^ 32 := by decide

/-- `toECDSA` without the length check accepts the padded encoding of a scalar in
range, and gives that scalar back. -/
theorem crypto.ToECDSAUnsafe_padded (E : Env) (D : Int) (hD : 0 < D ∧ D < (crypto.S256N : Int))
    (hX : (E.scalarBaseMult (PaddedBigBytes D 32)).1 ≠ none) :
    crypto.ToECDSAUnsafe E (PaddedBigBytes D 32) =
      some { PublicKey := { X := (E.scalarBaseMult (PaddedBigBytes D 32)).1
                            Y := (E.scalarBaseMult (PaddedBigBytes D 32)).2 }
             D := D } := by
  have hlt : D.natAbs < 256 ^ 32 := by
    have := crypto.S256N_lt
    omega
  have hval : (bytesToNat (PaddedBigBytes D 32) : Int) = D := by
    rw [PaddedBigBytes_of_lt D 32 hlt, bytesToNat_toBigEndian, Nat.mod_eq_of_lt hlt]
    omega
  have h1 : ¬ (D ≥ (crypto.S256N : Int)) := by omega
  have h2 : ¬ (D ≤ 0) := by omega
  simp only [crypto.ToECDSAUnsafe, crypto.toECDSA, hval, h1, h2, hX, if_false,
    Bool.false_eq_true, false_and]

end Fusion
namespace Fusion

/-! ## The passphrase keystore: C1 to C7 -/

set_option maxRecDepth 1000000 in
theorem Sample.envelope_eq :
    keystore.EncryptKey.envelope Sample.env Sample.store Sample.key Sample.passphrase
      Sample.entropy = .ok Sample.envelope := by
  decide

set_option maxRecDepth 1000000 in
theorem Sample.unmarshal_file :
    Sample.env.jsonUnmarshal (Sample.env.jsonMarshal Sample.envelope) = .ok Sample.envelope := by
  decide

set_option maxRecDepth 1000000 in
theorem Sample.derivedKey_eq :
    Sample.env.scryptKey Sample.passphrase Sample.entropy.salt Sample.store.scryptN
      keystore.scryptR Sample.store.scryptP keystore.scryptDKLen
      = .ret Sample.derivedKey none := by
  decide

theorem Sample.unmarshal_of_envelope (j : EncryptedKeyJSON)
    (hj : keystore.EncryptKey.envelope Sample.env Sample.store Sample.key Sample.passphrase
      Sample.entropy = .ok j) :
    Sample.env.jsonUnmarshal (Sample.env.jsonMarshal j) = .ok j := by
  have h : Outcome.ok Sample.envelope = Outcome.ok j := Sample.envelope_eq.symm.trans hj
  have e : Sample.envelope = j := Outcome.ok.inj h
  rw [← e]
  exact Sample.unmarshal_file

/-- C1. Round trip of the passphrase keystore: for a key whose private scalar `D`
satisfies `0 < D < N`, any passphrase, any drawn salt and IV and any configuration
`(scryptN, scryptP)` for which `scrypt.Key` succeeds with the 32 bytes asked for,
`EncryptKey` returns a file, and `DecryptKey` on that file with the same passphrase
returns, without error, a key whose private scalar is `D` and whose `Address` is the
`Address` of the key encrypted.  The facts used about the libraries: `json.Unmarshal`
reads back what `json.Marshal` wrote for this envelope, and `ScalarBaseMult` returns
a non-nil `X`. -/
theorem EncryptKey_DecryptKey_roundtrip (E : Env) (m : keystore.passphraseKeyStore) (k : Key)
    (priv : PrivateKey) (auth : GoString) (ent : Entropy) (dk : Slice)
    (hk : k.PrivateKey = some priv)
    (hD : 0 < priv.D ∧ priv.D < (crypto.S256N : Int))
    (hkdf : E.scryptKey auth ent.salt m.scryptN keystore.scryptR m.scryptP keystore.scryptDKLen
      = .ret dk none)
    (hlen : dk.len = 32)
    (hjson : ∀ j, keystore.EncryptKey.envelope E m k auth ent = .ok j →
      E.jsonUnmarshal (E.jsonMarshal j) = .ok j)
    (hX : (E.scalarBaseMult (PaddedBigBytes priv.D 32)).1 ≠ none) :
    ∃ data key priv1, keystore.EncryptKey E m k auth ent = .ok data ∧
      keystore.DecryptKey E data auth = .ok key ∧
      key.PrivateKey = some priv1 ∧ priv1.D = priv.D ∧ key.Address = k.Address := by
  have hcap : 32 ≤ dk.store.length := hlen ▸ dk.le
  have henv := keystore.EncryptKey_envelope_eq E m k priv auth ent dk hk hkdf hcap
  have hj := hjson _ henv
  have hE := congrArg (fun o : Outcome EncryptedKeyJSON =>
    match o with
    | .ok j => Outcome.ok (E.jsonMarshal j)
    | .error e => .error e
    | .panic => .panic) henv
  have hiv : ¬ ent.iv.length ≠ 16 := by simp [ent.iv_len]
  refine ⟨_, { Address := k.Address
               PrivateKey := some
                { PublicKey := { X := (E.scalarBaseMult (PaddedBigBytes priv.D 32)).1
                                 Y := (E.scalarBaseMult (PaddedBigBytes priv.D 32)).2 }
                  D := priv.D } }, _, hE, ?_, rfl, rfl, rfl⟩
  rw [keystore.DecryptKey_eq_open E _ auth _ _ _ _ _ _ hj version.KeyStoreVersion_compatible
      (hex.DecodeString_EncodeToString _) (hex.DecodeString_EncodeToString _)
      (hex.DecodeString_EncodeToString _) (hex.DecodeString_EncodeToString _)
      (hex.DecodeString_EncodeToString _),
    keystore.DecryptKey_open_eq E _ auth _ _ _ _ _ dk none hkdf hcap,
    types.BytesToHash_val, keystore.xorKeyStream_involutive,
    crypto.ToECDSAUnsafe_padded E priv.D hD hX]
  simp only [ne_eq, not_true_eq_false, if_false, if_neg hiv, types.BytesToAddress_val]

set_option maxRecDepth 1000000 in
/-- C1, at the sample instance: the hypotheses hold there and the round trip
returns the scalar 12345. -/
theorem EncryptKey_DecryptKey_roundtrip_witness :
    ∃ data key priv1,
      keystore.EncryptKey Sample.env Sample.store Sample.key Sample.passphrase Sample.entropy
        = .ok data ∧
      keystore.DecryptKey Sample.env data Sample.passphrase = .ok key ∧
      key.PrivateKey = some priv1 ∧ priv1.D = 12345 ∧ key.Address = Sample.key.Address :=
  EncryptKey_DecryptKey_roundtrip Sample.env Sample.store Sample.key Sample.privateKey
    Sample.passphrase Sample.entropy Sample.derivedKey rfl (by decide) Sample.derivedKey_eq
    (by decide) Sample.unmarshal_of_envelope (by decide)

end Fusion
namespace Fusion

/-- The result of `DecryptKey` with any passphrase on a file written by `EncryptKey`,
when `scrypt.Key` returns a slice of capacity at least 32 for that passphrase. -/
theorem keystore.DecryptKey_EncryptKey_eq (E : Env) (m : keystore.passphraseKeyStore) (k : Key)
    (priv : PrivateKey) (p q : GoString) (ent : Entropy) (dkp dkq : Slice) (errq : Option Err)
    (hk : k.PrivateKey = some priv)
    (hp : E.scryptKey p ent.salt m.scryptN keystore.scryptR m.scryptP keystore.scryptDKLen
      = .ret dkp none)
    (hlen : dkp.len = 32)
    (hq : E.scryptKey q ent.salt m.scryptN keystore.scryptR m.scryptP keystore.scryptDKLen
      = .ret dkq errq)
    (hcap : 32 ≤ dkq.store.length)
    (hjson : ∀ j, keystore.EncryptKey.envelope E m k p ent = .ok j →
      E.jsonUnmarshal (E.jsonMarshal j) = .ok j) :
    ∃ data, keystore.EncryptKey E m k p ent = .ok data ∧
      keystore.DecryptKey E data q =
        if crypto.Hash256 E [keystore.macKey dkq, keystore.cipherTextOf E dkp ent.iv priv.D] ≠
            crypto.Hash256 E [keystore.macKey dkp, keystore.cipherTextOf E dkp ent.iv priv.D] then
          .error .macMismatch
        else
          .ok { Address := k.Address
                PrivateKey := crypto.ToECDSAUnsafe E
                  (keystore.xorKeyStream (E.ctrKeyStream (keystore.encryptionKey dkq) ent.iv) 0
                    (keystore.cipherTextOf E dkp ent.iv priv.D)) } := by
  have hcapp : 32 ≤ dkp.store.length := hlen ▸ dkp.le
  have henv := keystore.EncryptKey_envelope_eq E m k priv p ent dkp hk hp hcapp
  have hj := hjson _ henv
  have hE := congrArg (fun o : Outcome EncryptedKeyJSON =>
    match o with
    | .ok j => Outcome.ok (E.jsonMarshal j)
    | .error e => .error e
    | .panic => .panic) henv
  have hiv : ¬ ent.iv.length ≠ 16 := by simp [ent.iv_len]
  refine ⟨_, hE, ?_⟩
  rw [keystore.DecryptKey_eq_open E _ q _ _ _ _ _ _ hj version.KeyStoreVersion_compatible
      (hex.DecodeString_EncodeToString _) (hex.DecodeString_EncodeToString _)
      (hex.DecodeString_EncodeToString _) (hex.DecodeString_EncodeToString _)
      (hex.DecodeString_EncodeToString _),
    keystore.DecryptKey_open_eq E _ q _ _ _ _ _ dkq errq hq hcap,
    types.BytesToHash_val, types.BytesToAddress_val]
  simp only [if_neg hiv, keystore.macKey, keystore.cipherTextOf, keystore.encryptionKey]

/-- Infinitely many passphrases are mapped to finitely many 32-byte keys: two
distinct passphrases have the same first 32 derived bytes. -/
theorem keystore.exists_passphrase_collision (f : GoString → Slice)
    (hf : ∀ p, 32 ≤ (f p).store.length) :
    ∃ p q, p ≠ q ∧ (f p).store.take 32 = (f q).store.take 32 := by
  let g : GoString → Mathlib.Vector Byte 32 := fun p =>
    ⟨(f p).store.take 32, by simp only [List.length_take]; have := hf p; omega⟩
  obtain ⟨p, q, hne, hpq⟩ := Finite.exists_ne_map_eq_of_infinite g
  exact ⟨p, q, hne, congrArg Subtype.val hpq⟩

/-- C2, as stated, cannot hold: whatever the primitives are, as long as `scrypt.Key`
returns 32 bytes for every passphrase and the round trip of C1 works, it is not the
case that every pair of distinct passphrases is rejected with the MAC error.  Two
distinct passphrases with the same derived key exist, and the second one decrypts
what the first one encrypted. -/
theorem wrong_passphrase_not_always_rejected :
    ¬ ∃ (E : Env) (m : keystore.passphraseKeyStore) (k : Key) (priv : PrivateKey)
        (ent : Entropy),
      k.PrivateKey = some priv ∧
      (∀ p, ∃ dk, E.scryptKey p ent.salt m.scryptN keystore.scryptR m.scryptP
          keystore.scryptDKLen = .ret dk none ∧ dk.len = 32) ∧
      (∀ p j, keystore.EncryptKey.envelope E m k p ent = .ok j →
          E.jsonUnmarshal (E.jsonMarshal j) = .ok j) ∧
      (∀ p q data, p ≠ q → keystore.EncryptKey E m k p ent = .ok data →
          keystore.DecryptKey E data q = .error .macMismatch) := by
  rintro ⟨E, m, k, priv, ent, hk, hkdf, hjson, hclaim⟩
  choose dkf hdk using hkdf
  have hcap : ∀ p, 32 ≤ (dkf p).store.length := fun p => (hdk p).2 ▸ (dkf p).le
  obtain ⟨p, q, hne, hpq⟩ := keystore.exists_passphrase_collision dkf hcap
  obtain ⟨data, hE, hDq⟩ := keystore.DecryptKey_EncryptKey_eq E m k priv p q ent (dkf p) (dkf q)
    none hk (hdk p).1 (hdk p).2 (hdk q).1 (hcap q) (hjson p)
  have hmac : keystore.macKey (dkf q) = keystore.macKey (dkf p) := by
    simp only [keystore.macKey, hpq]
  rw [hmac] at hDq
  have := hclaim p q data hne hE
  rw [hDq] at this
  simp at this

/-- C2, amended: for passphrases `p` and `q` for which `scrypt.Key` returns 32-byte
keys, `DecryptKey` with `q` on the file `EncryptKey` wrote with `p` fails with the MAC
error exactly when the MAC recomputed from the key derived from `q` differs from the
stored one, which was computed from the key derived from `p`. -/
theorem wrong_passphrase_rejected_iff (E : Env) (m : keystore.passphraseKeyStore) (k : Key)
    (priv : PrivateKey) (p q : GoString) (ent : Entropy) (dkp dkq : Slice) (errq : Option Err)
    (hk : k.PrivateKey = some priv)
    (hp : E.scryptKey p ent.salt m.scryptN keystore.scryptR m.scryptP keystore.scryptDKLen
      = .ret dkp none)
    (hlen : dkp.len = 32)
    (hq : E.scryptKey q ent.salt m.scryptN keystore.scryptR m.scryptP keystore.scryptDKLen
      = .ret dkq errq)
    (hcap : 32 ≤ dkq.store.length)
    (hjson : ∀ j, keystore.EncryptKey.envelope E m k p ent = .ok j →
      E.jsonUnmarshal (E.jsonMarshal j) = .ok j) :
    ∃ data, keystore.EncryptKey E m k p ent = .ok data ∧
      (keystore.DecryptKey E data q = .error .macMismatch ↔
        crypto.Hash256 E [keystore.macKey dkq, keystore.cipherTextOf E dkp ent.iv priv.D] ≠
          crypto.Hash256 E [keystore.macKey dkp, keystore.cipherTextOf E dkp ent.iv priv.D]) := by
  obtain ⟨data, hE, hD⟩ := keystore.DecryptKey_EncryptKey_eq E m k priv p q ent dkp dkq errq hk
    hp hlen hq hcap hjson
  refine ⟨data, hE, ?_⟩
  rw [hD]
  constructor
  · intro h hc
    rw [if_neg (not_not.mpr hc)] at h
    cases h
  · intro h
    rw [if_pos h]

set_option maxRecDepth 1000000 in
theorem Sample.otherDerivedKey_eq :
    Sample.env.scryptKey Sample.otherPassphrase Sample.entropy.salt Sample.store.scryptN
      keystore.scryptR Sample.store.scryptP keystore.scryptDKLen
      = .ret Sample.otherDerivedKey none := by
  decide

set_option maxRecDepth 1000000 in
/-- C2, amended, at the sample instance: the passphrase `"ac"` is rejected on the
file written with `"ab"`, the two MACs being different. -/
theorem wrong_passphrase_rejected_iff_witness :
    ∃ data, keystore.EncryptKey Sample.env Sample.store Sample.key Sample.passphrase
        Sample.entropy = .ok data ∧
      (keystore.DecryptKey Sample.env data Sample.otherPassphrase = .error .macMismatch ↔
        crypto.Hash256 Sample.env [keystore.macKey Sample.otherDerivedKey,
            keystore.cipherTextOf Sample.env Sample.derivedKey Sample.entropy.iv
              Sample.privateKey.D] ≠
          crypto.Hash256 Sample.env [keystore.macKey Sample.derivedKey,
            keystore.cipherTextOf Sample.env Sample.derivedKey Sample.entropy.iv
              Sample.privateKey.D]) :=
  wrong_passphrase_rejected_iff Sample.env Sample.store Sample.key Sample.privateKey
    Sample.passphrase Sample.otherPassphrase Sample.entropy Sample.derivedKey
    Sample.otherDerivedKey none rfl Sample.derivedKey_eq (by decide) Sample.otherDerivedKey_eq
    (by decide) Sample.unmarshal_of_envelope

end Fusion
namespace Fusion

/-- `DecryptKey` on data that parses, has a compatible version and hex fields that
decode, when `scrypt.Key` returned a slice of capacity at least 32. -/
theorem keystore.DecryptKey_eq (E : Env) (data : List Byte) (auth : GoString)
    (j : EncryptedKeyJSON) (salt cipherText macBytes iv addressBytes : List Byte)
    (dk : Slice) (err : Option Err)
    (hj : E.jsonUnmarshal data = .ok j)
    (hv : version.Compatible (version.FromUint64 j.Version) version.KeyStoreVersion = none)
    (hs : hex.DecodeString j.Salt = .ok salt)
    (hc : hex.DecodeString j.CipherText = .ok cipherText)
    (hm : hex.DecodeString j.Mac = .ok macBytes)
    (hi : hex.DecodeString j.IV = .ok iv)
    (ha : hex.DecodeString j.Address = .ok addressBytes)
    (hkdf : E.scryptKey auth salt j.N j.R j.P j.DKlen = .ret dk err)
    (hcap : 32 ≤ dk.store.length) :
    keystore.DecryptKey E data auth =
      if crypto.Hash256 E [keystore.macKey dk, cipherText] ≠ types.BytesToHash macBytes then
        .error .macMismatch
      else if iv.length ≠ 16 then .panic
      else .ok { Address := types.BytesToAddress addressBytes
                 PrivateKey := crypto.ToECDSAUnsafe E
                   (keystore.xorKeyStream (E.ctrKeyStream (keystore.encryptionKey dk) iv) 0
                     cipherText) } := by
  rw [keystore.DecryptKey_eq_open E data auth j salt cipherText macBytes iv addressBytes hj hv hs
      hc hm hi ha,
    keystore.DecryptKey_open_eq E j auth salt cipherText _ iv _ dk err hkdf hcap]
  rfl

/-- `toECDSA` rejects a scalar that is zero or not below the group order, so
`ToECDSAUnsafe` returns `nil`. -/
theorem crypto.ToECDSAUnsafe_out_of_range (E : Env) (d : List Byte)
    (h : bytesToNat d = 0 ∨ crypto.S256N ≤ bytesToNat d) :
    crypto.ToECDSAUnsafe E d = none := by
  unfold crypto.ToECDSAUnsafe crypto.toECDSA
  by_cases hge : ((bytesToNat d : Int) ≥ (crypto.S256N : Int))
  · simp [hge]
  · have h0 : bytesToNat d = 0 := by
      rcases h with h | h
      · exact h
      · exact absurd (by exact_mod_cast h) hge
    simp [h0, crypto.S256N]

/-- C4, as stated, fails: the envelope `Sample.longMacFile` stores a `Mac` of 33
bytes, a zero byte followed by the 32 bytes of the recomputed `Hash256`, so the
stored byte string is not the recomputed one; `DecryptKey` crops it with
`BytesToHash` and returns the key. -/
theorem mac_comparison_not_exact :
    Sample.env.jsonUnmarshal Sample.longMacFile = .ok Sample.longMacEnvelope ∧
    hex.DecodeString Sample.longMacEnvelope.Mac =
      .ok (0 :: (crypto.Hash256 Sample.env [keystore.macKey Sample.derivedKey,
        keystore.cipherTextOf Sample.env Sample.derivedKey Sample.entropy.iv 12345]).val) ∧
    keystore.DecryptKey Sample.env Sample.longMacFile Sample.passphrase = .ok Sample.key := by
  set_option maxRecDepth 1000000 in decide

/-- C4, amended: for an envelope that parses, has a compatible version and hex
fields that decode, and for which `scrypt.Key` returns a slice of capacity at least
32, `DecryptKey` fails with the MAC error exactly when `BytesToHash` of the stored
`Mac` bytes (their last 32 bytes when there are more, zero bytes in front when
there are fewer) differs from `Hash256(derivedKey[16:32], cipherText)`. -/
theorem mac_mismatch_iff (E : Env) (data : List Byte) (auth : GoString)
    (j : EncryptedKeyJSON) (salt cipherText macBytes iv addressBytes : List Byte)
    (dk : Slice) (err : Option Err)
    (hj : E.jsonUnmarshal data = .ok j)
    (hv : version.Compatible (version.FromUint64 j.Version) version.KeyStoreVersion = none)
    (hs : hex.DecodeString j.Salt = .ok salt)
    (hc : hex.DecodeString j.CipherText = .ok cipherText)
    (hm : hex.DecodeString j.Mac = .ok macBytes)
    (hi : hex.DecodeString j.IV = .ok iv)
    (ha : hex.DecodeString j.Address = .ok addressBytes)
    (hkdf : E.scryptKey auth salt j.N j.R j.P j.DKlen = .ret dk err)
    (hcap : 32 ≤ dk.store.length) :
    keystore.DecryptKey E data auth = .error .macMismatch ↔
      types.BytesToHash macBytes ≠ crypto.Hash256 E [keystore.macKey dk, cipherText] := by
  rw [keystore.DecryptKey_eq E data auth j salt cipherText macBytes iv addressBytes dk err hj hv
    hs hc hm hi ha hkdf hcap]
  constructor
  · intro h hc
    rw [if_neg (not_not.mpr hc.symm)] at h
    split at h <;> cases h
  · intro h
    rw [if_pos (fun e => h e.symm)]

set_option maxRecDepth 1000000 in
/-- C4, amended, at the sample instance: the file written by `EncryptKey`, read with
another passphrase. -/
theorem mac_mismatch_iff_witness :
    keystore.DecryptKey Sample.env Sample.file Sample.otherPassphrase = .error .macMismatch ↔
      types.BytesToHash (crypto.Hash256 Sample.env [keystore.macKey Sample.derivedKey,
        keystore.cipherTextOf Sample.env Sample.derivedKey Sample.entropy.iv 12345]).val ≠
      crypto.Hash256 Sample.env [keystore.macKey Sample.otherDerivedKey,
        keystore.cipherTextOf Sample.env Sample.derivedKey Sample.entropy.iv 12345] :=
  mac_mismatch_iff Sample.env Sample.file Sample.otherPassphrase Sample.envelope
    Sample.entropy.salt
    (keystore.cipherTextOf Sample.env Sample.derivedKey Sample.entropy.iv 12345)
    (crypto.Hash256 Sample.env [keystore.macKey Sample.derivedKey,
        keystore.cipherTextOf Sample.env Sample.derivedKey Sample.entropy.iv 12345]).val
    Sample.entropy.iv Sample.address.val Sample.otherDerivedKey none
    (by decide) (by decide) (by decide) (by decide) (by decide) (by decide) (by decide)
    (by decide) (by decide)

/-- C5, on the code: when the MAC check passes and the decrypted bytes, read as a
big-endian integer, are zero or not below the group order, `DecryptKey` returns no
error: it returns a key whose `PrivateKey` is `nil`, the error of `toECDSA` having
been dropped by `ToECDSAUnsafe`. -/
theorem out_of_range_scalar_returns_key (E : Env) (data : List Byte) (auth : GoString)
    (j : EncryptedKeyJSON) (salt cipherText macBytes iv addressBytes : List Byte)
    (dk : Slice) (err : Option Err)
    (hj : E.jsonUnmarshal data = .ok j)
    (hv : version.Compatible (version.FromUint64 j.Version) version.KeyStoreVersion = none)
    (hs : hex.DecodeString j.Salt = .ok salt)
    (hc : hex.DecodeString j.CipherText = .ok cipherText)
    (hm : hex.DecodeString j.Mac = .ok macBytes)
    (hi : hex.DecodeString j.IV = .ok iv)
    (ha : hex.DecodeString j.Address = .ok addressBytes)
    (hkdf : E.scryptKey auth salt j.N j.R j.P j.DKlen = .ret dk err)
    (hcap : 32 ≤ dk.store.length)
    (hmac : crypto.Hash256 E [keystore.macKey dk, cipherText] = types.BytesToHash macBytes)
    (hiv : iv.length = 16)
    (hrange :
      bytesToNat (keystore.xorKeyStream (E.ctrKeyStream (keystore.encryptionKey dk) iv) 0
        cipherText) = 0 ∨
      crypto.S256N ≤ bytesToNat (keystore.xorKeyStream
        (E.ctrKeyStream (keystore.encryptionKey dk) iv) 0 cipherText)) :
    keystore.DecryptKey E data auth =
      .ok { Address := types.BytesToAddress addressBytes, PrivateKey := none } := by
  rw [keystore.DecryptKey_eq E data auth j salt cipherText macBytes iv addressBytes dk err hj hv
    hs hc hm hi ha hkdf hcap, crypto.ToECDSAUnsafe_out_of_range E _ hrange]
  simp [hmac, hiv]

set_option maxRecDepth 1000000 in
/-- C5, at the sample instance: an envelope with an empty cipher text and a matching
MAC decrypts to a key without private key. -/
theorem out_of_range_scalar_returns_key_witness :
    keystore.DecryptKey Sample.env Sample.emptyCipherFile Sample.passphrase =
      .ok { Address := Sample.address, PrivateKey := none } :=
  (out_of_range_scalar_returns_key Sample.env Sample.emptyCipherFile Sample.passphrase
    Sample.emptyCipherEnvelope Sample.entropy.salt []
    (crypto.Hash256 Sample.env [keystore.macKey Sample.derivedKey, []]).val
    Sample.entropy.iv Sample.address.val Sample.derivedKey none
    (by decide) (by decide) (by decide) (by decide) (by decide) (by decide) (by decide)
    (by decide) (by decide) (by decide) (by decide) (by decide)).trans (by decide)

end Fusion
namespace Fusion

/-- Tampering with the `Mac` of a file written by `EncryptKey`: whatever 32 bytes
other than the MAC computed are stored in its place, `DecryptKey` with the passphrase
of the file fails with the MAC error.  (A tampered `CipherText`, or another
passphrase, is rejected exactly when the recomputed `Hash256` differs from the stored
MAC, which is a property of BLAKE2b and scrypt and not of this code.) -/
theorem keystore.tampered_mac_rejected (E : Env) (m : keystore.passphraseKeyStore) (k : Key)
    (priv : PrivateKey) (p : GoString) (ent : Entropy) (dk : Slice) (tampered : List Byte)
    (data : List Byte)
    (hk : k.PrivateKey = some priv)
    (hp : E.scryptKey p ent.salt m.scryptN keystore.scryptR m.scryptP keystore.scryptDKLen
      = .ret dk none)
    (hlen : dk.len = 32)
    (ht : tampered.length = 32)
    (hne : tampered ≠
      (crypto.Hash256 E [keystore.macKey dk, keystore.cipherTextOf E dk ent.iv priv.D]).val)
    (hjson : ∀ j, keystore.EncryptKey.envelope E m k p ent = .ok j →
      E.jsonUnmarshal data = .ok { j with Mac := hex.EncodeToString tampered }) :
    keystore.DecryptKey E data p = .error .macMismatch := by
  have hcap : 32 ≤ dk.store.length := hlen ▸ dk.le
  have henv := keystore.EncryptKey_envelope_eq E m k priv p ent dk hk hp hcap
  have hj := hjson _ henv
  rw [keystore.DecryptKey_eq E data p _ ent.salt
      (keystore.cipherTextOf E dk ent.iv priv.D) tampered ent.iv k.Address.val dk none hj
      version.KeyStoreVersion_compatible
      (hex.DecodeString_EncodeToString _) (hex.DecodeString_EncodeToString _)
      (hex.DecodeString_EncodeToString _) (hex.DecodeString_EncodeToString _)
      (hex.DecodeString_EncodeToString _) hp hcap]
  have hmac : crypto.Hash256 E [keystore.macKey dk, keystore.cipherTextOf E dk ent.iv priv.D] ≠
      types.BytesToHash tampered := by
    intro h
    apply hne
    have := congrArg Subtype.val h
    rw [this]
    exact (types.setBytes_of_length _ _ ht).symm
  rw [if_pos hmac]

end Fusion
namespace Fusion

/-- A key returned by the second half of `DecryptKey` carries the address it was
given. -/
theorem keystore.DecryptKey_open_address (E : Env) (j : EncryptedKeyJSON) (auth : GoString)
    (salt cipherText : List Byte) (mac : types.Hash) (iv : List Byte) (address : types.Address)
    (key : Key)
    (h : keystore.DecryptKey.open E j auth salt cipherText mac iv address = .ok key) :
    key.Address = address := by
  unfold keystore.DecryptKey.open at h
  split at h
  · cases h
  · split at h
    · cases h
    · split at h
      · cases h
      · split at h
        · cases h
        · split at h
          · cases h
          · split at h
            · cases h
            · cases h; rfl

/-- A key returned by `DecryptKey` carries `BytesToAddress` of the decoded `Address`
field of the envelope. -/
theorem keystore.DecryptKey_address (E : Env) (data : List Byte) (auth : GoString) (key : Key)
    (h : keystore.DecryptKey E data auth = .ok key) :
    ∃ j addressBytes, E.jsonUnmarshal data = .ok j ∧
      hex.DecodeString j.Address = .ok addressBytes ∧
      key.Address = types.BytesToAddress addressBytes := by
  unfold keystore.DecryptKey at h
  split at h
  · cases h
  · rename_i j hj
    split at h
    · cases h
    · split at h
      · cases h
      · split at h
        · cases h
        · split at h
          · cases h
          · split at h
            · cases h
            · split at h
              · cases h
              · rename_i addressBytes ha
                exact ⟨j, addressBytes, hj, ha, keystore.DecryptKey_open_address _ _ _ _ _ _ _ _ _ h⟩

/-- C6, as stated, fails: the envelope `Sample.strayFile` holds the scalar of
`Sample.privateKey` under an `Address` that is not `PubkeyToAddress` of its public
key; `DecryptKey` returns the key with that address and no error. -/
theorem address_not_bound_to_key :
    keystore.DecryptKey Sample.env Sample.strayFile Sample.passphrase = .ok Sample.strayKey ∧
    Sample.strayKey.PrivateKey = some Sample.privateKey ∧
    crypto.PubkeyToAddress Sample.env (some Sample.privateKey.PublicKey) = .ok Sample.address ∧
    Sample.strayKey.Address ≠ Sample.address := by
  set_option maxRecDepth 1000000 in decide

/-- C6, amended: `DecryptKey` does not compare the `Address` field with the public
key.  A key it returns carries `BytesToAddress` of the decoded `Address` field of the
envelope; the comparison the code makes is the one of `GetKey`, between that address
and the address asked for: `GetKey` returns a key only with the address asked for,
and fails with the content-mismatch error when the decrypted key has another one. -/
theorem address_taken_from_envelope (E : Env) (fs : FileSys) (ks : keystore.passphraseKeyStore)
    (filename : GoString) (addr : types.Address) (data : List Byte) (auth : GoString) (key : Key)
    (hread : fs.read filename = .ok data)
    (h : keystore.DecryptKey E data auth = .ok key) :
    (∃ j addressBytes, E.jsonUnmarshal data = .ok j ∧
      hex.DecodeString j.Address = .ok addressBytes ∧
      key.Address = types.BytesToAddress addressBytes) ∧
    keystore.GetKey E fs { impl := some ks } filename addr auth =
      (if key.Address ≠ addr then .error (.contentMismatch key.Address addr) else .ok key) := by
  refine ⟨keystore.DecryptKey_address E data auth key h, ?_⟩
  simp only [keystore.GetKey, hread, h]

/-- The file system in which `name` holds `content` and nothing else can be read. -/
theorem Sample.read_single (name : GoString) (content : List Byte) :
    ({ read := fun path => if path = name then .ok content else .error (.os 2)
       writeErr := fun _ => none
       walk := fun _ => [] } : FileSys).read name = .ok content := by
  simp

set_option maxRecDepth 1000000 in
/-- C6, amended, at the sample instance: the stray envelope, asked for under the
derived address, is refused by `GetKey` only. -/
theorem address_taken_from_envelope_witness :
    (∃ j addressBytes, Sample.env.jsonUnmarshal Sample.strayFile = .ok j ∧
      hex.DecodeString j.Address = .ok addressBytes ∧
      Sample.strayKey.Address = types.BytesToAddress addressBytes) ∧
    keystore.GetKey Sample.env
        { read := fun path => if path = [107] then .ok Sample.strayFile else .error (.os 2)
          writeErr := fun _ => none
          walk := fun _ => [] }
        { impl := some Sample.store } [107] Sample.address Sample.passphrase =
      (if Sample.strayKey.Address ≠ Sample.address then
        .error (.contentMismatch Sample.strayKey.Address Sample.address)
      else .ok Sample.strayKey) :=
  address_taken_from_envelope Sample.env _ Sample.store [107] Sample.address Sample.strayFile
    Sample.passphrase Sample.strayKey (Sample.read_single _ _) (by decide)

/-- C7, on the code: `DecryptKey` does not look at the error of `scrypt.Key`.  When
the slice returned has a capacity below 32 (the `nil` slice returned with an error,
as for `N = 0`), `derivedKey[16:32]` panics; and when the MAC check passes and the
decoded `IV` does not have 16 bytes, `cipher.NewCTR` panics. -/
theorem DecryptKey_panics (E : Env) (data : List Byte) (auth : GoString)
    (j : EncryptedKeyJSON) (salt cipherText macBytes iv addressBytes : List Byte)
    (dk : Slice) (err : Option Err)
    (hj : E.jsonUnmarshal data = .ok j)
    (hv : version.Compatible (version.FromUint64 j.Version) version.KeyStoreVersion = none)
    (hs : hex.DecodeString j.Salt = .ok salt)
    (hc : hex.DecodeString j.CipherText = .ok cipherText)
    (hm : hex.DecodeString j.Mac = .ok macBytes)
    (hi : hex.DecodeString j.IV = .ok iv)
    (ha : hex.DecodeString j.Address = .ok addressBytes)
    (hkdf : E.scryptKey auth salt j.N j.R j.P j.DKlen = .ret dk err) :
    (dk.store.length < 32 → keystore.DecryptKey E data auth = .panic) ∧
    (32 ≤ dk.store.length →
      crypto.Hash256 E [keystore.macKey dk, cipherText] = types.BytesToHash macBytes →
      iv.length ≠ 16 → keystore.DecryptKey E data auth = .panic) := by
  constructor
  · intro hcap
    rw [keystore.DecryptKey_eq_open E data auth j salt cipherText macBytes iv addressBytes hj hv
      hs hc hm hi ha]
    simp only [keystore.DecryptKey.open, hkdf, Slice.reslice_none dk 16 32 hcap]
  · intro hcap hmac hiv
    rw [keystore.DecryptKey_eq E data auth j salt cipherText macBytes iv addressBytes dk err hj
      hv hs hc hm hi ha hkdf hcap]
    simp [hmac, hiv]

set_option maxRecDepth 1000000 in
/-- C7, at the sample instance: the envelope of `Sample.file` with `N` set to 0.  The
key derivation returns the `nil` slice and an error, and `DecryptKey` panics. -/
theorem DecryptKey_panics_witness :
    Sample.env.scryptKey Sample.passphrase Sample.entropy.salt 0 8 1 32
      = .ret Slice.nil (some (.scrypt 1)) ∧
    keystore.DecryptKey Sample.env Sample.zeroNFile Sample.passphrase = .panic :=
  ⟨by decide,
   (DecryptKey_panics Sample.env Sample.zeroNFile Sample.passphrase Sample.zeroNEnvelope
      Sample.entropy.salt
      (keystore.cipherTextOf Sample.env Sample.derivedKey Sample.entropy.iv 12345)
      (crypto.Hash256 Sample.env [keystore.macKey Sample.derivedKey,
        keystore.cipherTextOf Sample.env Sample.derivedKey Sample.entropy.iv 12345]).val
      Sample.entropy.iv Sample.address.val Slice.nil (some (.scrypt 1))
      (by decide) (by decide) (by decide) (by decide) (by decide) (by decide) (by decide)
      (by decide)).1 (by decide)⟩

end Fusion
namespace Fusion

/-! ## The version check: C8 -/

theorem version.KeyStoreVersion_eq :
    version.KeyStoreVersion = { Value := 1, Spec := 0, Major := 0, Minor := 0, Revision := 1,
                                StringValue := version.keyStoreVersionString } := by
  decide

theorem version.field_eq (v s : Nat) : (v >>> s) &&& 0xffff = v / 2 ^ s % 2 ^ 16 := by
  rw [Nat.shiftRight_eq_div_pow]
  exact Nat.and_pow_two_sub_one_eq_mod _ 16

theorem version.FromUint64_fields (v : Nat) :
    (version.FromUint64 v).Spec = v / 2 ^ 48 % 2 ^ 16 ∧
    (version.FromUint64 v).Major = v / 2 ^ 32 % 2 ^ 16 ∧
    (version.FromUint64 v).Minor = v / 2 ^ 16 % 2 ^ 16 ∧
    (version.FromUint64 v).Revision = v % 2 ^ 16 := by
  refine ⟨version.field_eq v 48, version.field_eq v 32, version.field_eq v 16, ?_⟩
  exact Nat.and_pow_two_sub_one_eq_mod _ 16

theorem version.Compatible_eq_none_iff (m o : version.Info) :
    version.Compatible m o = none ↔ m.Spec = o.Spec ∧ m.Major = o.Major ∧ m.Minor = o.Minor := by
  unfold version.Compatible
  by_cases h1 : m.Spec = o.Spec <;> by_cases h2 : m.Major = o.Major <;>
    by_cases h3 : m.Minor = o.Minor <;> simp [h1, h2, h3]

/-- C8. Version compatibility: for a 64-bit `Version` value `v`, the check
`FromUint64(v).Compatible(KeyStoreVersion)` of `DecryptKey` succeeds if and only if
the spec, major and minor fields of `v` equal those of the keystore version, that is
if and only if `v` and `KeyStoreVersion.Value` agree above their low 16 bits; the
outcome of the check is the same for every value of the low 16 bits (the revision);
and `DecryptKey` returns the error of the check when there is one. -/
theorem version_check_iff (v : Nat) (hv : v < 2 ^ 64) :
    (version.Compatible (version.FromUint64 v) version.KeyStoreVersion = none ↔
      (version.FromUint64 v).Spec = version.KeyStoreVersion.Spec ∧
      (version.FromUint64 v).Major = version.KeyStoreVersion.Major ∧
      (version.FromUint64 v).Minor = version.KeyStoreVersion.Minor) ∧
    (version.Compatible (version.FromUint64 v) version.KeyStoreVersion = none ↔
      v / 2 ^ 16 = version.KeyStoreVersion.Value / 2 ^ 16) ∧
    (∀ r, r < 2 ^ 16 →
      version.Compatible (version.FromUint64 (v / 2 ^ 16 * 2 ^ 16 + r)) version.KeyStoreVersion =
        version.Compatible (version.FromUint64 v) version.KeyStoreVersion) ∧
    (∀ (E : Env) (data : List Byte) (auth : GoString) (j : EncryptedKeyJSON) (e : Err),
      E.jsonUnmarshal data = .ok j → j.Version = v →
      version.Compatible (version.FromUint64 v) version.KeyStoreVersion = some e →
      keystore.DecryptKey E data auth = .error e) := by
  obtain ⟨hS, hM, hm, _⟩ := version.FromUint64_fields v
  refine ⟨version.Compatible_eq_none_iff _ _, ?_, ?_, ?_⟩
  · rw [version.Compatible_eq_none_iff, hS, hM, hm, version.KeyStoreVersion_eq]
    simp only
    omega
  · intro r hr
    obtain ⟨hS2, hM2, hm2, _⟩ := version.FromUint64_fields (v / 2 ^ 16 * 2 ^ 16 + r)
    have e1 : (version.FromUint64 (v / 2 ^ 16 * 2 ^ 16 + r)).Spec = (version.FromUint64 v).Spec := by
      rw [hS2, hS]; omega
    have e2 : (version.FromUint64 (v / 2 ^ 16 * 2 ^ 16 + r)).Major = (version.FromUint64 v).Major := by
      rw [hM2, hM]; omega
    have e3 : (version.FromUint64 (v / 2 ^ 16 * 2 ^ 16 + r)).Minor = (version.FromUint64 v).Minor := by
      rw [hm2, hm]; omega
    simp only [version.Compatible, e1, e2, e3]
  · intro E data auth j e hj hjv hc
    subst hjv
    simp only [keystore.DecryptKey, hj, hc]

/-- C8, at the value `2 ^ 16 + 7`, whose minor field is 1: the check fails. -/
theorem version_check_iff_witness :
    (2 ^ 16 + 7 < 2 ^ 64) ∧
    (version.Compatible (version.FromUint64 (2 ^ 16 + 7)) version.KeyStoreVersion = none ↔
      (2 ^ 16 + 7) / 2 ^ 16 = version.KeyStoreVersion.Value / 2 ^ 16) :=
  ⟨by decide, (version_check_iff (2 ^ 16 + 7) (by decide)).2.1⟩

end Fusion
namespace Fusion

/-! ## Accounts: C9 to C14 -/

theorem accounts.readAccount_some (E : Env) (fs : FileSys) (ks : keystore.keyStore)
    (path : GoString) (a : accounts.account) (h : accounts.readAccount E fs ks path = some a) :
    ∃ content keyAddress addr, fs.read path = .ok content ∧
      E.jsonDecodeAddress content = .ok keyAddress ∧
      hex.DecodeString keyAddress = .ok addr ∧ addr.length = types.AddressBytesNumber ∧
      a = { address := types.BytesToAddress addr, key := none, filename := path, ks := ks } := by
  unfold accounts.readAccount at h
  split at h
  · cases h
  · rename_i content hc
    split at h
    · cases h
    · rename_i keyAddress hk
      split at h
      · cases h
      · rename_i addr ha
        split at h
        · cases h
        · rename_i hlen
          cases h
          exact ⟨content, keyAddress, addr, hc, hk, ha, not_not.mp hlen, rfl⟩

theorem accounts.Registry.mem_set (reg : accounts.Registry) (addr : types.Address)
    (a : accounts.account) (e : types.Address × accounts.account) :
    e ∈ reg.set addr a ↔ e = (addr, a) ∨ (e ∈ reg ∧ e.1 ≠ addr) := by
  simp [accounts.Registry.set, List.mem_filter]

/-- A property of every account `readAccount` returns holds for every entry a scan
adds to a registry. -/
theorem accounts.scanVisits_forall (E : Env) (fs : FileSys) (ks : keystore.keyStore)
    (P : accounts.account → Prop)
    (hP : ∀ path a, accounts.readAccount E fs ks path = some a → P a)
    (visits : List Visit) (reg : accounts.Registry) (hreg : ∀ e ∈ reg, P e.2) :
    ∀ e ∈ accounts.scanVisits E fs ks visits reg, P e.2 := by
  induction visits generalizing reg with
  | nil => exact hreg
  | cons v rest ih =>
    unfold accounts.scanVisits
    split
    · split
      · exact hreg
      · exact ih reg hreg
    · exact ih reg hreg
    · split
      · exact ih reg hreg
      · rename_i a ha
        apply ih
        intro e he
        rcases (accounts.Registry.mem_set _ _ _ _).mp he with h | h
        · rw [h]; exact hP _ _ ha
        · exact hreg e h.1

/-- C9. Lock gating: every account the directory scan of `NewManager` registers is
Locked (`key = nil`); the account `newAccount` returns is Locked; and `Sign` on a
Locked account returns the account-locked error, for every hash. -/
theorem accounts_start_locked (E : Env) (fs : FileSys) :
    (∀ dir, ∀ a ∈ accounts.Accounts (accounts.NewManager E fs dir), a.key = none) ∧
    (∀ path ks a, accounts.readAccount E fs ks path = some a → a.key = none) ∧
    (∀ dir ks auth draw fs1 a,
      accounts.newAccount E fs dir ks auth draw = some (fs1, .ok a) → a.key = none) ∧
    (∀ (a : accounts.account) (hash : types.Hash), a.key = none →
      accounts.Sign E a hash = .error .accountLocked) := by
  have hread : ∀ ks path a, accounts.readAccount E fs ks path = some a → a.key = none := by
    intro ks path a h
    obtain ⟨_, _, _, _, _, _, _, rfl⟩ := accounts.readAccount_some E fs ks path a h
    rfl
  refine ⟨?_, fun path ks a h => hread ks path a h, ?_, ?_⟩
  · intro dir a ha
    simp only [accounts.Accounts, accounts.NewManager, accounts.scanAccounts, List.mem_map] at ha
    obtain ⟨e, he, rfl⟩ := ha
    exact accounts.scanVisits_forall E fs _ (fun a => a.key = none) (hread _) _ []
      (fun e he => absurd he (List.not_mem_nil e)) e he
  · intro dir ks auth draw fs1 a h
    unfold accounts.newAccount at h
    split at h
    · cases h
    · cases h
    · cases h
      rfl
  · intro a hash h
    simp only [accounts.Sign, h]

/-- C10, as stated, fails: the file `Sample.strayFile` is scanned into an account
whose address is the `Address` field of the file; `Unlock` with the passphrase of the
file and timeout 0 succeeds; `Sign` succeeds; and the address `Sender` recovers from
the signature is the one derived from the public key, not the address of the
account. -/
theorem signer_is_not_the_account :
    accounts.Accounts (accounts.NewManager Sample.env (Sample.fileSys Sample.strayFile)
      Sample.dir) = [Sample.account Sample.strayKey.Address] ∧
    accounts.Unlock Sample.env (Sample.fileSys Sample.strayFile)
      (Sample.account Sample.strayKey.Address) Sample.passphrase 0 =
      some { acct := { Sample.account Sample.strayKey.Address with key := some Sample.strayKey }
             err := none, timer := none } ∧
    accounts.Sign Sample.env
      { Sample.account Sample.strayKey.Address with key := some Sample.strayKey } Sample.hash
      = .ok Sample.signature ∧
    crypto.Sender Sample.env Sample.hash Sample.signature = .ok Sample.address ∧
    Sample.address ≠ accounts.Address (Sample.account Sample.strayKey.Address) := by
  set_option maxRecDepth 1000000 in decide

theorem keystore.GetKey_address (E : Env) (fs : FileSys) (m : keystore.keyStore)
    (filename : GoString) (addr : types.Address) (auth : GoString) (key : Key)
    (h : keystore.GetKey E fs m filename addr auth = .ok key) : key.Address = addr := by
  unfold keystore.GetKey at h
  split at h
  · cases h
  · simp only at h
    split at h
    · cases h
    · cases h
    · split at h
      · cases h
      · rename_i hne
        cases h
        exact not_not.mp hne

/-- C10, amended: when `Unlock(passphrase, 0)` succeeds, no timer is started, the
account holds a key whose `Address` field is the address of the account, and for
every hash `Sign` returns the signature `SignCompact` makes with the private key of
that key; when `RecoverCompact` recovers the public key of the signer, `Sender`
returns `PubkeyToAddress` of that public key, which is the address of the account
whenever the `Address` of the key is the one derived from its public key (as for
keys made by `NewKey`). -/
theorem sign_after_unlock (E : Env) (fs : FileSys) (m : accounts.account)
    (passphrase : GoString) (r : accounts.UnlockResult)
    (h : accounts.Unlock E fs m passphrase 0 = some r) (herr : r.err = none) :
    r.timer = none ∧ accounts.Address r.acct = accounts.Address m ∧
    ∃ key, r.acct.key = some key ∧ key.Address = accounts.Address m ∧
      ∀ (prv : PrivateKey) (hash : types.Hash) (sig : List Byte),
        key.PrivateKey = some prv → E.signCompact prv hash.val = .ok sig →
        E.recoverCompact sig hash.val = .ok prv.PublicKey →
        accounts.Sign E r.acct hash = .ok sig ∧
        crypto.Sender E hash sig = crypto.PubkeyToAddress E (some prv.PublicKey) ∧
        (crypto.PubkeyToAddress E (some prv.PublicKey) = .ok key.Address →
          crypto.Sender E hash sig = .ok (accounts.Address r.acct)) := by
  unfold accounts.Unlock at h
  split at h
  · cases h
  · cases h
    cases herr
  · rename_i key hkey
    cases h
    have hka := keystore.GetKey_address E fs _ _ _ _ key hkey
    refine ⟨by simp, rfl, key, rfl, hka, ?_⟩
    intro prv hash sig hprv hsig hrec
    have hS : crypto.Sender E hash sig = crypto.PubkeyToAddress E (some prv.PublicKey) := by
      simp only [crypto.Sender, crypto.SigToPub, hrec]
    refine ⟨by simp only [accounts.Sign, hprv, hsig], hS, ?_⟩
    intro hp
    rw [hS, hp, hka]
    rfl

set_option maxRecDepth 1000000 in
/-- C10, amended, at the sample instance: the file written by `EncryptKey` for
`Sample.key`, whose address is the derived one. -/
theorem sign_after_unlock_witness :
    accounts.Unlock Sample.env (Sample.fileSys Sample.file) (Sample.account Sample.address)
      Sample.passphrase 0 = some Sample.unlockResult ∧
    Sample.unlockResult.timer = none ∧
    accounts.Address Sample.unlockResult.acct = accounts.Address (Sample.account Sample.address) ∧
    ∃ key, Sample.unlockResult.acct.key = some key ∧
      key.Address = accounts.Address (Sample.account Sample.address) ∧
      ∀ (prv : PrivateKey) (hash : types.Hash) (sig : List Byte),
        key.PrivateKey = some prv → Sample.env.signCompact prv hash.val = .ok sig →
        Sample.env.recoverCompact sig hash.val = .ok prv.PublicKey →
        accounts.Sign Sample.env Sample.unlockResult.acct hash = .ok sig ∧
        crypto.Sender Sample.env hash sig =
          crypto.PubkeyToAddress Sample.env (some prv.PublicKey) ∧
        (crypto.PubkeyToAddress Sample.env (some prv.PublicKey) = .ok key.Address →
          crypto.Sender Sample.env hash sig = .ok (accounts.Address Sample.unlockResult.acct)) :=
  ⟨by decide,
   sign_after_unlock Sample.env (Sample.fileSys Sample.file) (Sample.account Sample.address)
    Sample.passphrase Sample.unlockResult (by decide) rfl⟩

end Fusion
namespace Fusion

/-- C11. `Unlock` is atomic on failure: when `Unlock` returns an error, the account
is exactly what it was before the call (its key field included, whether `nil` or
some key), no relock timer is started, and the error is the one `GetKey` returned. -/
theorem unlock_failure_leaves_account (E : Env) (fs : FileSys) (m : accounts.account)
    (passphrase : GoString) (timeout : Int) (r : accounts.UnlockResult) (e : Err)
    (h : accounts.Unlock E fs m passphrase timeout = some r) (herr : r.err = some e) :
    r.acct = m ∧ r.acct.key = m.key ∧ r.timer = none ∧
    keystore.GetKey E fs m.ks m.filename m.address passphrase = .error e := by
  unfold accounts.Unlock at h
  split at h
  · cases h
  · rename_i err hg
    cases h
    cases herr
    exact ⟨rfl, rfl, rfl, hg⟩
  · cases h
    cases herr

set_option maxRecDepth 1000000 in
/-- C11, at the sample instance: an unlocked account, `Unlock` with the wrong
passphrase and a positive timeout. -/
theorem unlock_failure_leaves_account_witness :
    accounts.Unlock Sample.env (Sample.fileSys Sample.file) Sample.unlockResult.acct
      Sample.otherPassphrase 50 =
      some { acct := Sample.unlockResult.acct, err := some .macMismatch, timer := none } ∧
    Sample.unlockResult.acct.key = some Sample.key ∧
    keystore.GetKey Sample.env (Sample.fileSys Sample.file) Sample.unlockResult.acct.ks
      Sample.unlockResult.acct.filename Sample.unlockResult.acct.address Sample.otherPassphrase
      = .error .macMismatch :=
  ⟨by decide, rfl,
   (unlock_failure_leaves_account Sample.env (Sample.fileSys Sample.file)
    Sample.unlockResult.acct Sample.otherPassphrase 50
    { acct := Sample.unlockResult.acct, err := some .macMismatch, timer := none } .macMismatch
    (by decide) rfl).2.2.2⟩

/-- C12. `Lock` always succeeds and is idempotent: it returns no error and leaves
the account Locked; on a Locked account it changes nothing; and `Lock` after `Lock`
gives the same account and result as one `Lock`. -/
theorem lock_idempotent (m : accounts.account) :
    (accounts.Lock m).2 = none ∧ (accounts.Lock m).1.key = none ∧
    (m.key = none → (accounts.Lock m).1 = m) ∧
    accounts.Lock (accounts.Lock m).1 = accounts.Lock m := by
  refine ⟨rfl, rfl, ?_, rfl⟩
  intro h
  cases m
  simp only [accounts.Lock] at *
  simp [h]

theorem accounts.step_frame (E : Env) (m : accounts.account) (op : accounts.Op) :
    (accounts.step E m op).address = m.address ∧
    (accounts.step E m op).filename = m.filename := by
  cases op with
  | lock => exact ⟨rfl, rfl⟩
  | unlock fs passphrase timeout =>
    simp only [accounts.step]
    unfold accounts.Unlock
    split
    · rename_i r hr
      split at hr <;> cases hr <;> exact ⟨rfl, rfl⟩
    · exact ⟨rfl, rfl⟩
  | sign hash => exact ⟨rfl, rfl⟩
  | timerFires => exact ⟨rfl, rfl⟩

/-- C13. Address immutability: after any finite sequence of `Lock`, `Unlock`
(successful, failed or panicking), `Sign` and timer firings, `Address()` returns what
it returned at the start and the file name of the account is unchanged, whether the
account ends Locked or Unlocked. -/
theorem address_is_immutable (E : Env) (m : accounts.account) (ops : List accounts.Op) :
    accounts.Address (accounts.run E m ops) = accounts.Address m ∧
    (accounts.run E m ops).filename = m.filename := by
  induction ops generalizing m with
  | nil => exact ⟨rfl, rfl⟩
  | cons op rest ih =>
    have hs := accounts.step_frame E m op
    have hr := ih (accounts.step E m op)
    simp only [accounts.run, List.foldl_cons, accounts.Address] at hr ⊢
    exact ⟨hr.1.trans hs.1, hr.2.trans hs.2⟩

end Fusion
namespace Fusion

theorem accounts.Unlock_ok (E : Env) (fs : FileSys) (m : accounts.account)
    (passphrase : GoString) (timeout : Int) (r : accounts.UnlockResult)
    (h : accounts.Unlock E fs m passphrase timeout = some r) (herr : r.err = none) :
    ∃ key, r.acct = { m with key := some key } ∧
      r.timer = (if timeout > 0 then some timeout else none) := by
  unfold accounts.Unlock at h
  split at h
  · cases h
  · cases h
    cases herr
  · rename_i key _
    cases h
    exact ⟨key, rfl, rfl⟩

theorem accounts.Unlock_error_acct (E : Env) (fs : FileSys) (m : accounts.account)
    (passphrase : GoString) (timeout : Int) (r : accounts.UnlockResult) (e : Err)
    (h : accounts.Unlock E fs m passphrase timeout = some r) (herr : r.err = some e) :
    r.acct = m := by
  unfold accounts.Unlock at h
  split at h
  · cases h
  · cases h
    rfl
  · cases h
    cases herr

theorem accounts.Unlock_timer (E : Env) (fs : FileSys) (m : accounts.account)
    (passphrase : GoString) (timeout : Int) (r : accounts.UnlockResult)
    (h : accounts.Unlock E fs m passphrase timeout = some r) :
    r.timer = none ∨ (0 < timeout ∧ r.err = none ∧ r.timer = some timeout) := by
  unfold accounts.Unlock at h
  split at h
  · cases h
  · cases h
    exact Or.inl rfl
  · cases h
    by_cases ht : timeout > 0
    · exact Or.inr ⟨ht, rfl, by simp [ht]⟩
    · exact Or.inl (by simp [ht])

theorem accounts.Sign_unlocked (E : Env) (m : accounts.account) (key : Key) (prv : PrivateKey)
    (hash : types.Hash) (hk : m.key = some key) (hp : key.PrivateKey = some prv) :
    (∀ sig, E.signCompact prv hash.val = .ok sig → accounts.Sign E m hash = .ok sig) ∧
    (∀ e, E.signCompact prv hash.val = .error e → accounts.Sign E m hash = .error e) := by
  refine ⟨fun sig h => ?_, fun e h => ?_⟩ <;> simp only [accounts.Sign, hk, hp, h]

/-- An Unlocked account stays Unlocked through calls of `Sign` and `Unlock`. -/
theorem accounts.Timed.unlocked_persists (E : Env) (evs : List accounts.Event) :
    ∀ s : accounts.Timed, (∃ key, s.acct.key = some key) →
    (∀ ev ∈ evs, ev ≠ accounts.Event.lock ∧ ∀ i, ev ≠ accounts.Event.fire i) →
    ∃ key, (evs.foldl (accounts.Timed.step E) s).acct.key = some key := by
  induction evs with
  | nil => intro s hs _; exact hs
  | cons ev rest ih =>
    intro s hs hev
    have h0 := hev ev (List.mem_cons_self _ _)
    have hrest : ∀ ev ∈ rest, ev ≠ accounts.Event.lock ∧ ∀ i, ev ≠ accounts.Event.fire i :=
      fun e he => hev e (List.mem_cons_of_mem _ he)
    rw [List.foldl_cons]
    apply ih _ _ hrest
    cases ev with
    | lock => exact absurd rfl h0.1
    | fire i => exact absurd rfl (h0.2 i)
    | sign hash => exact hs
    | unlock fs p t =>
      cases hu : accounts.Unlock E fs s.acct p t with
      | none => simp only [accounts.Timed.step, hu]; exact hs
      | some r =>
        simp only [accounts.Timed.step, hu]
        cases he : r.err with
        | none =>
          obtain ⟨key, hacct, _⟩ := accounts.Unlock_ok E fs s.acct p t r hu he
          exact ⟨key, by rw [hacct]⟩
        | some e =>
          rw [accounts.Unlock_error_acct E fs s.acct p t r e hu he]
          exact hs

/-- A Locked account stays Locked through calls of `Sign` and `Lock` and through
the firing of timers. -/
theorem accounts.Timed.locked_persists (E : Env) (evs : List accounts.Event) :
    ∀ s : accounts.Timed, s.acct.key = none →
    (∀ ev ∈ evs, ∀ fs p t, ev ≠ accounts.Event.unlock fs p t) →
    (evs.foldl (accounts.Timed.step E) s).acct.key = none := by
  induction evs with
  | nil => intro s hs _; exact hs
  | cons ev rest ih =>
    intro s hs hev
    have h0 := hev ev (List.mem_cons_self _ _)
    have hrest : ∀ ev ∈ rest, ∀ fs p t, ev ≠ accounts.Event.unlock fs p t :=
      fun e he => hev e (List.mem_cons_of_mem _ he)
    rw [List.foldl_cons]
    apply ih _ _ hrest
    cases ev with
    | lock => rfl
    | fire i =>
      simp only [accounts.Timed.step]
      split
      · rfl
      · exact hs
    | sign hash => exact hs
    | unlock fs p t => exact absurd rfl (h0 fs p t)

theorem accounts.Timed.step_timers_prefix (E : Env) (s : accounts.Timed) (ev : accounts.Event)
    (h : ∀ i, ev ≠ accounts.Event.fire i) : s.timers <+: (s.step E ev).timers := by
  cases ev with
  | lock => exact List.prefix_refl _
  | sign hash => exact List.prefix_refl _
  | fire i => exact absurd rfl (h i)
  | unlock fs p t =>
    cases hu : accounts.Unlock E fs s.acct p t with
    | none => simp only [accounts.Timed.step, hu]; exact List.prefix_refl _
    | some r => simp only [accounts.Timed.step, hu]; exact List.prefix_append _ _

/-- The pending timers stay pending, in their order, through every sequence of
events in which no timer fires. -/
theorem accounts.Timed.timers_prefix (E : Env) (evs : List accounts.Event) :
    ∀ s : accounts.Timed, (∀ ev ∈ evs, ∀ i, ev ≠ accounts.Event.fire i) →
    s.timers <+: (evs.foldl (accounts.Timed.step E) s).timers := by
  induction evs with
  | nil => intro s _; exact List.prefix_refl _
  | cons ev rest ih =>
    intro s hev
    rw [List.foldl_cons]
    exact List.IsPrefix.trans
      (accounts.Timed.step_timers_prefix E s ev (hev ev (List.mem_cons_self _ _)))
      (ih _ (fun e he => hev e (List.mem_cons_of_mem _ he)))

theorem accounts.Timed.sign_only (E : Env) (hashes : List types.Hash) :
    ∀ s : accounts.Timed,
      (hashes.map accounts.Event.sign).foldl (accounts.Timed.step E) s = s := by
  induction hashes with
  | nil => intro s; rfl
  | cons h rest ih => intro s; rw [List.map_cons, List.foldl_cons]; exact ih _

set_option maxRecDepth 1000000 in
/-- C14, as stated, fails in the step model: the sample account is unlocked with
timeout 10 and then, successfully, with timeout 50; when the first timer fires the
timer of the second `Unlock` is still pending, and yet the account is Locked and
`Sign` fails with the account-locked error. -/
theorem earlier_timer_locks_account :
    (accounts.Unlock Sample.env (Sample.fileSys Sample.file)
        (({ acct := Sample.account Sample.address, timers := [] } : accounts.Timed).step
          Sample.env (.unlock (Sample.fileSys Sample.file) Sample.passphrase 10)).acct
        Sample.passphrase 50).map (fun r => (r.err, r.timer)) = some (none, some 50) ∧
    ([accounts.Event.unlock (Sample.fileSys Sample.file) Sample.passphrase 10,
      accounts.Event.unlock (Sample.fileSys Sample.file) Sample.passphrase 50].foldl
        (accounts.Timed.step Sample.env)
        { acct := Sample.account Sample.address, timers := [] }).timers = [10, 50] ∧
    ([accounts.Event.unlock (Sample.fileSys Sample.file) Sample.passphrase 10,
      accounts.Event.unlock (Sample.fileSys Sample.file) Sample.passphrase 50,
      accounts.Event.fire 0].foldl (accounts.Timed.step Sample.env)
        { acct := Sample.account Sample.address, timers := [] }).timers = [50] ∧
    accounts.Sign Sample.env
      ([accounts.Event.unlock (Sample.fileSys Sample.file) Sample.passphrase 10,
        accounts.Event.unlock (Sample.fileSys Sample.file) Sample.passphrase 50,
        accounts.Event.fire 0].foldl (accounts.Timed.step Sample.env)
          { acct := Sample.account Sample.address, timers := [] }).acct Sample.hash
      = .error .accountLocked := by
  decide

/-- C14, amended.  Timed relock, in the step model in which a successful `Unlock`
with a positive timeout appends one timer and a firing timer calls `Lock`.
A successful `Unlock(pass, t)` with `t > 0` adds exactly the timer `t` and leaves
the account Unlocked, and the account stays Unlocked, with all these timers
pending, through every sequence of calls of `Sign` and `Unlock`, that is until
`Lock` is called or a pending timer fires, be it this timer or one of an earlier
`Unlock`.  In an Unlocked state whose key has a private key, `Sign` returns what
`SignCompact` returns with that private key, signature or error, and never the
account-locked error of a Locked account; calls of `Sign` change nothing.  When a
pending timer fires the account is Locked, `Sign` fails with the account-locked
error, and only that timer stops being pending; a Locked account stays Locked
through every sequence of events without `Unlock`, and under every single event
that is not a successful `Unlock`.  `Sign` and `Lock` leave the pending timers as
they are, `Unlock` keeps all of them and adds at most one, no sequence of events
without a firing removes or reorders a pending timer, and `Unlock` with a timeout
that is not positive adds none. -/
theorem timed_relock (E : Env) (s : accounts.Timed) :
    (∀ fs p t r, accounts.Unlock E fs s.acct p t = some r → r.err = none → 0 < t →
      (s.step E (.unlock fs p t)).timers = s.timers ++ [t] ∧
      (∃ key, (s.step E (.unlock fs p t)).acct.key = some key ∧
        ∀ (prv : PrivateKey) (hash : types.Hash) (sig : List Byte),
          key.PrivateKey = some prv → E.signCompact prv hash.val = .ok sig →
          accounts.Sign E (s.step E (.unlock fs p t)).acct hash = .ok sig) ∧
      (∀ evs : List accounts.Event,
        (∀ ev ∈ evs, ev ≠ accounts.Event.lock ∧ ∀ i, ev ≠ accounts.Event.fire i) →
        (∃ key, (evs.foldl (accounts.Timed.step E) (s.step E (.unlock fs p t))).acct.key
          = some key) ∧
        s.timers ++ [t] <+:
          (evs.foldl (accounts.Timed.step E) (s.step E (.unlock fs p t))).timers) ∧
      (∀ hashes : List types.Hash,
        (hashes.map accounts.Event.sign).foldl (accounts.Timed.step E)
          (s.step E (.unlock fs p t)) = s.step E (.unlock fs p t))) ∧
    (∀ (key : Key) (prv : PrivateKey) (hash : types.Hash),
      s.acct.key = some key → key.PrivateKey = some prv →
      (∀ sig, E.signCompact prv hash.val = .ok sig → accounts.Sign E s.acct hash = .ok sig) ∧
      (∀ e, E.signCompact prv hash.val = .error e → accounts.Sign E s.acct hash = .error e)) ∧
    (∀ evs : List accounts.Event, (∃ key, s.acct.key = some key) →
      (∀ ev ∈ evs, ev ≠ accounts.Event.lock ∧ ∀ i, ev ≠ accounts.Event.fire i) →
      ∃ key, (evs.foldl (accounts.Timed.step E) s).acct.key = some key) ∧
    (∀ i hash, i < s.timers.length →
      (s.step E (.fire i)).acct.key = none ∧
      accounts.Sign E (s.step E (.fire i)).acct hash = .error .accountLocked ∧
      (s.step E (.fire i)).timers = s.timers.eraseIdx i) ∧
    (∀ ev, s.acct.key = none →
      (s.step E ev).acct.key = none ∨
      ∃ fs p t r, ev = .unlock fs p t ∧ accounts.Unlock E fs s.acct p t = some r ∧
        r.err = none) ∧
    (∀ (evs : List accounts.Event) (hash : types.Hash), s.acct.key = none →
      (∀ ev ∈ evs, ∀ fs p t, ev ≠ accounts.Event.unlock fs p t) →
      (evs.foldl (accounts.Timed.step E) s).acct.key = none ∧
      accounts.Sign E (evs.foldl (accounts.Timed.step E) s).acct hash
        = .error .accountLocked) ∧
    (∀ hash, (s.step E (.sign hash)).timers = s.timers) ∧
    (s.step E .lock).timers = s.timers ∧
    (∀ fs p t, s.timers <+: (s.step E (.unlock fs p t)).timers ∧
      (s.step E (.unlock fs p t)).timers.length ≤ s.timers.length + 1) ∧
    (∀ evs : List accounts.Event, (∀ ev ∈ evs, ∀ i, ev ≠ accounts.Event.fire i) →
      s.timers <+: (evs.foldl (accounts.Timed.step E) s).timers) ∧
    (∀ fs p t, t ≤ 0 → (s.step E (.unlock fs p t)).timers = s.timers) := by
  refine ⟨?_, ?_, ?_, ?_, ?_, ?_, fun _ => rfl, rfl, ?_, ?_, ?_⟩
  · intro fs p t r h herr ht
    obtain ⟨key, hacct, htimer⟩ := accounts.Unlock_ok E fs s.acct p t r h herr
    have hstep : s.step E (.unlock fs p t) =
        { acct := { s.acct with key := some key }, timers := s.timers ++ [t] } := by
      simp only [accounts.Timed.step, h, htimer, if_pos ht, Option.toList, hacct]
    rw [hstep]
    refine ⟨rfl, ⟨key, rfl, ?_⟩, ?_, ?_⟩
    · intro prv hash sig hprv hsig
      simp only [accounts.Sign, hprv, hsig]
    · intro evs hev
      exact ⟨accounts.Timed.unlocked_persists E evs _ ⟨key, rfl⟩ hev,
        accounts.Timed.timers_prefix E evs
          { acct := { s.acct with key := some key }, timers := s.timers ++ [t] }
          (fun ev he => (hev ev he).2)⟩
    · intro hashes
      exact accounts.Timed.sign_only E hashes _
  · intro key prv hash hk hp
    exact accounts.Sign_unlocked E s.acct key prv hash hk hp
  · intro evs hs hev
    exact accounts.Timed.unlocked_persists E evs s hs hev
  · intro i hash hi
    simp only [accounts.Timed.step, if_pos hi, accounts.Lock, accounts.Sign, and_self]
  · intro ev hlocked
    cases ev with
    | lock => exact Or.inl rfl
    | sign hash => exact Or.inl hlocked
    | fire i =>
      simp only [accounts.Timed.step]
      split
      · exact Or.inl rfl
      · exact Or.inl hlocked
    | unlock fs p t =>
      cases hu : accounts.Unlock E fs s.acct p t with
      | none =>
        left
        simp only [accounts.Timed.step, hu, hlocked]
      | some r =>
        cases he : r.err with
        | none => exact Or.inr ⟨fs, p, t, r, rfl, hu, he⟩
        | some e =>
          left
          have := (accounts.Unlock_error_acct E fs s.acct p t r e hu he)
          simp only [accounts.Timed.step, hu, this, hlocked]
  · intro evs hash hlocked hev
    have hk := accounts.Timed.locked_persists E evs s hlocked hev
    exact ⟨hk, by simp only [accounts.Sign, hk]⟩
  · intro fs p t
    cases hu : accounts.Unlock E fs s.acct p t with
    | none => simp [accounts.Timed.step, hu]
    | some r =>
      simp only [accounts.Timed.step, hu]
      refine ⟨List.prefix_append _ _, ?_⟩
      rcases accounts.Unlock_timer E fs s.acct p t r hu with h | ⟨_, _, h⟩ <;>
        simp [h, Option.toList]
  · intro evs hev
    exact accounts.Timed.timers_prefix E evs s hev
  · intro fs p t ht
    cases hu : accounts.Unlock E fs s.acct p t with
    | none => simp [accounts.Timed.step, hu]
    | some r =>
      rcases accounts.Unlock_timer E fs s.acct p t r hu with h | ⟨hpos, _, _⟩
      · simp [accounts.Timed.step, hu, h, Option.toList]
      · omega

set_option maxRecDepth 1000000 in
/-- C14, amended, at the sample instance: `Unlock` with timeout 50 starts the
timer 50 and `Sign` succeeds, also after two more calls of `Sign`; after that timer
has fired `Sign` fails with the account-locked error and no timer is pending. -/
theorem timed_relock_witness :
    ((({ acct := Sample.account Sample.address, timers := [] } : accounts.Timed).step Sample.env
      (.unlock (Sample.fileSys Sample.file) Sample.passphrase 50)).timers = [50]) ∧
    accounts.Sign Sample.env
      (({ acct := Sample.account Sample.address, timers := [] } : accounts.Timed).step Sample.env
        (.unlock (Sample.fileSys Sample.file) Sample.passphrase 50)).acct Sample.hash
      = .ok Sample.signature ∧
    ([Sample.hash, Sample.hash].map accounts.Event.sign).foldl (accounts.Timed.step Sample.env)
      (({ acct := Sample.account Sample.address, timers := [] } : accounts.Timed).step Sample.env
        (.unlock (Sample.fileSys Sample.file) Sample.passphrase 50))
      = ({ acct := Sample.account Sample.address, timers := [] } : accounts.Timed).step Sample.env
        (.unlock (Sample.fileSys Sample.file) Sample.passphrase 50) ∧
    accounts.Sign Sample.env
      ((({ acct := Sample.account Sample.address, timers := [] } : accounts.Timed).step Sample.env
        (.unlock (Sample.fileSys Sample.file) Sample.passphrase 50)).step Sample.env
          (.fire 0)).acct Sample.hash
      = .error .accountLocked ∧
    ((({ acct := Sample.account Sample.address, timers := [] } : accounts.Timed).step Sample.env
        (.unlock (Sample.fileSys Sample.file) Sample.passphrase 50)).step Sample.env
          (.fire 0)).timers = [] := by
  have h := timed_relock Sample.env
    (({ acct := Sample.account Sample.address, timers := [] } : accounts.Timed).step Sample.env
        (.unlock (Sample.fileSys Sample.file) Sample.passphrase 50))
  have h0 := timed_relock Sample.env
    ({ acct := Sample.account Sample.address, timers := [] } : accounts.Timed)
  refine ⟨by decide, by decide, ?_, (h.2.2.2.1 0 Sample.hash (by decide)).2.1, by decide⟩
  exact (h0.1 (Sample.fileSys Sample.file) Sample.passphrase 50
    { Sample.unlockResult with timer := some 50 } (by decide) rfl (by decide)).2.2.2
    [Sample.hash, Sample.hash]

end Fusion
namespace Fusion

/-! ## The manager: C15 to C19 -/

theorem accounts.scanVisits_eq_foldl (E : Env) (fs : FileSys) (ks : keystore.keyStore)
    (visits : List Visit) (reg : accounts.Registry) :
    accounts.scanVisits E fs ks visits reg =
      (accounts.accepted E fs ks visits).foldl (fun r a => r.set (accounts.Address a) a) reg := by
  induction visits generalizing reg with
  | nil => rfl
  | cons v rest ih =>
    unfold accounts.scanVisits accounts.accepted
    split
    · split
      · rfl
      · exact ih reg
    · exact ih reg
    · split
      · exact ih reg
      · rw [ih]; rfl

theorem accounts.accepted_mem (E : Env) (fs : FileSys) (ks : keystore.keyStore)
    (visits : List Visit) (a : accounts.account) (h : a ∈ accounts.accepted E fs ks visits) :
    ∃ v ∈ visits, v.info = some false ∧ accounts.readAccount E fs ks v.path = some a := by
  induction visits with
  | nil => cases h
  | cons v rest ih =>
    unfold accounts.accepted at h
    split at h
    · split at h
      · cases h
      · obtain ⟨w, hw, h1, h2⟩ := ih h
        exact ⟨w, List.mem_cons_of_mem _ hw, h1, h2⟩
    · obtain ⟨w, hw, h1, h2⟩ := ih h
      exact ⟨w, List.mem_cons_of_mem _ hw, h1, h2⟩
    · rename_i hinfo
      split at h
      · obtain ⟨w, hw, h1, h2⟩ := ih h
        exact ⟨w, List.mem_cons_of_mem _ hw, h1, h2⟩
      · rename_i b hb
        rcases List.mem_cons.mp h with rfl | h
        · exact ⟨v, List.mem_cons_self _ _, hinfo, hb⟩
        · obtain ⟨w, hw, h1, h2⟩ := ih h
          exact ⟨w, List.mem_cons_of_mem _ hw, h1, h2⟩

theorem accounts.accepted_eq_filterMap (E : Env) (fs : FileSys) (ks : keystore.keyStore)
    (visits : List Visit) (h : ∀ v ∈ visits, v.info = none → v.err = none) :
    accounts.accepted E fs ks visits =
      visits.filterMap (fun v =>
        if v.info = some false then accounts.readAccount E fs ks v.path else none) := by
  induction visits with
  | nil => rfl
  | cons v rest ih =>
    have ih1 := ih (fun w hw => h w (List.mem_cons_of_mem _ hw))
    have hv := h v (List.mem_cons_self _ _)
    unfold accounts.accepted
    split
    · rename_i hinfo
      rw [hv hinfo]
      simp only [List.filterMap_cons, hinfo]
      simpa using ih1
    · rename_i hinfo
      simp only [List.filterMap_cons, hinfo]
      simpa using ih1
    · rename_i hinfo
      split
      · rename_i hr
        simp only [List.filterMap_cons, hinfo, if_true, hr]
        exact ih1
      · rename_i a hr
        simp only [List.filterMap_cons, hinfo, if_true, hr]
        rw [ih1]

/-- Registering accounts with pairwise distinct addresses, none of them a key of
the registry, puts them in front of the registry, last one first. -/
theorem accounts.foldl_set_nodup (l : List accounts.account) (reg : accounts.Registry)
    (hd : (l.map accounts.Address).Nodup)
    (hdisj : ∀ a ∈ l, ∀ e ∈ reg, e.1 ≠ accounts.Address a) :
    l.foldl (fun r a => r.set (accounts.Address a) a) reg =
      (l.map (fun a => (accounts.Address a, a))).reverse ++ reg := by
  induction l generalizing reg with
  | nil => rfl
  | cons a rest ih =>
    have hset : reg.set (accounts.Address a) a = (accounts.Address a, a) :: reg := by
      simp only [accounts.Registry.set, List.cons.injEq, true_and]
      apply List.filter_eq_self.mpr
      intro e he
      simpa using hdisj a (List.mem_cons_self _ _) e he
    rw [List.foldl_cons, hset, ih]
    · simp
    · exact (List.nodup_cons.mp hd).2
    · intro b hb e he
      rcases List.mem_cons.mp he with rfl | he
      · intro heq
        have heq2 : accounts.Address a = accounts.Address b := heq
        exact (List.nodup_cons.mp hd).1 (heq2 ▸ List.mem_map_of_mem _ hb)
      · exact hdisj b (List.mem_cons_of_mem _ hb) e he

/-- C15, as stated, fails: the directory of `Sample.twoFiles` holds two valid
envelope files (both are accepted by the scan) that encode the same address, and the
manager built on it has one account. -/
theorem scan_count_not_number_of_files :
    (accounts.accepted Sample.env (Sample.twoFiles Sample.file)
      (keystore.NewPassphraseKeyStore keystore.StandardScryptN keystore.StandardScryptP)
      ((Sample.twoFiles Sample.file).walk Sample.dir)).length = 2 ∧
    (accounts.Accounts (accounts.NewManager Sample.env (Sample.twoFiles Sample.file)
      Sample.dir)).length = 1 := by
  set_option maxRecDepth 1000000 in decide

/-- C15, amended: when the valid envelope files the walk visits encode pairwise
distinct addresses, `Accounts()` of the manager built on the directory returns
exactly one account for each of them (the `accepted` list, which is the list of the
regular files `readAccount` accepts when no call of the walk has a `nil` file info
with an error); every account returned is Locked and carries the address decoded
from the `Address` field of the content of its file. -/
theorem scan_count (E : Env) (fs : FileSys) (dir : GoString)
    (hd : ((accounts.accepted E fs
      (keystore.NewPassphraseKeyStore keystore.StandardScryptN keystore.StandardScryptP)
      (fs.walk dir)).map accounts.Address).Nodup) :
    accounts.Accounts (accounts.NewManager E fs dir) =
      (accounts.accepted E fs
        (keystore.NewPassphraseKeyStore keystore.StandardScryptN keystore.StandardScryptP)
        (fs.walk dir)).reverse ∧
    (accounts.Accounts (accounts.NewManager E fs dir)).length =
      (accounts.accepted E fs
        (keystore.NewPassphraseKeyStore keystore.StandardScryptN keystore.StandardScryptP)
        (fs.walk dir)).length ∧
    ((∀ v ∈ fs.walk dir, v.info = none → v.err = none) →
      accounts.accepted E fs
        (keystore.NewPassphraseKeyStore keystore.StandardScryptN keystore.StandardScryptP)
        (fs.walk dir) =
      (fs.walk dir).filterMap (fun v =>
        if v.info = some false then
          accounts.readAccount E fs
            (keystore.NewPassphraseKeyStore keystore.StandardScryptN keystore.StandardScryptP)
            v.path
        else none)) ∧
    (∀ a ∈ accounts.Accounts (accounts.NewManager E fs dir),
      a.key = none ∧
      ∃ content keyAddress addr, fs.read a.filename = .ok content ∧
        E.jsonDecodeAddress content = .ok keyAddress ∧
        hex.DecodeString keyAddress = .ok addr ∧
        accounts.Address a = types.BytesToAddress addr) := by
  have hA : accounts.Accounts (accounts.NewManager E fs dir) =
      (accounts.accepted E fs
        (keystore.NewPassphraseKeyStore keystore.StandardScryptN keystore.StandardScryptP)
        (fs.walk dir)).reverse := by
    simp only [accounts.Accounts, accounts.NewManager, accounts.scanAccounts,
      accounts.scanVisits_eq_foldl]
    rw [accounts.foldl_set_nodup _ [] hd (fun _ _ e he => absurd he (List.not_mem_nil e))]
    simp [List.map_reverse, Function.comp_def]
  refine ⟨hA, by rw [hA, List.length_reverse], accounts.accepted_eq_filterMap E fs _ _, ?_⟩
  intro a ha
  rw [hA, List.mem_reverse] at ha
  obtain ⟨v, _, _, hr⟩ := accounts.accepted_mem E fs _ _ a ha
  obtain ⟨content, keyAddress, addr, h1, h2, h3, _, rfl⟩ :=
    accounts.readAccount_some E fs _ _ a hr
  exact ⟨rfl, content, keyAddress, addr, h1, h2, h3, rfl⟩

set_option maxRecDepth 1000000 in
/-- C15, amended, at the sample instance: a directory with one valid file. -/
theorem scan_count_witness :
    accounts.Accounts (accounts.NewManager Sample.env (Sample.fileSys Sample.file) Sample.dir) =
      [Sample.account Sample.address] ∧
    (accounts.Accounts (accounts.NewManager Sample.env (Sample.fileSys Sample.file)
      Sample.dir)).length = 1 :=
  have h := scan_count Sample.env (Sample.fileSys Sample.file) Sample.dir (by decide)
  ⟨h.1.trans (by decide), h.2.1.trans (by decide)⟩

end Fusion
namespace Fusion

/-- The invariant of the registry: every entry is filed under the address of its
account, and no address is the key of two entries. -/
theorem accounts.Registry.set_invariant (reg : accounts.Registry) (a : accounts.account)
    (h : (∀ e ∈ reg, accounts.Address e.2 = e.1) ∧ (reg.map Prod.fst).Nodup) :
    (∀ e ∈ reg.set (accounts.Address a) a, accounts.Address e.2 = e.1) ∧
    ((reg.set (accounts.Address a) a).map Prod.fst).Nodup := by
  constructor
  · intro e he
    rcases (accounts.Registry.mem_set _ _ _ _).mp he with rfl | ⟨he, _⟩
    · rfl
    · exact h.1 e he
  · simp only [accounts.Registry.set, List.map_cons, List.nodup_cons, List.mem_map,
      List.mem_filter, not_exists, not_and]
    constructor
    · rintro e ⟨_, hne⟩ heq
      simp only [ne_eq, decide_not, Bool.not_eq_eq_eq_not, Bool.not_true,
        decide_eq_false_iff_not] at hne
      exact hne heq
    · exact (h.2.sublist ((List.filter_sublist _).map _))

theorem accounts.foldl_set_invariant (l : List accounts.account) (reg : accounts.Registry)
    (h : (∀ e ∈ reg, accounts.Address e.2 = e.1) ∧ (reg.map Prod.fst).Nodup) :
    (∀ e ∈ l.foldl (fun r a => r.set (accounts.Address a) a) reg, accounts.Address e.2 = e.1) ∧
    ((l.foldl (fun r a => r.set (accounts.Address a) a) reg).map Prod.fst).Nodup := by
  induction l generalizing reg with
  | nil => exact h
  | cons a rest ih => exact ih _ (accounts.Registry.set_invariant reg a h)

theorem accounts.NewAccount_invariant (E : Env) (fs : FileSys) (m : accounts.manager)
    (passphrase : GoString) (draw : keystore.Draw) (fs1 : FileSys) (m1 : accounts.manager)
    (res : Except Err accounts.account)
    (hcall : accounts.NewAccount E fs m passphrase draw = some (fs1, m1, res))
    (h : (∀ e ∈ m.accounts, accounts.Address e.2 = e.1) ∧ (m.accounts.map Prod.fst).Nodup) :
    (∀ e ∈ m1.accounts, accounts.Address e.2 = e.1) ∧ (m1.accounts.map Prod.fst).Nodup := by
  unfold accounts.NewAccount at hcall
  split at hcall
  · cases hcall
  · cases hcall
    exact h
  · cases hcall
    exact accounts.Registry.set_invariant _ _ h

theorem accounts.NewAccounts_invariant (E : Env) (calls : List (GoString × keystore.Draw))
    (fs : FileSys) (m : accounts.manager) (fs1 : FileSys) (m1 : accounts.manager)
    (hcalls : accounts.NewAccounts E fs m calls = some (fs1, m1))
    (h : (∀ e ∈ m.accounts, accounts.Address e.2 = e.1) ∧ (m.accounts.map Prod.fst).Nodup) :
    (∀ e ∈ m1.accounts, accounts.Address e.2 = e.1) ∧ (m1.accounts.map Prod.fst).Nodup := by
  induction calls generalizing fs m with
  | nil =>
    simp only [accounts.NewAccounts, Option.some.injEq, Prod.mk.injEq] at hcalls
    rw [← hcalls.2]
    exact h
  | cons c rest ih =>
    obtain ⟨passphrase, draw⟩ := c
    unfold accounts.NewAccounts at hcalls
    split at hcalls
    · cases hcalls
    · rename_i fs2 m2 res hcall
      exact ih fs2 m2 hcalls (accounts.NewAccount_invariant E fs m passphrase draw fs2 m2 res hcall h)

theorem List.find?_filter_of_imp {α : Type} (p q : α → Bool) (l : List α)
    (h : ∀ x, p x = true → q x = true) : (l.filter q).find? p = l.find? p := by
  induction l with
  | nil => rfl
  | cons e rest ih =>
    by_cases hq : q e = true
    · rw [List.filter_cons_of_pos hq, List.find?_cons, List.find?_cons, ih]
    · rw [List.filter_cons_of_neg hq, ih, List.find?_cons]
      have hp : p e = false := by
        cases hpe : p e with
        | false => rfl
        | true => exact absurd (h e hpe) hq
      rw [hp]

theorem accounts.Registry.get_set (reg : accounts.Registry) (addr : types.Address)
    (a : accounts.account) (k : types.Address) :
    (reg.set addr a).get k = if k = addr then some a else reg.get k := by
  by_cases hk : k = addr
  · subst hk
    simp [accounts.Registry.get, accounts.Registry.set]
  · have hk2 : ¬ addr = k := fun h => hk h.symm
    simp only [accounts.Registry.get, accounts.Registry.set, List.find?_cons, hk2,
      decide_False, if_neg hk]
    congr 1
    apply List.find?_filter_of_imp
    intro x hx
    have hx1 : x.1 = k := of_decide_eq_true hx
    exact decide_eq_true (fun h => hk (hx1.symm.trans h))

/-- After registering a list of accounts, the entry of an address is the last
account of the list with that address, or the entry it had before. -/
theorem accounts.foldl_set_get (l : List accounts.account) (reg : accounts.Registry)
    (k : types.Address) :
    (l.foldl (fun r a => r.set (accounts.Address a) a) reg).get k =
      match l.reverse.find? (fun a => accounts.Address a = k) with
      | some a => some a
      | none => reg.get k := by
  induction l generalizing reg with
  | nil => rfl
  | cons a rest ih =>
    rw [List.foldl_cons, ih, List.reverse_cons, List.find?_append, accounts.Registry.get_set]
    cases hfind : rest.reverse.find? (fun a => accounts.Address a = k) with
    | some b => rfl
    | none =>
      by_cases hk : accounts.Address a = k
      · simp [hk]
      · have hk2 : ¬ k = accounts.Address a := fun h => hk h.symm
        simp [hk, hk2]

/-- C16. Registry uniqueness with last-write-wins: after the scan of `NewManager`
and any number of `NewAccount` calls, every entry of the registry is filed under the
`Address()` of its account, `Accounts()` has no two accounts with the same address,
and its length is the number of distinct addresses in it; and after the scan the
entry of an address is the account of the last accepted file, in walk order, that
encodes this address. -/
theorem registry_unique (E : Env) (fs : FileSys) (dir : GoString) :
    (∀ calls fs1 m1,
      accounts.NewAccounts E fs (accounts.NewManager E fs dir) calls = some (fs1, m1) →
      (∀ e ∈ m1.accounts, accounts.Address e.2 = e.1) ∧
      ((accounts.Accounts m1).map accounts.Address).Nodup ∧
      (accounts.Accounts m1).length = ((accounts.Accounts m1).map accounts.Address).dedup.length) ∧
    (∀ addr, (accounts.NewManager E fs dir).accounts.get addr =
      (accounts.accepted E fs
        (keystore.NewPassphraseKeyStore keystore.StandardScryptN keystore.StandardScryptP)
        (fs.walk dir)).reverse.find? (fun a => accounts.Address a = addr)) ∧
    (∀ a ∈ accounts.accepted E fs
        (keystore.NewPassphraseKeyStore keystore.StandardScryptN keystore.StandardScryptP)
        (fs.walk dir),
      ∃ v ∈ fs.walk dir, v.info = some false ∧ a.filename = v.path) := by
  have h0 : (∀ e ∈ (accounts.NewManager E fs dir).accounts, accounts.Address e.2 = e.1) ∧
      ((accounts.NewManager E fs dir).accounts.map Prod.fst).Nodup := by
    simp only [accounts.NewManager, accounts.scanAccounts, accounts.scanVisits_eq_foldl]
    exact accounts.foldl_set_invariant _ [] ⟨fun e he => absurd he (List.not_mem_nil e),
      List.nodup_nil⟩
  refine ⟨?_, ?_, ?_⟩
  · intro calls fs1 m1 hcalls
    obtain ⟨h1, h2⟩ := accounts.NewAccounts_invariant E calls fs _ fs1 m1 hcalls h0
    have hmap : (accounts.Accounts m1).map accounts.Address = m1.accounts.map Prod.fst := by
      simp only [accounts.Accounts, List.map_map]
      exact List.map_congr_left (fun e he => h1 e he)
    refine ⟨h1, hmap ▸ h2, ?_⟩
    rw [List.Nodup.dedup (hmap ▸ h2), List.length_map]
  · intro addr
    simp only [accounts.NewManager, accounts.scanAccounts, accounts.scanVisits_eq_foldl]
    rw [accounts.foldl_set_get]
    cases (accounts.accepted E fs _ (fs.walk dir)).reverse.find?
      (fun a => accounts.Address a = addr) <;> rfl
  · intro a ha
    obtain ⟨v, hv, hinfo, hr⟩ := accounts.accepted_mem E fs _ _ a ha
    obtain ⟨_, _, _, _, _, _, _, rfl⟩ := accounts.readAccount_some E fs _ _ a hr
    exact ⟨v, hv, hinfo, rfl⟩

set_option maxRecDepth 1000000 in
/-- C16, at the sample instance: of the two files that encode the same address, the
one visited last is the one the account is bound to. -/
theorem registry_unique_witness :
    (accounts.NewManager Sample.env (Sample.twoFiles Sample.file) Sample.dir).accounts.get
      Sample.address = some { Sample.account Sample.address with filename := Sample.path2 } := by
  decide

/-- C17. Scan acceptance criterion: `readAccount` returns an account for a path if
and only if the file can be read, its leading JSON value decodes into an `Address`
string, and that string hex-decodes to exactly 20 bytes, the account being the Locked
account of that address and path; the scan registers that account and otherwise
leaves the registry as it is and goes on with the walk; an `Address` that is empty,
`0x`-prefixed or of another length is not accepted; and two contents with the same
decoded `Address` are accepted or refused alike. -/
theorem scan_acceptance (E : Env) (fs : FileSys) (ks : keystore.keyStore) :
    (∀ path a, accounts.readAccount E fs ks path = some a ↔
      ∃ content keyAddress addr, fs.read path = .ok content ∧
        E.jsonDecodeAddress content = .ok keyAddress ∧
        hex.DecodeString keyAddress = .ok addr ∧ addr.length = types.AddressBytesNumber ∧
        a = { address := types.BytesToAddress addr, key := none, filename := path, ks := ks }) ∧
    (∀ v rest reg, v.info = some false →
      accounts.scanVisits E fs ks (v :: rest) reg =
        accounts.scanVisits E fs ks rest
          (match accounts.readAccount E fs ks v.path with
           | some a => reg.set (accounts.Address a) a
           | none => reg)) ∧
    (∀ path content rest, fs.read path = .ok content →
      (E.jsonDecodeAddress content = .ok [] ∨
       E.jsonDecodeAddress content = .ok (48 :: 120 :: rest)) →
      accounts.readAccount E fs ks path = none) ∧
    (∀ (fs2 : FileSys) path content content2, fs.read path = .ok content →
      fs2.read path = .ok content2 →
      E.jsonDecodeAddress content = E.jsonDecodeAddress content2 →
      accounts.readAccount E fs ks path = accounts.readAccount E fs2 ks path) := by
  refine ⟨?_, ?_, ?_, ?_⟩
  · intro path a
    constructor
    · exact accounts.readAccount_some E fs ks path a
    · rintro ⟨content, keyAddress, addr, h1, h2, h3, h4, rfl⟩
      simp only [accounts.readAccount, h1, h2, h3, h4, ne_eq, not_true_eq_false, if_false]
  · intro v rest reg hv
    rw [accounts.scanVisits]
    simp only [hv]
    cases accounts.readAccount E fs ks v.path <;> rfl
  · intro path content rest hread h
    rcases h with h | h
    · simp [accounts.readAccount, hread, h, hex.DecodeString, types.AddressBytesNumber]
    · have hx : hex.DecodeString (48 :: 120 :: rest) = .error (.invalidByte 120) := by
        rw [hex.DecodeString]
        have h1 : ¬ hex.reverseHexTable 48 > 0x0f := by decide
        have h2 : hex.reverseHexTable 120 > 0x0f := by decide
        rw [if_neg h1, if_pos h2]
      simp only [accounts.readAccount, hread, h, hx]
  · intro fs2 path content content2 h1 h2 h
    simp only [accounts.readAccount, h1, h2, h]

end Fusion
namespace Fusion

theorem keystore.NewKey_ok (E : Env) (fs : FileSys) (m : keystore.keyStore) (dir auth : GoString)
    (draw : keystore.Draw) (fs1 : FileSys) (r : keystore.NewKeyResult)
    (h : keystore.NewKey E fs m dir auth draw = some (fs1, .ok r)) :
    ∃ priv, draw.generated = .ok priv ∧
      crypto.PubkeyToAddress E (some priv.PublicKey) = .ok r.address := by
  unfold keystore.NewKey at h
  split at h
  · cases h
  · cases h
  · rename_i key hkey
    split at h
    · cases h
    · rename_i priv hpriv
      split at h
      · cases h
      · cases h
      · rename_i address haddr
        simp only at h
        split at h
        · cases h
        · cases h
        · cases h
          -- the private key of `key` is the generated one
          unfold keystore.newKey at hkey
          split at hkey
          · cases hkey
          · rename_i gen hgen
            unfold keystore.newKeyFromECDSA at hkey
            split at hkey
            · cases hkey
              simp only [Option.some.injEq] at hpriv
              subst hpriv
              exact ⟨gen, hgen, haddr⟩
            · cases hkey
            · cases hkey

theorem accounts.newAccount_ok (E : Env) (fs : FileSys) (dir : GoString)
    (ks : keystore.keyStore) (auth : GoString) (draw : keystore.Draw) (fs1 : FileSys)
    (a : accounts.account)
    (h : accounts.newAccount E fs dir ks auth draw = some (fs1, .ok a)) :
    a.key = none ∧ ∃ priv, draw.generated = .ok priv ∧
      crypto.PubkeyToAddress E (some priv.PublicKey) = .ok (accounts.Address a) := by
  unfold accounts.newAccount at h
  split at h
  · cases h
  · cases h
  · rename_i fs2 r hr
    cases h
    exact ⟨rfl, keystore.NewKey_ok E fs ks dir auth draw _ r hr⟩

/-- C18. `NewAccount` registration: when `NewAccount` succeeds, the account returned
is Locked, its address is `PubkeyToAddress` of the public key of the generated key,
the registry afterwards maps that address to the account returned, and the entry of
every other address is what it was; when `NewAccount` returns an error, the manager
(its registry included) is unchanged and no account is returned. -/
theorem NewAccount_registers (E : Env) (fs : FileSys) (m : accounts.manager)
    (passphrase : GoString) (draw : keystore.Draw) (m1 : accounts.manager)
    (res : Except Err accounts.account)
    (h : (accounts.NewAccount E fs m passphrase draw).map (fun x => x.2) = some (m1, res)) :
    (∀ a, res = .ok a →
      a.key = none ∧
      (∃ priv, draw.generated = .ok priv ∧
        crypto.PubkeyToAddress E (some priv.PublicKey) = .ok (accounts.Address a)) ∧
      m1.accounts.get (accounts.Address a) = some a ∧
      (∀ addr, addr ≠ accounts.Address a → m1.accounts.get addr = m.accounts.get addr) ∧
      m1.dir = m.dir ∧ m1.ks = m.ks) ∧
    (∀ e, res = .error e → m1 = m) := by
  unfold accounts.NewAccount at h
  split at h
  · cases h
  · simp only [Option.map_some', Option.some.injEq, Prod.mk.injEq] at h
    obtain ⟨rfl, rfl⟩ := h
    exact ⟨fun a ha => (by cases ha), fun e _ => rfl⟩
  · rename_i fs1 a hnew
    simp only [Option.map_some', Option.some.injEq, Prod.mk.injEq] at h
    obtain ⟨rfl, rfl⟩ := h
    refine ⟨?_, fun e he => (by cases he)⟩
    intro b hb
    cases hb
    obtain ⟨hk, hp⟩ := accounts.newAccount_ok E fs m.dir m.ks passphrase draw fs1 a hnew
    refine ⟨hk, hp, ?_, ?_, rfl, rfl⟩
    · simp [accounts.Registry.get_set]
    · intro addr hne
      simp [accounts.Registry.get_set, hne]

set_option maxRecDepth 1000000 in
theorem Sample.created_eq :
    Sample.created = some (Sample.createdManager, .ok Sample.createdAccount) := by
  decide

set_option maxRecDepth 1000000 in
/-- C18, at the sample instance: a new account in an empty directory. -/
theorem NewAccount_registers_witness :
    Sample.createdAccount.key = none ∧
    accounts.Address Sample.createdAccount = Sample.address ∧
    Sample.createdManager.accounts.get (accounts.Address Sample.createdAccount) =
      some Sample.createdAccount :=
  have h := (NewAccount_registers Sample.env Sample.emptyDir
    (accounts.NewManager Sample.env Sample.emptyDir Sample.dir) Sample.passphrase Sample.draw
    Sample.createdManager (.ok Sample.createdAccount) Sample.created_eq).1
    Sample.createdAccount rfl
  ⟨h.1, by decide, h.2.2.1⟩

theorem hex.encodeByte_lower_aux (v : Byte) :
    ((48 ≤ (hex.hextable.getD (v.val >>> 4) 0).val ∧ (hex.hextable.getD (v.val >>> 4) 0).val ≤ 57) ∨
      (97 ≤ (hex.hextable.getD (v.val >>> 4) 0).val ∧
        (hex.hextable.getD (v.val >>> 4) 0).val ≤ 102)) ∧
    ((48 ≤ (hex.hextable.getD (v.val &&& 0x0f) 0).val ∧
        (hex.hextable.getD (v.val &&& 0x0f) 0).val ≤ 57) ∨
      (97 ≤ (hex.hextable.getD (v.val &&& 0x0f) 0).val ∧
        (hex.hextable.getD (v.val &&& 0x0f) 0).val ≤ 102)) := by
  revert v
  set_option maxRecDepth 100000 in decide

theorem hex.encodeByte_lower (v : Byte) :
    ∀ c ∈ hex.encodeByte v, (48 ≤ c.val ∧ c.val ≤ 57) ∨ (97 ≤ c.val ∧ c.val ≤ 102) := by
  intro c hc
  simp only [hex.encodeByte, List.mem_cons, List.mem_singleton, List.not_mem_nil, or_false] at hc
  rcases hc with rfl | rfl
  · exact (hex.encodeByte_lower_aux v).1
  · exact (hex.encodeByte_lower_aux v).2

theorem hex.EncodeToString_length (b : List Byte) :
    (hex.EncodeToString b).length = 2 * b.length := by
  induction b with
  | nil => rfl
  | cons v rest ih =>
    simp only [hex.EncodeToString, hex.encodeByte, List.length_append, List.length_cons,
      List.length_nil, ih]
    omega

theorem hex.EncodeToString_lower (b : List Byte) :
    ∀ c ∈ hex.EncodeToString b, (48 ≤ c.val ∧ c.val ≤ 57) ∨ (97 ≤ c.val ∧ c.val ≤ 102) := by
  induction b with
  | nil => intro c hc; cases hc
  | cons v rest ih =>
    intro c hc
    simp only [hex.EncodeToString, List.mem_append] at hc
    rcases hc with hc | hc
    · exact hex.encodeByte_lower v c hc
    · exact ih c hc

theorem keystore.EncryptKey_envelope_address (E : Env) (m : keystore.passphraseKeyStore)
    (k : Key) (auth : GoString) (ent : Entropy) (j : EncryptedKeyJSON)
    (h : keystore.EncryptKey.envelope E m k auth ent = .ok j) :
    j.Address = hex.EncodeToString k.Address.val := by
  unfold keystore.EncryptKey.envelope at h
  simp only at h
  split at h
  · cases h
  · cases h
  · split at h
    · cases h
    · split at h
      · cases h
      · split at h
        · cases h
        · split at h
          · cases h
          · split at h
            · cases h
            · cases h
              rfl

/-- C19. Create-then-rescan round trip: the file `EncryptKey` writes for a key is
accepted by the scan and gives the Locked account of the address of that key; the
`Address` field written is the hex encoding of the 20 address bytes, which has 40
characters, all of them digits or lower-case letters `a` to `f` (so no `0x` in
front), and decodes to the same 20 bytes.  The fact used about `encoding/json`:
decoding the leading value of the text marshalled for the envelope gives its
`Address` string. -/
theorem created_file_is_scanned (E : Env) (m : keystore.passphraseKeyStore) (k : Key)
    (auth : GoString) (ent : Entropy) (data : List Byte) (fs : FileSys)
    (ks : keystore.keyStore) (path : GoString)
    (henc : keystore.EncryptKey E m k auth ent = .ok data)
    (hread : fs.read path = .ok data)
    (hdec : ∀ j, keystore.EncryptKey.envelope E m k auth ent = .ok j →
      E.jsonDecodeAddress (E.jsonMarshal j) = .ok j.Address) :
    accounts.readAccount E fs ks path =
      some { address := k.Address, key := none, filename := path, ks := ks } ∧
    (hex.EncodeToString k.Address.val).length = 40 ∧
    (∀ c ∈ hex.EncodeToString k.Address.val,
      (48 ≤ c.val ∧ c.val ≤ 57) ∨ (97 ≤ c.val ∧ c.val ≤ 102)) ∧
    hex.DecodeString (hex.EncodeToString k.Address.val) = .ok k.Address.val := by
  refine ⟨?_, ?_, hex.EncodeToString_lower _, hex.DecodeString_EncodeToString _⟩
  · unfold keystore.EncryptKey at henc
    split at henc
    · rename_i j hj
      cases henc
      have haddr := keystore.EncryptKey_envelope_address E m k auth ent j hj
      have hlen : ¬ k.Address.val.length ≠ types.AddressBytesNumber := by
        simp [k.Address.property]
      simp only [accounts.readAccount, hread, hdec j hj, haddr,
        hex.DecodeString_EncodeToString, if_neg hlen, types.BytesToAddress_val]
    · cases henc
    · cases henc
  · rw [hex.EncodeToString_length, k.Address.property]
    rfl

set_option maxRecDepth 1000000 in
theorem Sample.decode_of_envelope (j : EncryptedKeyJSON)
    (hj : keystore.EncryptKey.envelope Sample.env Sample.store Sample.key Sample.passphrase
      Sample.entropy = .ok j) :
    Sample.env.jsonDecodeAddress (Sample.env.jsonMarshal j) = .ok j.Address := by
  have h : Outcome.ok Sample.envelope = Outcome.ok j := Sample.envelope_eq.symm.trans hj
  have e : Sample.envelope = j := Outcome.ok.inj h
  rw [← e]
  decide

set_option maxRecDepth 1000000 in
/-- C19, at the sample instance. -/
theorem created_file_is_scanned_witness :
    accounts.readAccount Sample.env (Sample.fileSys Sample.file)
      (keystore.NewPassphraseKeyStore keystore.StandardScryptN keystore.StandardScryptP)
      Sample.path = some (Sample.account Sample.address) ∧
    (hex.EncodeToString Sample.key.Address.val).length = 40 :=
  have h := created_file_is_scanned Sample.env Sample.store Sample.key Sample.passphrase
    Sample.entropy Sample.file (Sample.fileSys Sample.file)
    (keystore.NewPassphraseKeyStore keystore.StandardScryptN keystore.StandardScryptP)
    Sample.path (by decide) (by decide) Sample.decode_of_envelope
  ⟨h.1, h.2.1⟩

/-! ## Hashing: C20 -/

theorem crypto.foldl_append_eq (acc : List Byte) (data : List (List Byte)) :
    data.foldl (fun d b => d ++ b) acc = acc ++ data.flatten := by
  induction data generalizing acc with
  | nil => simp
  | cons b rest ih => simp [List.foldl_cons, ih, List.append_assoc]

/-- C20. `Hash256` hashes the concatenation: `Hash256(p1, ..., pn)` is
`BytesToHash` of the BLAKE2b-256 digest of the bytes `p1 ++ ... ++ pn`, and is that
digest itself when the digest has its 32 bytes; hence it is `Hash256` of the single
slice `p1 ++ ... ++ pn`; two argument lists with the same concatenation have the
same digest; and the value returned has 32 bytes. -/
theorem Hash256_concatenation (E : Env) (data : List (List Byte)) :
    crypto.Hash256 E data = types.BytesToHash (E.blake2b256 data.flatten) ∧
    ((E.blake2b256 data.flatten).length = 32 →
      (crypto.Hash256 E data).val = E.blake2b256 data.flatten) ∧
    crypto.Hash256 E data = crypto.Hash256 E [data.flatten] ∧
    (∀ data2 : List (List Byte), data.flatten = data2.flatten →
      crypto.Hash256 E data = crypto.Hash256 E data2) ∧
    (crypto.Hash256 E data).val.length = 32 := by
  have h : ∀ d : List (List Byte),
      crypto.Hash256 E d = types.BytesToHash (E.blake2b256 d.flatten) := by
    intro d
    simp only [crypto.Hash256, crypto.foldl_append_eq, List.nil_append]
  refine ⟨h data, ?_, ?_, ?_, (crypto.Hash256 E data).property⟩
  · intro hlen
    rw [h]
    exact types.setBytes_of_length _ _ hlen
  · rw [h, h]
    simp
  · intro data2 heq
    rw [h, h, heq]

set_option maxRecDepth 1000000 in
/-- C20, at the sample instance: `Hash256` of the two slices `1, 2` and `3` is the
digest of the bytes `1, 2, 3`, and is not the digest of the bytes `3, 1, 2`. -/
theorem Hash256_concatenation_witness :
    (crypto.Hash256 Sample.env [[1, 2], [3]]).val = Sample.env.blake2b256 [1, 2, 3] ∧
    (crypto.Hash256 Sample.env [[1, 2], [3]]).val ≠ Sample.env.blake2b256 [3, 1, 2] :=
  ⟨(Hash256_concatenation Sample.env [[1, 2], [3]]).2.1 (by decide), by decide⟩

end Fusion
namespace Fusion

/-! ## Addresses and hashes: C21, C25, C26 -/

theorem types.setBytes_of_gt (n : Nat) (b : List Byte) (h : b.length > n) :
    types.setBytes n b = b.drop (b.length - n) := by
  have hl : (b.drop (b.length - n)).length = n := by
    rw [List.length_drop]; omega
  simp only [types.setBytes, if_pos h, hl, Nat.sub_self, List.replicate_zero, List.nil_append]

theorem types.setBytes_of_le (n : Nat) (b : List Byte) (h : ¬ b.length > n) :
    types.setBytes n b = List.replicate (n - b.length) 0 ++ b := by
  simp only [types.setBytes, if_neg h]

/-- The serialization `FromECDSAPub` returns for non-nil coordinates. -/
theorem crypto.FromECDSAPub_some (E : Env) (x y : Int) (ser : List Byte)
    (h : E.ellipticMarshal x y = some ser) :
    crypto.FromECDSAPub E (some { X := some x, Y := some y }) = .ok ser := by
  simp only [crypto.FromECDSAPub, h]

/-- C21. Address derivation: for a public key with non-nil coordinates `x`, `y`
whose uncompressed serialization `elliptic.Marshal` returns has 65 bytes,
`FromECDSAPub` returns that serialization and `PubkeyToAddress` returns, without
panic, the address made of the bytes 12..31 (the last 20 bytes) of `Hash256` of the
serialization without its first byte; the address has 20 bytes, and two calls on the
same key give the same address. -/
theorem PubkeyToAddress_eq (E : Env) (x y : Int) (ser : List Byte)
    (hser : E.ellipticMarshal x y = some ser) (hlen : ser.length = 65) :
    crypto.FromECDSAPub E (some { X := some x, Y := some y }) = .ok ser ∧
    (∃ a : types.Address,
      crypto.PubkeyToAddress E (some { X := some x, Y := some y }) = .ok a ∧
      a.val = (crypto.Hash256 E [ser.drop 1]).val.drop 12 ∧
      a.val = ((crypto.Hash256 E [ser.drop 1]).val.take 32).drop 12 ∧
      a.val.length = 20) ∧
    (∀ p q : PublicKey, p = q →
      crypto.PubkeyToAddress E (some p) = crypto.PubkeyToAddress E (some q)) := by
  refine ⟨crypto.FromECDSAPub_some E x y ser hser, ?_, fun p q h => by rw [h]⟩
  have hH : (crypto.Hash256 E [ser.drop 1]).val.length = 32 :=
    (crypto.Hash256 E [ser.drop 1]).property
  have h20 : ((crypto.Hash256 E [ser.drop 1]).val.drop 12).length = 20 := by
    rw [List.length_drop, hH]
  cases ser with
  | nil => simp at hlen
  | cons tag rest =>
    refine ⟨types.BytesToAddress ((crypto.Hash256 E [rest]).val.drop 12), ?_, ?_, ?_, ?_⟩
    · simp only [crypto.PubkeyToAddress, crypto.FromECDSAPub_some E x y _ hser]
    · exact types.setBytes_of_length _ _ h20
    · have ht : (crypto.Hash256 E [rest]).val.take 32 = (crypto.Hash256 E [rest]).val :=
        List.take_of_length_le (by rw [(crypto.Hash256 E [rest]).property]; exact Nat.le_refl _)
      show types.setBytes _ _ = _
      simp only [List.drop_succ_cons, List.drop_zero, ht]
      exact types.setBytes_of_length _ _ h20
    · exact (types.BytesToAddress _).property

set_option maxRecDepth 1000000 in
/-- C21, at the sample instance, for the point with coordinates 12345 and 24690:
the serialization has 65 bytes and the address is cut out of the digest of its last
64 bytes. -/
theorem PubkeyToAddress_eq_witness :
    Sample.env.ellipticMarshal 12345 24690
      = some (4 :: (toBigEndian 32 12345 ++ toBigEndian 32 24690)) ∧
    (4 :: (toBigEndian 32 12345 ++ toBigEndian 32 24690) : List Byte).length = 65 ∧
    ∃ a : types.Address,
      crypto.PubkeyToAddress Sample.env (some { X := some 12345, Y := some 24690 }) = .ok a ∧
      a.val = (crypto.Hash256 Sample.env
        [toBigEndian 32 12345 ++ toBigEndian 32 24690]).val.drop 12 :=
  ⟨by decide, by decide,
   let ⟨a, h1, h2, _, _⟩ := (PubkeyToAddress_eq Sample.env 12345 24690
      (4 :: (toBigEndian 32 12345 ++ toBigEndian 32 24690)) (by decide) (by decide)).2.1
   ⟨a, h1, h2⟩⟩

/-- C25. The code of `Address.SetBytes` departs from its doc comment, which says
that a slice longer than the address makes it panic: the function has the guard of
`Hash.SetBytes`, so for every slice `b` longer than 20 bytes `BytesToAddress(b)`
returns, without panic, the address made of the last 20 bytes of `b`. -/
theorem BytesToAddress_oversized (b : List Byte) (h : b.length > 20) :
    (types.BytesToAddress b).val = b.drop (b.length - 20) ∧
    (types.BytesToAddress b).val.length = 20 :=
  ⟨types.setBytes_of_gt _ b h, (types.BytesToAddress b).property⟩

/-- C25, on 21 bytes of value 7: the call returns the address of 20 bytes of
value 7. -/
theorem BytesToAddress_oversized_witness :
    (List.replicate 21 (7 : Byte)).length > 20 ∧
    (types.BytesToAddress (List.replicate 21 7)).val = List.replicate 20 7 :=
  ⟨by decide, (BytesToAddress_oversized (List.replicate 21 7) (by decide)).1⟩

/-- C26. `Hash.SetBytes` crops from the left and right-aligns: `BytesToHash(b)` is
the last 32 bytes of `b` when `b` has more than 32 bytes and otherwise `b` preceded
by `32 - len(b)` zero bytes; `BytesToHash(h[:]) = h` for every `Hash`; and the same
holds of `BytesToAddress` with 20 in place of 32. -/
theorem SetBytes_crops_and_right_aligns :
    (∀ b : List Byte, (types.BytesToHash b).val =
      if b.length > 32 then b.drop (b.length - 32)
      else List.replicate (32 - b.length) 0 ++ b) ∧
    (∀ h : types.Hash, types.BytesToHash h.val = h) ∧
    (∀ b : List Byte, (types.BytesToAddress b).val =
      if b.length > 20 then b.drop (b.length - 20)
      else List.replicate (20 - b.length) 0 ++ b) ∧
    (∀ a : types.Address, types.BytesToAddress a.val = a) := by
  refine ⟨fun b => ?_, types.BytesToHash_val, fun b => ?_, types.BytesToAddress_val⟩
  · by_cases h : b.length > 32
    · rw [if_pos h]; exact types.setBytes_of_gt _ b h
    · rw [if_neg h]; exact types.setBytes_of_le _ b h
  · by_cases h : b.length > 20
    · rw [if_pos h]; exact types.setBytes_of_gt _ b h
    · rw [if_neg h]; exact types.setBytes_of_le _ b h

end Fusion
namespace Fusion

/-! ## The packing of a version: C22 -/

theorem version.digitChar_byte (k : Nat) (hk : k < 10) :
    ((Fin.ofNat (Nat.digitChar k).toNat : Byte)).val = 48 + k := by
  interval_cases k <;> rfl

/-- Reading the digits `Nat.toDigits` writes in front of `ds`, from the value 0,
leaves the number written. -/
theorem version.foldl_toDigitsCore (f : Option Nat → Byte → Option Nat)
    (hf : ∀ n ch, f (some n) ch =
      if 48 ≤ ch.val ∧ ch.val ≤ 57 then some (n * 10 + (ch.val - 48)) else none)
    (fuel : Nat) : ∀ (n : Nat) (ds : List Char), n < fuel →
      ((Nat.toDigitsCore 10 fuel n ds).map (fun c => (Fin.ofNat c.toNat : Byte))).foldl f (some 0)
        = (ds.map (fun c => (Fin.ofNat c.toNat : Byte))).foldl f (some n) := by
  induction fuel with
  | zero => intro n ds h; omega
  | succ fuel ih =>
    intro n ds h
    have hd := version.digitChar_byte (n % 10) (Nat.mod_lt _ (by omega))
    have hstep : ∀ m, f (some m) (Fin.ofNat (Nat.digitChar (n % 10)).toNat)
        = some (m * 10 + n % 10) := by
      intro m
      rw [hf, hd, if_pos (by omega)]
      congr 2
      omega
    unfold Nat.toDigitsCore
    simp only
    split
    · rename_i h0
      simp only [List.map_cons, List.foldl_cons, hstep]
      congr 2
      omega
    · rename_i h0
      rw [ih (n / 10) _ (by omega)]
      simp only [List.map_cons, List.foldl_cons, hstep]
      congr 2
      omega

theorem version.toDigitsCore_digits (fuel : Nat) : ∀ (n : Nat) (ds : List Char),
    (∀ c ∈ ds.map (fun c => (Fin.ofNat c.toNat : Byte)), 48 ≤ c.val ∧ c.val ≤ 57) →
    ∀ c ∈ (Nat.toDigitsCore 10 fuel n ds).map (fun c => (Fin.ofNat c.toNat : Byte)),
      48 ≤ c.val ∧ c.val ≤ 57 := by
  induction fuel with
  | zero => intro n ds h; exact h
  | succ fuel ih =>
    intro n ds h
    have hd := version.digitChar_byte (n % 10) (Nat.mod_lt _ (by omega))
    have hcons : ∀ c ∈ (Nat.digitChar (n % 10) :: ds).map (fun c => (Fin.ofNat c.toNat : Byte)),
        48 ≤ c.val ∧ c.val ≤ 57 := by
      intro c hc
      simp only [List.map_cons, List.mem_cons] at hc
      rcases hc with rfl | hc
      · rw [hd]; omega
      · exact h c hc
    unfold Nat.toDigitsCore
    simp only
    split
    · exact hcons
    · exact ih _ _ hcons

/-- The rendering of a number has decimal digits only. -/
theorem version.decString_digits (n : Nat) :
    ∀ c ∈ version.decString n, 48 ≤ c.val ∧ c.val ≤ 57 :=
  version.toDigitsCore_digits (n + 1) n [] (fun c hc => by cases hc)

theorem version.decString_no_dot (n : Nat) : (46 : Byte) ∉ version.decString n := by
  intro h
  have := version.decString_digits n 46 h
  revert this
  decide

/-- `parseDigits` reads back the rendering of a number. -/
theorem version.parseDigits_decString (n : Nat) :
    version.parseDigits (version.decString n) = some n ∨
    (version.decString n = [] ∧ n = 0) := by
  have h := version.foldl_toDigitsCore
    (fun acc ch =>
      match acc with
      | none => none
      | some n => if 48 ≤ ch.val ∧ ch.val ≤ 57 then some (n * 10 + (ch.val - 48)) else none)
    (fun _ _ => rfl) (n + 1) n [] (by omega)
  simp only [List.map_nil, List.foldl_nil] at h
  cases hs : version.decString n with
  | nil =>
    right
    refine ⟨rfl, ?_⟩
    have h2 : version.decString n = (Nat.toDigitsCore 10 (n + 1) n []).map
      (fun c => (Fin.ofNat c.toNat : Byte)) := rfl
    rw [← h2, hs] at h
    simp only [List.foldl_nil, Option.some.injEq] at h
    exact h.symm
  | cons c rest =>
    left
    have h2 : version.decString n = (Nat.toDigitsCore 10 (n + 1) n []).map
      (fun c => (Fin.ofNat c.toNat : Byte)) := rfl
    rw [← h2, hs] at h
    rw [← h]
    rfl

/-- `Atoi` reads back the rendering of a number that fits an `int64`. -/
theorem version.Atoi_decString (n : Nat) (hn : n < 2 ^ 63) :
    version.Atoi (version.decString n) = (n : Int) := by
  rcases version.parseDigits_decString n with h | ⟨h, h0⟩
  · cases hs : version.decString n with
    | nil => rw [hs] at h; cases h
    | cons c rest =>
      have hc := version.decString_digits n c (by rw [hs]; exact List.mem_cons_self _ _)
      have h45 : c ≠ 45 := by
        intro e; rw [e] at hc; revert hc; decide
      have h43 : c ≠ 43 := by
        intro e; rw [e] at hc; revert hc; decide
      rw [hs] at h
      have hn2 : ¬ n ≥ 2 ^ 63 := by omega
      simp only [version.Atoi, h45, h43, or_self, if_false, h, decide_False,
        Bool.false_eq_true, hn2]
  · rw [h, h0]; rfl

theorem version.toUint64_natCast (n : Nat) (hn : n < 2 ^ 64) :
    version.toUint64 (n : Int) = n := by
  unfold version.toUint64
  omega

theorem version.split_of_not_mem (sep : Byte) (l : GoString) (h : sep ∉ l) :
    version.split sep l = [l] := by
  induction l with
  | nil => rfl
  | cons c rest ih =>
    have hc : c ≠ sep := fun e => h (by rw [e]; exact List.mem_cons_self _ _)
    have hr : sep ∉ rest := fun e => h (List.mem_cons_of_mem _ e)
    simp only [version.split, if_neg hc, ih hr]

theorem version.split_append (sep : Byte) (l r : GoString) (h : sep ∉ l) :
    version.split sep (l ++ sep :: r) = l :: version.split sep r := by
  induction l with
  | nil => simp only [List.nil_append, version.split, if_true]
  | cons c rest ih =>
    have hc : c ≠ sep := fun e => h (by rw [e]; exact List.mem_cons_self _ _)
    have hr : sep ∉ rest := fun e => h (List.mem_cons_of_mem _ e)
    simp only [List.cons_append, version.split, if_neg hc, List.append_eq, ih hr]

/-- The OR of four 16-bit fields shifted to the offsets 48, 32, 16 and 0 is their
weighted sum. -/
theorem version.pack_eq (a b c d : Nat) (ha : a < 2 ^ 16) (hb : b < 2 ^ 16) (hc : c < 2 ^ 16)
    (hd : d < 2 ^ 16) :
    (((0 ||| ((a <<< 48) % 2 ^ 64)) ||| ((b <<< 32) % 2 ^ 64)) ||| ((c <<< 16) % 2 ^ 64)) ||| d
      = a * 2 ^ 48 + b * 2 ^ 32 + c * 2 ^ 16 + d := by
  have e1 : (a <<< 48) % 2 ^ 64 = 2 ^ 48 * a := by
    rw [Nat.shiftLeft_eq, Nat.mod_eq_of_lt (by omega), Nat.mul_comm]
  have e2 : (b <<< 32) % 2 ^ 64 = b * 2 ^ 32 := by
    rw [Nat.shiftLeft_eq, Nat.mod_eq_of_lt (by omega)]
  have e3 : (c <<< 16) % 2 ^ 64 = c * 2 ^ 16 := by
    rw [Nat.shiftLeft_eq, Nat.mod_eq_of_lt (by omega)]
  have s1 : 2 ^ 48 * a ||| b * 2 ^ 32 = 2 ^ 32 * (a * 2 ^ 16 + b) := by
    rw [← Nat.mul_add_lt_is_or (by omega : b * 2 ^ 32 < 2 ^ 48) a]
    omega
  have s2 : 2 ^ 32 * (a * 2 ^ 16 + b) ||| c * 2 ^ 16 = 2 ^ 16 * (a * 2 ^ 32 + b * 2 ^ 16 + c) := by
    rw [← Nat.mul_add_lt_is_or (by omega : c * 2 ^ 16 < 2 ^ 32) (a * 2 ^ 16 + b)]
    omega
  rw [Nat.zero_or, e1, e2, e3, s1, s2, ← Nat.mul_add_lt_is_or hd]
  omega

/-- `FromString` on the four renderings joined by dots. -/
theorem version.FromString_dotted (a b c d : Nat) (ha : a < 2 ^ 16) (hb : b < 2 ^ 16)
    (hc : c < 2 ^ 16) (hd : d < 2 ^ 16) :
    version.FromString (version.decString a ++ [46] ++ version.decString b ++ [46] ++
        version.decString c ++ [46] ++ version.decString d) =
      .ok { Value := a * 2 ^ 48 + b * 2 ^ 32 + c * 2 ^ 16 + d
            Spec := a, Major := b, Minor := c, Revision := d
            StringValue := version.decString a ++ [46] ++ version.decString b ++ [46] ++
              version.decString c ++ [46] ++ version.decString d } := by
  have hs : version.split 46 (version.decString a ++ [46] ++ version.decString b ++ [46] ++
        version.decString c ++ [46] ++ version.decString d) =
      [version.decString a, version.decString b, version.decString c, version.decString d] := by
    have e : version.decString a ++ [46] ++ version.decString b ++ [46] ++
        version.decString c ++ [46] ++ version.decString d =
        version.decString a ++ 46 :: (version.decString b ++ 46 ::
          (version.decString c ++ 46 :: version.decString d)) := by
      simp only [List.append_assoc, List.singleton_append, List.cons_append, List.nil_append]
    rw [e, version.split_append _ _ _ (version.decString_no_dot a),
      version.split_append _ _ _ (version.decString_no_dot b),
      version.split_append _ _ _ (version.decString_no_dot c),
      version.split_of_not_mem _ _ (version.decString_no_dot d)]
  have va : version.toUint64 (version.Atoi (version.decString a)) = a := by
    rw [version.Atoi_decString a (by omega), version.toUint64_natCast a (by omega)]
  have vb : version.toUint64 (version.Atoi (version.decString b)) = b := by
    rw [version.Atoi_decString b (by omega), version.toUint64_natCast b (by omega)]
  have vc : version.toUint64 (version.Atoi (version.decString c)) = c := by
    rw [version.Atoi_decString c (by omega), version.toUint64_natCast c (by omega)]
  have vd : version.toUint64 (version.Atoi (version.decString d)) = d := by
    rw [version.Atoi_decString d (by omega), version.toUint64_natCast d (by omega)]
  unfold version.FromString
  simp only [hs, List.length_cons, List.length_nil, ne_eq, not_true_eq_false, if_false,
    List.getD_cons_zero, List.getD_cons_succ, va, vb, vc, vd, Nat.reduceAdd,
    version.pack_eq a b c d ha hb hc hd]

/-- C22. Version packing round trip.  For four components below `2^16`,
`FromString` on their decimal renderings joined by dots succeeds with `Value`
equal to `spec*2^48 + major*2^32 + minor*2^16 + revision` (and the four components
as fields), and `FromUint64` of that value has exactly those four components and
renders the same string.  Conversely, for every 64-bit `v`, the four fields of
`FromUint64(v)` are below `2^16`, packing them at the bit offsets 48, 32, 16 and 0
gives `v`, both as a sum and with the shifts and ORs of `FromString`, and
`FromString` on the string of `FromUint64(v)` has the value `v`. -/
theorem version_packing_roundtrip (spec major minor revision : Nat)
    (hs : spec < 2 ^ 16) (hM : major < 2 ^ 16) (hm : minor < 2 ^ 16) (hr : revision < 2 ^ 16) :
    (∃ info, version.FromString (version.decString spec ++ [46] ++ version.decString major ++
        [46] ++ version.decString minor ++ [46] ++ version.decString revision) = .ok info ∧
      info.Value = spec * 2 ^ 48 + major * 2 ^ 32 + minor * 2 ^ 16 + revision ∧
      info.Spec = spec ∧ info.Major = major ∧ info.Minor = minor ∧
      info.Revision = revision ∧
      (version.FromUint64 info.Value).Spec = spec ∧
      (version.FromUint64 info.Value).Major = major ∧
      (version.FromUint64 info.Value).Minor = minor ∧
      (version.FromUint64 info.Value).Revision = revision ∧
      version.FromUint64 info.Value = info) ∧
    (∀ v, v < 2 ^ 64 →
      (version.FromUint64 v).Spec < 2 ^ 16 ∧ (version.FromUint64 v).Major < 2 ^ 16 ∧
      (version.FromUint64 v).Minor < 2 ^ 16 ∧ (version.FromUint64 v).Revision < 2 ^ 16 ∧
      (version.FromUint64 v).Spec * 2 ^ 48 + (version.FromUint64 v).Major * 2 ^ 32 +
        (version.FromUint64 v).Minor * 2 ^ 16 + (version.FromUint64 v).Revision = v ∧
      ((((version.FromUint64 v).Spec <<< 48) % 2 ^ 64) |||
        (((version.FromUint64 v).Major <<< 32) % 2 ^ 64) |||
        (((version.FromUint64 v).Minor <<< 16) % 2 ^ 64) |||
        (version.FromUint64 v).Revision) = v ∧
      version.FromString (version.FromUint64 v).StringValue = .ok (version.FromUint64 v)) := by
  have hfields : ∀ v, v < 2 ^ 64 →
      (version.FromUint64 v).Spec < 2 ^ 16 ∧ (version.FromUint64 v).Major < 2 ^ 16 ∧
      (version.FromUint64 v).Minor < 2 ^ 16 ∧ (version.FromUint64 v).Revision < 2 ^ 16 ∧
      (version.FromUint64 v).Spec * 2 ^ 48 + (version.FromUint64 v).Major * 2 ^ 32 +
        (version.FromUint64 v).Minor * 2 ^ 16 + (version.FromUint64 v).Revision = v := by
    intro v hv
    obtain ⟨h1, h2, h3, h4⟩ := version.FromUint64_fields v
    rw [h1, h2, h3, h4]
    omega
  have hFU : ∀ a b c d, a < 2 ^ 16 → b < 2 ^ 16 → c < 2 ^ 16 → d < 2 ^ 16 →
      version.FromUint64 (a * 2 ^ 48 + b * 2 ^ 32 + c * 2 ^ 16 + d) =
        { Value := a * 2 ^ 48 + b * 2 ^ 32 + c * 2 ^ 16 + d
          Spec := a, Major := b, Minor := c, Revision := d
          StringValue := version.decString a ++ [46] ++ version.decString b ++ [46] ++
            version.decString c ++ [46] ++ version.decString d } := by
    intro a b c d ha hb hc hd
    obtain ⟨h1, h2, h3, h4⟩ :=
      version.FromUint64_fields (a * 2 ^ 48 + b * 2 ^ 32 + c * 2 ^ 16 + d)
    have e1 : (version.FromUint64 (a * 2 ^ 48 + b * 2 ^ 32 + c * 2 ^ 16 + d)).Spec = a := by
      rw [h1]; omega
    have e2 : (version.FromUint64 (a * 2 ^ 48 + b * 2 ^ 32 + c * 2 ^ 16 + d)).Major = b := by
      rw [h2]; omega
    have e3 : (version.FromUint64 (a * 2 ^ 48 + b * 2 ^ 32 + c * 2 ^ 16 + d)).Minor = c := by
      rw [h3]; omega
    have e4 : (version.FromUint64 (a * 2 ^ 48 + b * 2 ^ 32 + c * 2 ^ 16 + d)).Revision = d := by
      rw [h4]; omega
    have e5 : version.FromUint64 (a * 2 ^ 48 + b * 2 ^ 32 + c * 2 ^ 16 + d) =
        { Value := a * 2 ^ 48 + b * 2 ^ 32 + c * 2 ^ 16 + d
          Spec := (version.FromUint64 (a * 2 ^ 48 + b * 2 ^ 32 + c * 2 ^ 16 + d)).Spec
          Major := (version.FromUint64 (a * 2 ^ 48 + b * 2 ^ 32 + c * 2 ^ 16 + d)).Major
          Minor := (version.FromUint64 (a * 2 ^ 48 + b * 2 ^ 32 + c * 2 ^ 16 + d)).Minor
          Revision := (version.FromUint64 (a * 2 ^ 48 + b * 2 ^ 32 + c * 2 ^ 16 + d)).Revision
          StringValue :=
            version.decString (version.FromUint64 (a * 2 ^ 48 + b * 2 ^ 32 + c * 2 ^ 16 + d)).Spec
            ++ [46] ++
            version.decString (version.FromUint64 (a * 2 ^ 48 + b * 2 ^ 32 + c * 2 ^ 16 + d)).Major
            ++ [46] ++
            version.decString (version.FromUint64 (a * 2 ^ 48 + b * 2 ^ 32 + c * 2 ^ 16 + d)).Minor
            ++ [46] ++
            version.decString
              (version.FromUint64 (a * 2 ^ 48 + b * 2 ^ 32 + c * 2 ^ 16 + d)).Revision } := rfl
    rw [e5, e1, e2, e3, e4]
  refine ⟨⟨_, version.FromString_dotted spec major minor revision hs hM hm hr, rfl, rfl, rfl,
    rfl, rfl, ?_, ?_, ?_, ?_, ?_⟩, ?_⟩
  · simp only [hFU spec major minor revision hs hM hm hr]
  · simp only [hFU spec major minor revision hs hM hm hr]
  · simp only [hFU spec major minor revision hs hM hm hr]
  · simp only [hFU spec major minor revision hs hM hm hr]
  · exact hFU spec major minor revision hs hM hm hr
  · intro v hv
    obtain ⟨b1, b2, b3, b4, hsum⟩ := hfields v hv
    refine ⟨b1, b2, b3, b4, hsum, ?_, ?_⟩
    · have hp := version.pack_eq _ _ _ _ b1 b2 b3 b4
      rw [Nat.zero_or] at hp
      rw [hp, hsum]
    · have hF := version.FromString_dotted _ _ _ _ b1 b2 b3 b4
      have hS : (version.FromUint64 v).StringValue =
          version.decString (version.FromUint64 v).Spec ++ [46] ++
          version.decString (version.FromUint64 v).Major ++ [46] ++
          version.decString (version.FromUint64 v).Minor ++ [46] ++
          version.decString (version.FromUint64 v).Revision := rfl
      rw [hS, hF, hsum]
      rfl

/-- C22, on the version `1.2.3.4`, whose string is `"1.2.3.4"` and whose value is
`0x0001000200030004`. -/
theorem version_packing_roundtrip_witness :
    version.decString 1 ++ [46] ++ version.decString 2 ++ [46] ++ version.decString 3 ++ [46] ++
      version.decString 4 = [49, 46, 50, 46, 51, 46, 52] ∧
    ∃ info, version.FromString (version.decString 1 ++ [46] ++ version.decString 2 ++
        [46] ++ version.decString 3 ++ [46] ++ version.decString 4) = .ok info ∧
      info.Value = 0x0001000200030004 ∧
      (version.FromUint64 info.Value).Spec = 1 ∧
      (version.FromUint64 info.Value).Major = 2 ∧
      (version.FromUint64 info.Value).Minor = 3 ∧
      (version.FromUint64 info.Value).Revision = 4 :=
  ⟨by decide,
   let ⟨info, h1, h2, _, _, _, _, h7, h8, h9, h10, _⟩ :=
     (version_packing_roundtrip 1 2 3 4 (by decide) (by decide) (by decide) (by decide)).1
   ⟨info, h1, h2, h7, h8, h9, h10⟩⟩

end Fusion
namespace Fusion

/-! ## The envelope and the keystore front end: C23, C27, C28 -/

/-- An envelope returned by `EncryptKey` was built from a derived key of capacity
at least 32 that came without error, and from a non-nil private key. -/
theorem keystore.EncryptKey_envelope_ok (E : Env) (m : keystore.passphraseKeyStore) (k : Key)
    (auth : GoString) (ent : Entropy) (j : EncryptedKeyJSON)
    (h : keystore.EncryptKey.envelope E m k auth ent = .ok j) :
    ∃ dk priv,
      E.scryptKey auth ent.salt m.scryptN keystore.scryptR m.scryptP keystore.scryptDKLen
        = .ret dk none ∧
      32 ≤ dk.store.length ∧ k.PrivateKey = some priv := by
  unfold keystore.EncryptKey.envelope at h
  simp only at h
  split at h
  · cases h
  · cases h
  · rename_i dk hkdf
    split at h
    · cases h
    · split at h
      · cases h
      · rename_i priv hk
        split at h
        · cases h
        · split at h
          · cases h
          · split at h
            · cases h
            · rename_i mk hmk
              refine ⟨dk, priv, hkdf, ?_, hk⟩
              by_contra hc
              rw [Slice.reslice_none dk 16 32 (by omega)] at hmk
              cases hmk

/-- The bytes `EncryptKey` returns are `json.Marshal` of the envelope. -/
theorem keystore.EncryptKey_ok (E : Env) (m : keystore.passphraseKeyStore) (k : Key)
    (auth : GoString) (ent : Entropy) (data : List Byte)
    (h : keystore.EncryptKey E m k auth ent = .ok data) :
    ∃ j, keystore.EncryptKey.envelope E m k auth ent = .ok j ∧ data = E.jsonMarshal j := by
  unfold keystore.EncryptKey at h
  split at h
  · rename_i j hj
    cases h
    exact ⟨j, hj, rfl⟩
  · cases h
  · cases h

/-- C23. Envelope construction: when `EncryptKey` returns bytes, they are
`json.Marshal` of an envelope built as follows.  `scrypt.Key(auth, salt, scryptN, 8,
scryptP, 32)` returned a derived key `dk` of at least 32 bytes without error;
`CipherText` is the hex encoding of the counter-mode encryption (the XOR with the
key stream of `dk[:16]` and the IV) of `PaddedBigBytes(D, 32)`, which has as many
bytes as that encoding; `Mac` is the hex encoding of `Hash256(dk[16:32], cipherText)`;
`N`, `R`, `P`, `DKlen`, `Salt`, `IV` record `scryptN`, 8, `scryptP`, 32, the salt and
the IV of that derivation; `Version` is `KeyStoreVersion.Value`, which is 1; and when
the scalar is below `2^256` the encoding encrypted is exactly 32 bytes, the
big-endian form of the scalar padded with zero bytes. -/
theorem envelope_construction (E : Env) (m : keystore.passphraseKeyStore) (k : Key)
    (auth : GoString) (ent : Entropy) (data : List Byte)
    (h : keystore.EncryptKey E m k auth ent = .ok data) :
    ∃ j dk priv cipherText,
      data = E.jsonMarshal j ∧
      E.scryptKey auth ent.salt m.scryptN 8 m.scryptP 32 = .ret dk none ∧
      32 ≤ dk.store.length ∧
      k.PrivateKey = some priv ∧
      cipherText = keystore.xorKeyStream (E.ctrKeyStream (dk.store.take 16) ent.iv) 0
        (PaddedBigBytes priv.D 32) ∧
      cipherText.length = (PaddedBigBytes priv.D 32).length ∧
      j.CipherText = hex.EncodeToString cipherText ∧
      j.Mac = hex.EncodeToString
        (crypto.Hash256 E [(dk.store.take 32).drop 16, cipherText]).val ∧
      j.N = m.scryptN ∧ j.R = 8 ∧ j.P = m.scryptP ∧ j.DKlen = 32 ∧
      j.Salt = hex.EncodeToString ent.salt ∧ j.IV = hex.EncodeToString ent.iv ∧
      ent.salt.length = 32 ∧ ent.iv.length = 16 ∧
      j.Address = hex.EncodeToString k.Address.val ∧
      j.Version = version.KeyStoreVersion.Value ∧ j.Version = 1 ∧
      (priv.D.natAbs < 2 ^ 256 →
        PaddedBigBytes priv.D 32 = toBigEndian 32 priv.D.natAbs ∧
        (PaddedBigBytes priv.D 32).length = 32 ∧
        bytesToNat (PaddedBigBytes priv.D 32) = priv.D.natAbs) := by
  obtain ⟨j, hj, hdata⟩ := keystore.EncryptKey_ok E m k auth ent data h
  obtain ⟨dk, priv, hkdf, hcap, hk⟩ := keystore.EncryptKey_envelope_ok E m k auth ent j hj
  have henv := keystore.EncryptKey_envelope_eq E m k priv auth ent dk hk hkdf hcap
  have e := Outcome.ok.inj (hj.symm.trans henv)
  refine ⟨j, dk, priv, _, hdata, hkdf, hcap, hk, rfl, keystore.xorKeyStream_length _ _ _,
    ?_, ?_, ?_, ?_, ?_, ?_, ?_, ?_, ent.salt_len, ent.iv_len, ?_, ?_, ?_, ?_⟩
  · rw [e]; rfl
  · rw [e]; rfl
  · rw [e]
  · rw [e]; rfl
  · rw [e]
  · rw [e]; rfl
  · rw [e]
  · rw [e]
  · rw [e]
  · rw [e]
  · rw [e, version.KeyStoreVersion_eq]
  · intro hD
    have hD2 : priv.D.natAbs < 256 ^ 32 := by
      have : (256 : Nat) ^ 32 = 2 ^ 256 := by norm_num
      omega
    rw [PaddedBigBytes_of_lt _ _ hD2]
    exact ⟨rfl, toBigEndian_length _ _, by
      rw [bytesToNat_toBigEndian, Nat.mod_eq_of_lt hD2]⟩

set_option maxRecDepth 1000000 in
/-- C23, at the sample instance: the envelope of the sample key, whose scalar 12345
is encrypted as 32 bytes. -/
theorem envelope_construction_witness :
    keystore.EncryptKey Sample.env Sample.store Sample.key Sample.passphrase Sample.entropy
      = .ok Sample.file ∧
    ∃ j dk priv cipherText,
      Sample.file = Sample.env.jsonMarshal j ∧
      Sample.env.scryptKey Sample.passphrase Sample.entropy.salt Sample.store.scryptN 8
        Sample.store.scryptP 32 = .ret dk none ∧
      Sample.key.PrivateKey = some priv ∧
      cipherText = keystore.xorKeyStream
        (Sample.env.ctrKeyStream (dk.store.take 16) Sample.entropy.iv) 0
        (PaddedBigBytes priv.D 32) ∧
      j.CipherText = hex.EncodeToString cipherText ∧
      j.Mac = hex.EncodeToString
        (crypto.Hash256 Sample.env [(dk.store.take 32).drop 16, cipherText]).val :=
  ⟨by decide,
   let ⟨j, dk, priv, c, h1, h2, _, h4, h5, _, h7, h8, _⟩ :=
     envelope_construction Sample.env Sample.store Sample.key Sample.passphrase Sample.entropy
       Sample.file (by decide)
   ⟨j, dk, priv, c, h1, h2, h4, h5, h7, h8⟩⟩

/-- The passphrase keystore that decrypts plays no part in `GetKey`. -/
theorem keystore.GetKey_impl_irrelevant (E : Env) (fs : FileSys)
    (m1 m2 : keystore.passphraseKeyStore) (filename : GoString) (addr : types.Address)
    (auth : GoString) :
    keystore.GetKey E fs { impl := some m1 } filename addr auth =
      keystore.GetKey E fs { impl := some m2 } filename addr auth := by
  simp only [keystore.GetKey]

/-- `GetKey` through a passphrase keystore on a file that reads. -/
theorem keystore.GetKey_of_read (E : Env) (fs : FileSys) (m : keystore.passphraseKeyStore)
    (filename : GoString) (addr : types.Address) (auth : GoString) (data : List Byte)
    (key : Key) (hr : fs.read filename = .ok data)
    (hd : keystore.DecryptKey E data auth = .ok key) :
    keystore.GetKey E fs { impl := some m } filename addr auth =
      if key.Address ≠ addr then .error (.contentMismatch key.Address addr) else .ok key := by
  simp only [keystore.GetKey, hr, hd]

/-- A file stored by a keystore configured with `mEnc` is read back, with the
passphrase it was stored with, by a keystore configured with `mDec`. -/
theorem keystore.StoreKey_GetKey_cross (E : Env) (fs : FileSys)
    (mEnc mDec : keystore.passphraseKeyStore) (filename : GoString) (k : Key)
    (priv : PrivateKey) (auth : GoString) (ent : Entropy) (dk : Slice)
    (hk : k.PrivateKey = some priv)
    (hD : 0 < priv.D ∧ priv.D < (crypto.S256N : Int))
    (hkdf : E.scryptKey auth ent.salt mEnc.scryptN keystore.scryptR mEnc.scryptP
      keystore.scryptDKLen = .ret dk none)
    (hlen : dk.len = 32)
    (hjson : ∀ j, keystore.EncryptKey.envelope E mEnc k auth ent = .ok j →
      E.jsonUnmarshal (E.jsonMarshal j) = .ok j)
    (hX : (E.scalarBaseMult (PaddedBigBytes priv.D 32)).1 ≠ none)
    (hw : fs.writeErr filename = none) :
    ∃ fs1 key priv1,
      keystore.StoreKey E fs { impl := some mEnc } filename k auth ent = some (fs1, none) ∧
      keystore.GetKey E fs1 { impl := some mDec } filename k.Address auth = .ok key ∧
      key.PrivateKey = some priv1 ∧ priv1.D = priv.D ∧ key.Address = k.Address := by
  have hcap : 32 ≤ dk.store.length := hlen ▸ dk.le
  obtain ⟨data, hE, hDec⟩ := keystore.DecryptKey_EncryptKey_eq E mEnc k priv auth auth ent dk dk
    none hk hkdf hlen hkdf hcap hjson
  rw [if_neg (not_not.mpr rfl)] at hDec
  have hx : keystore.xorKeyStream (E.ctrKeyStream (keystore.encryptionKey dk) ent.iv) 0
      (keystore.cipherTextOf E dk ent.iv priv.D) = PaddedBigBytes priv.D 32 :=
    keystore.xorKeyStream_involutive _ _ _
  rw [hx, crypto.ToECDSAUnsafe_padded E priv.D hD hX] at hDec
  have hS : keystore.StoreKey E fs { impl := some mEnc } filename k auth ent =
      some (fs.write filename data, none) := by
    simp only [keystore.StoreKey, hE, hw]
  have hr : (fs.write filename data).read filename = .ok data := by
    simp only [FileSys.write, if_true]
  refine ⟨_, { Address := k.Address
               PrivateKey := some
                { PublicKey := { X := (E.scalarBaseMult (PaddedBigBytes priv.D 32)).1
                                 Y := (E.scalarBaseMult (PaddedBigBytes priv.D 32)).2 }
                  D := priv.D } }, _, hS, ?_, rfl, rfl, rfl⟩
  rw [keystore.GetKey_of_read E _ mDec filename k.Address auth data _ hr hDec]
  simp only [ne_eq, not_true_eq_false, if_false]

/-- C27. Decryption parameters travel with the envelope.  `GetKey` through a
passphrase keystore gives the same result whatever `(scryptN, scryptP)` the keystore
was configured with, in particular for the light and the standard preset, which
differ; and a file stored under a passphrase by a keystore of any configuration
`mEnc` (the key derivation succeeding with 32 bytes, the scalar in range,
`json.Unmarshal` reading the envelope back) is read back with that passphrase by a
keystore of any other configuration `mDec`, which returns the scalar stored: so from
light to standard, and from standard to light. -/
theorem decryption_parameters_travel (E : Env) :
    (∀ (fs : FileSys) (m1 m2 : keystore.passphraseKeyStore) (filename : GoString)
        (addr : types.Address) (auth : GoString),
      keystore.GetKey E fs { impl := some m1 } filename addr auth =
        keystore.GetKey E fs { impl := some m2 } filename addr auth) ∧
    (∀ (fs : FileSys) (filename : GoString) (addr : types.Address) (auth : GoString),
      keystore.GetKey E fs
          (keystore.NewPassphraseKeyStore keystore.LightScryptN keystore.LightScryptP)
          filename addr auth =
        keystore.GetKey E fs
          (keystore.NewPassphraseKeyStore keystore.StandardScryptN keystore.StandardScryptP)
          filename addr auth) ∧
    keystore.NewPassphraseKeyStore keystore.LightScryptN keystore.LightScryptP ≠
      keystore.NewPassphraseKeyStore keystore.StandardScryptN keystore.StandardScryptP ∧
    (∀ (fs : FileSys) (mEnc mDec : keystore.passphraseKeyStore) (filename : GoString) (k : Key)
        (priv : PrivateKey) (auth : GoString) (ent : Entropy) (dk : Slice),
      k.PrivateKey = some priv →
      (0 < priv.D ∧ priv.D < (crypto.S256N : Int)) →
      E.scryptKey auth ent.salt mEnc.scryptN keystore.scryptR mEnc.scryptP
        keystore.scryptDKLen = .ret dk none →
      dk.len = 32 →
      (∀ j, keystore.EncryptKey.envelope E mEnc k auth ent = .ok j →
        E.jsonUnmarshal (E.jsonMarshal j) = .ok j) →
      (E.scalarBaseMult (PaddedBigBytes priv.D 32)).1 ≠ none →
      fs.writeErr filename = none →
      ∃ fs1 key priv1,
        keystore.StoreKey E fs (keystore.NewPassphraseKeyStore mEnc.scryptN mEnc.scryptP)
          filename k auth ent = some (fs1, none) ∧
        keystore.GetKey E fs1 (keystore.NewPassphraseKeyStore mDec.scryptN mDec.scryptP)
          filename k.Address auth = .ok key ∧
        key.PrivateKey = some priv1 ∧ priv1.D = priv.D ∧ key.Address = k.Address) := by
  refine ⟨keystore.GetKey_impl_irrelevant E, fun fs filename addr auth =>
    keystore.GetKey_impl_irrelevant E fs _ _ filename addr auth, by decide, ?_⟩
  intro fs mEnc mDec filename k priv auth ent dk hk hD hkdf hlen hjson hX hw
  exact keystore.StoreKey_GetKey_cross E fs mEnc mDec filename k priv auth ent dk hk hD hkdf
    hlen hjson hX hw

set_option maxRecDepth 1000000 in
/-- C27, at the sample instance: the sample key stored by a keystore with
`(scryptN, scryptP) = (4, 1)` is read back by a keystore with the standard preset. -/
theorem decryption_parameters_travel_witness :
    ∃ fs1 key priv1,
      keystore.StoreKey Sample.env Sample.emptyDir
        (keystore.NewPassphraseKeyStore 4 1) Sample.path Sample.key Sample.passphrase
        Sample.entropy = some (fs1, none) ∧
      keystore.GetKey Sample.env fs1
        (keystore.NewPassphraseKeyStore keystore.StandardScryptN keystore.StandardScryptP)
        Sample.path Sample.key.Address Sample.passphrase = .ok key ∧
      key.PrivateKey = some priv1 ∧ priv1.D = 12345 ∧ key.Address = Sample.key.Address :=
  (decryption_parameters_travel Sample.env).2.2.2 Sample.emptyDir Sample.store
    { scryptN := keystore.StandardScryptN, scryptP := keystore.StandardScryptP }
    Sample.path Sample.key Sample.privateKey Sample.passphrase Sample.entropy
    Sample.derivedKey rfl (by decide) Sample.derivedKey_eq (by decide)
    Sample.unmarshal_of_envelope (by decide) rfl

/-- C28. `GetKey` binds the file to the requested address.  A key returned by
`GetKey` has the `Address` asked for; when the file reads and its decoding (by
`DecryptKey` for a passphrase keystore, by the plain decoding otherwise) returns a
key whose `Address` differs from the one asked for, `GetKey` returns the
content-mismatch error and no key; and after a successful `Unlock` the account holds
a key whose `Address` is the address of the account. -/
theorem GetKey_binds_address (E : Env) (fs : FileSys) :
    (∀ (m : keystore.keyStore) (filename : GoString) (addr : types.Address)
        (auth : GoString) (key : Key),
      keystore.GetKey E fs m filename addr auth = .ok key → key.Address = addr) ∧
    (∀ (m : keystore.keyStore) (filename : GoString) (addr : types.Address)
        (auth : GoString) (data : List Byte) (key : Key),
      fs.read filename = .ok data →
      (match m.impl with
        | some _ => keystore.DecryptKey E data auth
        | none => keystore.plainDecryptKey E data) = .ok key →
      key.Address ≠ addr →
      keystore.GetKey E fs m filename addr auth
        = .error (.contentMismatch key.Address addr)) ∧
    (∀ (a : accounts.account) (passphrase : GoString) (timeout : Int)
        (r : accounts.UnlockResult),
      accounts.Unlock E fs a passphrase timeout = some r → r.err = none →
      ∃ key, r.acct.key = some key ∧ key.Address = accounts.Address a ∧
        accounts.Address r.acct = accounts.Address a) := by
  refine ⟨fun m filename addr auth key h =>
    keystore.GetKey_address E fs m filename addr auth key h, ?_, ?_⟩
  · intro m filename addr auth data key hr hd hne
    cases m with
    | mk impl =>
      cases impl with
      | none =>
        have hd2 : keystore.plainDecryptKey E data = .ok key := hd
        simp only [keystore.GetKey, hr, hd2, if_pos hne]
      | some ks =>
        have hd2 : keystore.DecryptKey E data auth = .ok key := hd
        simp only [keystore.GetKey, hr, hd2, if_pos hne]
  · intro a passphrase timeout r h herr
    unfold accounts.Unlock at h
    split at h
    · cases h
    · cases h
      cases herr
    · rename_i key hkey
      cases h
      exact ⟨key, rfl, keystore.GetKey_address E fs _ _ _ _ key hkey, rfl⟩

set_option maxRecDepth 1000000 in
/-- C28, at the sample instance: the file `Sample.strayFile` decrypts to a key with
another address than the one asked for, and `GetKey` returns the content-mismatch
error. -/
theorem GetKey_binds_address_witness :
    keystore.GetKey Sample.env (Sample.fileSys Sample.strayFile)
        (keystore.NewPassphraseKeyStore keystore.StandardScryptN keystore.StandardScryptP)
        Sample.path Sample.address Sample.passphrase
      = .error (.contentMismatch Sample.strayKey.Address Sample.address) :=
  (GetKey_binds_address Sample.env (Sample.fileSys Sample.strayFile)).2.1
    (keystore.NewPassphraseKeyStore keystore.StandardScryptN keystore.StandardScryptP)
    Sample.path Sample.address Sample.passphrase Sample.strayFile Sample.strayKey
    (by decide) (by decide) (by decide)

end Fusion
namespace Fusion

/-! ## The checksum encoding of an address: C24 -/

/-- One step of the loop of `Address.Hex` on a character of a lower-case hex
string: the character is kept unless it is a letter and the nibble is above 7, in
which case it becomes the upper-case letter. -/
theorem types.Address.Hex.step_spec (c : Byte) (big : Bool)
    (hc : (48 ≤ c.val ∧ c.val ≤ 57) ∨ (97 ≤ c.val ∧ c.val ≤ 102)) :
    ((if c.val > 57 ∧ big = true then c - 32 else c) = c ∨
      (65 ≤ (if c.val > 57 ∧ big = true then c - 32 else c).val ∧
        (if c.val > 57 ∧ big = true then c - 32 else c).val ≤ 70 ∧
        (if c.val > 57 ∧ big = true then c - 32 else c).val + 32 = c.val)) ∧
    ((48 ≤ c.val ∧ c.val ≤ 57) → (if c.val > 57 ∧ big = true then c - 32 else c) = c) ∧
    ((65 ≤ (if c.val > 57 ∧ big = true then c - 32 else c).val ∧
        (if c.val > 57 ∧ big = true then c - 32 else c).val ≤ 90) ↔
      ((97 ≤ c.val ∧ c.val ≤ 102) ∧ big = true)) := by
  revert hc big c
  set_option maxRecDepth 1000000 in decide

theorem types.Address.Hex.loop_length (hash : types.Hash) (i : Nat) (l : List Byte) :
    (types.Address.Hex.loop hash i l).length = l.length := by
  induction l generalizing i with
  | nil => rfl
  | cons c rest ih => simp only [types.Address.Hex.loop, List.length_cons, ih]

theorem types.Address.Hex.loop_getD (hash : types.Hash) (i j : Nat) (l : List Byte)
    (hj : j < l.length) :
    (types.Address.Hex.loop hash i l).getD j 0 =
      if (l.getD j 0).val > 57 ∧ types.Address.Hex.hashByte hash (i + j) > 7
      then l.getD j 0 - 32 else l.getD j 0 := by
  induction l generalizing i j with
  | nil => simp at hj
  | cons c rest ih =>
    cases j with
    | zero => simp only [types.Address.Hex.loop, List.getD_cons_zero, Nat.add_zero]
    | succ j =>
      simp only [types.Address.Hex.loop, List.getD_cons_succ]
      rw [ih (i + 1) j (by simpa using hj), Nat.add_assoc, Nat.add_comm 1 j]

theorem types.Address.Hex.hashByte_eq (hash : types.Hash) (i : Nat) :
    types.Address.Hex.hashByte hash i =
      if i % 2 = 0 then (hash.val.getD (i / 2) 0).val / 16
      else (hash.val.getD (i / 2) 0).val % 16 := by
  simp only [types.Address.Hex.hashByte]
  split
  · rw [Nat.shiftRight_eq_div_pow]
  · exact Nat.and_pow_two_sub_one_eq_mod _ 4

theorem hex.EncodeToString_getD_lower (b : List Byte) (i : Nat)
    (hi : i < (hex.EncodeToString b).length) :
    (48 ≤ ((hex.EncodeToString b).getD i 0).val ∧ ((hex.EncodeToString b).getD i 0).val ≤ 57) ∨
    (97 ≤ ((hex.EncodeToString b).getD i 0).val ∧
      ((hex.EncodeToString b).getD i 0).val ≤ 102) := by
  apply hex.EncodeToString_lower b
  rw [List.getD_eq_getElem _ _ hi]
  exact List.getElem_mem _

/-- C24. Checksum encoding of an address.  `a.Hex()` has 40 characters, like the
lower-case hex encoding of `a`, whose characters are digits or letters `a`-`f`.  At
every position `i` below 40, with `lo` the character of the lower-case encoding and
`up` the one of `a.Hex()`: `up` is `lo`, or `up` is the upper-case letter of `lo`
(the two strings are equal when compared case-insensitively); a decimal digit is
not altered; and `up` is upper case if and only if `lo` is a letter and the `i`-th
nibble of the BLAKE2b-256 digest of the lower-case string (the high half of byte
`i/2` for an even `i`, the low half for an odd one) is greater than 7, which is to
say that the top bit of the nibble is set.  `a.String()` is `"0x"` followed by
`a.Hex()`. -/
theorem Address_Hex_checksum (E : Env) (a : types.Address) :
    (types.Address.Hex E a).length = 40 ∧
    (hex.EncodeToString a.val).length = 40 ∧
    (∀ i, i < 40 →
      ((48 ≤ ((hex.EncodeToString a.val).getD i 0).val ∧
          ((hex.EncodeToString a.val).getD i 0).val ≤ 57) ∨
        (97 ≤ ((hex.EncodeToString a.val).getD i 0).val ∧
          ((hex.EncodeToString a.val).getD i 0).val ≤ 102)) ∧
      ((types.Address.Hex E a).getD i 0 = (hex.EncodeToString a.val).getD i 0 ∨
        (65 ≤ ((types.Address.Hex E a).getD i 0).val ∧
          ((types.Address.Hex E a).getD i 0).val ≤ 70 ∧
          ((types.Address.Hex E a).getD i 0).val + 32
            = ((hex.EncodeToString a.val).getD i 0).val)) ∧
      ((48 ≤ ((hex.EncodeToString a.val).getD i 0).val ∧
          ((hex.EncodeToString a.val).getD i 0).val ≤ 57) →
        (types.Address.Hex E a).getD i 0 = (hex.EncodeToString a.val).getD i 0) ∧
      ((65 ≤ ((types.Address.Hex E a).getD i 0).val ∧
          ((types.Address.Hex E a).getD i 0).val ≤ 90) ↔
        ((97 ≤ ((hex.EncodeToString a.val).getD i 0).val ∧
            ((hex.EncodeToString a.val).getD i 0).val ≤ 102) ∧
          (if i % 2 = 0
            then ((blake2b.Sum256 E (hex.EncodeToString a.val)).val.getD (i / 2) 0).val / 16
            else ((blake2b.Sum256 E (hex.EncodeToString a.val)).val.getD (i / 2) 0).val % 16)
            > 7)) ∧
      ((if i % 2 = 0
          then ((blake2b.Sum256 E (hex.EncodeToString a.val)).val.getD (i / 2) 0).val / 16
          else ((blake2b.Sum256 E (hex.EncodeToString a.val)).val.getD (i / 2) 0).val % 16) > 7
        ↔ (if i % 2 = 0
          then ((blake2b.Sum256 E (hex.EncodeToString a.val)).val.getD (i / 2) 0).val / 128
          else ((blake2b.Sum256 E (hex.EncodeToString a.val)).val.getD (i / 2) 0).val / 8 % 2)
            = 1)) ∧
    types.Address.String E a = [48, 120] ++ types.Address.Hex E a := by
  have hlen : (hex.EncodeToString a.val).length = 40 := by
    rw [hex.EncodeToString_length, a.property]; rfl
  refine ⟨?_, hlen, ?_, rfl⟩
  · show (types.Address.Hex.loop _ 0 _).length = 40
    rw [types.Address.Hex.loop_length, hlen]
  · intro i hi
    have hi2 : i < (hex.EncodeToString a.val).length := by rw [hlen]; exact hi
    have hlo := hex.EncodeToString_getD_lower a.val i hi2
    have hup : (types.Address.Hex E a).getD i 0 =
        if ((hex.EncodeToString a.val).getD i 0).val > 57 ∧
            decide (types.Address.Hex.hashByte (blake2b.Sum256 E (hex.EncodeToString a.val)) i
              > 7) = true
        then (hex.EncodeToString a.val).getD i 0 - 32 else (hex.EncodeToString a.val).getD i 0 := by
      show (types.Address.Hex.loop _ 0 _).getD i 0 = _
      rw [types.Address.Hex.loop_getD _ 0 i _ hi2, Nat.zero_add]
      simp only [decide_eq_true_eq]
    obtain ⟨h1, h2, h3⟩ := types.Address.Hex.step_spec ((hex.EncodeToString a.val).getD i 0)
      (decide (types.Address.Hex.hashByte (blake2b.Sum256 E (hex.EncodeToString a.val)) i > 7))
      hlo
    rw [← hup] at h1 h2 h3
    rw [decide_eq_true_eq, types.Address.Hex.hashByte_eq] at h3
    refine ⟨hlo, h1, h2, h3, ?_⟩
    have hb := ((blake2b.Sum256 E (hex.EncodeToString a.val)).val.getD (i / 2) 0).isLt
    split <;> omega

set_option maxRecDepth 1000000 in
/-- C24, at the sample instance: the address `9b5613d2...` is rendered
`9b5613D2...`, the `d` at position 6 being a letter under a nibble above 7. -/
theorem Address_Hex_checksum_witness :
    types.Address.Hex Sample.env Sample.address =
      [57, 98, 53, 54, 49, 51, 68, 50, 57, 51, 53, 54, 49, 66, 69, 50, 97, 98, 55, 54, 52, 51,
        49, 50, 101, 51, 66, 54, 56, 66, 54, 50, 51, 98, 49, 54, 102, 51, 68, 50] ∧
    (hex.EncodeToString Sample.address.val).getD 6 0 = 100 ∧
    ((65 ≤ ((types.Address.Hex Sample.env Sample.address).getD 6 0).val ∧
        ((types.Address.Hex Sample.env Sample.address).getD 6 0).val ≤ 90) ↔
      ((97 ≤ ((hex.EncodeToString Sample.address.val).getD 6 0).val ∧
          ((hex.EncodeToString Sample.address.val).getD 6 0).val ≤ 102) ∧
        (if 6 % 2 = 0
          then ((blake2b.Sum256 Sample.env
            (hex.EncodeToString Sample.address.val)).val.getD (6 / 2) 0).val / 16
          else ((blake2b.Sum256 Sample.env
            (hex.EncodeToString Sample.address.val)).val.getD (6 / 2) 0).val % 16) > 7)) :=
  ⟨by decide, by decide,
   ((Address_Hex_checksum Sample.env Sample.address).2.2.1 6 (by decide)).2.2.2.1⟩

end Fusion
